/-
Verification of the queue-family / traversal core of the python-roadmap
repository: the CPython `heapq` algorithms used by `PriorityQueue` and
`MutableMinHeap` (src/materials-queue/src/queues.py), the BFS / DFS /
shortest-path engine (src/materials-queue/src/yuhua_graph_test.py), and the
depth-bounded crawler worker (src/materials-queue/src/async_queues.py).

Python state is embedded explicitly: mutable lists become `List`,
dictionaries become functions into `Option`, iterators become list
suffixes, exceptions become `Except` / `Option`, and unbounded `while`
loops take an explicit fuel argument (every theorem proves the fuel that
suffices).
-/
import Mathlib

/-! ### Crawler data model (async_queues.py)

`Job` is a NamedTuple `url, depth`; `Job.__lt__` compares only URL lengths
(line 18-20 of async_queues.py).  The value type of URLs is `String`. -/

structure Job where
  url : String
  depth : Nat
deriving DecidableEq, Repr

/-- `Job.__lt__`: priority is URL length only (no tie-break field). -/
def job_lt (j1 j2 : Job) : Bool :=
  j1.url.length < j2.url.length

/-- Exceptions the worker body can raise: `aiohttp.ClientError` or anything
else (which the `except aiohttp.ClientError` clause does not catch). -/
inductive PyExc where
  | clientError
  | other
deriving DecidableEq, Repr

/-- Result of one worker loop iteration: the child jobs put on the queue,
how many times `queue.task_done()` ran, and an uncaught exception if any. -/
structure StepResult where
  enqueued : List Job
  taskDoneCalls : Nat
  raised : Option PyExc
deriving DecidableEq, Repr

/-- One iteration of `worker` (async_queues.py lines 59-82) acting on one
dequeued job.  `fetch` models `fetch_html` (returns the page text, `none`
for non-HTML/non-ok responses, or raises), `parse` models `parse_links`.
The counter update `links[url] += 1` happens before the `try` block; the
`try`/`except aiohttp.ClientError`/`finally: queue.task_done()` structure
is modelled explicitly. -/
def worker_step (max_depth : Nat) (fetch : String → Except PyExc (Option String))
    (parse : String → String → List String) (job : Job) (links : String → Nat) :
    (String → Nat) × StepResult :=
  let links' : String → Nat := fun u => if u = job.url then links u + 1 else links u
  -- try-block body: `if depth < max_depth: if html := await fetch_html(...): for ... put(...)`
  let body : Except PyExc (List Job) :=
    if job.depth < max_depth then
      match fetch job.url with
      | .ok (some html) => .ok ((parse job.url html).map (fun u => ⟨u, job.depth + 1⟩))
      | .ok none => .ok []
      | .error e => .error e
    else .ok []
  -- `except aiohttp.ClientError:` catches only the client error, job yields no children
  let handled : Except PyExc (List Job) :=
    match body with
    | .error .clientError => .ok []
    | r => r
  -- `finally: queue.task_done()` runs on every control path
  match handled with
  | .ok ch => (links', ⟨ch, 1, none⟩)
  | .error e => (links', ⟨[], 1, some e⟩)

/-- Sequential execution of the worker pool until the frontier empties:
repeatedly take the first job, run `worker_step`, append its children.
`fuel` bounds the number of processed jobs. -/
def drain (max_depth : Nat) (fetch : String → Except PyExc (Option String))
    (parse : String → String → List String) :
    Nat → List Job → (String → Nat) → (String → Nat)
  | 0, _, links => links
  | _ + 1, [], links => links
  | fuel + 1, job :: rest, links =>
      let r := worker_step max_depth fetch parse job links
      drain max_depth fetch parse fuel (rest ++ r.2.enqueued) r.1

/-! ### CPython `heapq`

`queues.py` drives its containers with `heappush`, `heappop` and `heapify`
from the standard library, and `async_queues.py` uses `asyncio.PriorityQueue`
which is the same heap.  The four CPython routines `_siftdown`, `_siftup`,
`heappush`, `heappop` and `heapify` are transcribed here over `List α` with
a boolean strict comparison `lt` standing for Python's `<`.  The loops get
an explicit fuel argument; `_siftdown`'s loop runs at most `pos` times and
`_siftup`'s at most `heap.length - pos` times, so the callers pass fuel
that provably suffices (`pos`, resp. `heap.length`). -/

/-- Parent index in the array representation of the binary heap:
CPython's `parentpos = (pos - 1) >> 1`. -/
def parentIdx (i : Nat) : Nat := (i - 1) / 2

/-- CPython `_siftdown(heap, startpos, pos)` loop: `newitem` was read from
`heap[pos]`; while `pos > startpos`, compare `newitem` with the parent and
move the parent down.  Finally write `newitem` at the resting position. -/
def siftdownGo [Inhabited α] (lt : α → α → Bool) (startpos : Nat) (newitem : α) :
    Nat → List α → Nat → List α
  | 0, heap, pos => heap.set pos newitem
  | fuel + 1, heap, pos =>
      if startpos < pos then
        let parentpos := parentIdx pos
        let parent := heap.getD parentpos default
        if lt newitem parent then
          siftdownGo lt startpos newitem fuel (heap.set pos parent) parentpos
        else heap.set pos newitem
      else heap.set pos newitem

/-- CPython `_siftdown(heap, startpos, pos)`. -/
def siftdown [Inhabited α] (lt : α → α → Bool) (heap : List α) (startpos pos : Nat) :
    List α :=
  siftdownGo lt startpos (heap.getD pos default) pos heap pos

/-- The descending loop of CPython `_siftup(heap, pos)`: follow the chain of
"smaller" children down to a leaf, moving each chosen child up into the
current position; returns the final list and the leaf position. -/
def siftupGo [Inhabited α] (lt : α → α → Bool) : Nat → List α → Nat → List α × Nat
  | 0, heap, pos => (heap, pos)
  | fuel + 1, heap, pos =>
      let childpos := 2 * pos + 1
      if childpos < heap.length then
        let rightpos := childpos + 1
        let c :=
          if rightpos < heap.length &&
              !(lt (heap.getD childpos default) (heap.getD rightpos default)) then
            rightpos
          else childpos
        siftupGo lt fuel (heap.set pos (heap.getD c default)) c
      else (heap, pos)

/-- CPython `_siftup(heap, pos)`: save `newitem = heap[pos]`, run the
descending loop, write `newitem` into the leaf reached, then restore the
heap edge upwards with `_siftdown(heap, pos, leafpos)`. -/
def siftup [Inhabited α] (lt : α → α → Bool) (heap : List α) (pos : Nat) : List α :=
  let newitem := heap.getD pos default
  let dp := siftupGo lt heap.length heap pos
  siftdownGo lt pos newitem dp.2 (dp.1.set dp.2 newitem) dp.2

/-- CPython `heappush(heap, item)`: append then `_siftdown(heap, 0, len-1)`. -/
def heappush [Inhabited α] (lt : α → α → Bool) (heap : List α) (item : α) : List α :=
  siftdown lt (heap ++ [item]) 0 heap.length

/-- CPython `heappop(heap)`: pop the last element (IndexError — `none` — on an
empty heap); if elements remain, return the root, move the last element to the
root and `_siftup(heap, 0)`. -/
def heappop [Inhabited α] (lt : α → α → Bool) (heap : List α) : Option (α × List α) :=
  match heap.getLast? with
  | none => none
  | some lastelt =>
      let rest := heap.dropLast
      if rest.isEmpty then some (lastelt, [])
      else some (rest.getD 0 default, siftup lt (rest.set 0 lastelt) 0)

/-- CPython `heapify(x)`: `for i in reversed(range(n//2)): _siftup(x, i)`. -/
def heapify [Inhabited α] (lt : α → α → Bool) (heap : List α) : List α :=
  (List.range (heap.length / 2)).reverse.foldl (fun h i => siftup lt h i) heap

/-- The array heap invariant: every non-root entry compares `not <` its
parent, i.e. `lt heap[i] heap[parent i] = false`. -/
def IsHeap [Inhabited α] (lt : α → α → Bool) (l : List α) : Prop :=
  ∀ i, i < l.length → 0 < i →
    lt (l.getD i default) (l.getD (parentIdx i) default) = false

instance [Inhabited α] (lt : α → α → Bool) (l : List α) :
    Decidable (IsHeap lt l) := by
  unfold IsHeap; infer_instance

/-! ### PriorityQueue (queues.py lines 40-50)

Elements are the tuples `(-priority, next(counter), value)`; Python compares
tuples lexicographically, reaching the `value` component only when both the
negated priority and the counter tie.  The comparison on values is an
arbitrary boolean relation `vlt` (Python `value.__lt__`, about which nothing
is assumed — it may be meaningless for un-comparable values). -/

/-- Python tuple comparison `(-p1, c1, v1) < (-p2, c2, v2)` specialised to
the `PriorityQueue` entry shape. -/
def entry_lt (vlt : V → V → Bool) (a b : Int × Nat × V) : Bool :=
  if a.1 ≠ b.1 then a.1 < b.1
  else if a.2.1 ≠ b.2.1 then a.2.1 < b.2.1
  else vlt a.2.2 b.2.2

structure PriorityQueue (V : Type) where
  elements : List (Int × Nat × V)
  counter : Nat
deriving Repr, DecidableEq

def pq_empty : PriorityQueue V := ⟨[], 0⟩

/-- `enqueue_with_priority`: push `(-priority, next(counter), value)`. -/
def enqueue_with_priority [Inhabited V] (vlt : V → V → Bool) (q : PriorityQueue V)
    (priority : Int) (value : V) : PriorityQueue V :=
  ⟨heappush (entry_lt vlt) q.elements (-priority, q.counter, value), q.counter + 1⟩

/-- `PriorityQueue.dequeue`: `heappop(self._elements)[-1]`; `none` models the
`IndexError` raised on an empty heap. -/
def pq_dequeue [Inhabited V] (vlt : V → V → Bool) (q : PriorityQueue V) :
    Option (V × PriorityQueue V) :=
  (heappop (entry_lt vlt) q.elements).map (fun er => (er.1.2.2, ⟨er.2, q.counter⟩))

/-- An operation on the priority queue: enqueue with a priority, or dequeue. -/
inductive PQOp (V : Type) where
  | enq (priority : Int) (value : V)
  | deq
deriving Repr

/-- Run a sequence of operations; each `deq` records the dequeued value
(`none` when dequeuing from empty, which in Python raises and leaves the
queue unchanged). -/
def pq_run [Inhabited V] (vlt : V → V → Bool) :
    List (PQOp V) → PriorityQueue V → PriorityQueue V
  | [], q => q
  | .enq p v :: ops, q => pq_run vlt ops (enqueue_with_priority vlt q p v)
  | .deq :: ops, q =>
      match pq_dequeue vlt q with
      | none => pq_run vlt ops q
      | some vq => pq_run vlt ops vq.2

/-! ### MutableMinHeap (queues.py lines 53-84)

`Element` is a `@dataclass(order=True)` with fields `(priority, count,
value)`, so Python compares elements lexicographically by `(priority, count)`
before ever looking at `value`.  The heap list and the dictionary
`_elements_by_value` share the *same* mutable `Element` objects; we model
that aliasing by storing the value in the heap list and keeping the mutable
`(priority, count)` pair in a map keyed by value, which every comparison
reads at comparison time — exactly what attribute access on the shared
object does. -/

/-- Comparison of two `Element`s through the current priority map:
lexicographic on `(priority, count)`, falling back to the value comparison
`vlt` only on a full tie. -/
def mmh_lt (vlt : V → V → Bool) (m : V → Option (Int × Nat)) (a b : V) : Bool :=
  let pa := (m a).getD (0, 0)
  let pb := (m b).getD (0, 0)
  if pa.1 ≠ pb.1 then pa.1 < pb.1
  else if pa.2 ≠ pb.2 then pa.2 < pb.2
  else vlt a b

structure MutableMinHeap (V : Type) where
  elements_by_value : V → Option (Int × Nat)
  elements : List V
  counter : Nat

def mmh_empty : MutableMinHeap V := ⟨fun _ => none, [], 0⟩

/-- `MutableMinHeap.__setitem__(unique_value, priority)`: update the shared
element in place and re-`heapify` when the key exists, otherwise create an
`Element(priority, next(counter), value)`, record it in the dictionary and
`heappush` it. -/
def mmh_setitem [DecidableEq V] [Inhabited V] (vlt : V → V → Bool)
    (h : MutableMinHeap V) (value : V) (priority : Int) : MutableMinHeap V :=
  match h.elements_by_value value with
  | some pc =>
      let m' := fun z => if z = value then some (priority, pc.2) else h.elements_by_value z
      ⟨m', heapify (mmh_lt vlt m') h.elements, h.counter⟩
  | none =>
      let m' := fun z => if z = value then some (priority, h.counter) else h.elements_by_value z
      ⟨m', heappush (mmh_lt vlt m') h.elements value, h.counter + 1⟩

/-- `MutableMinHeap.__getitem__`: `self._elements_by_value[unique_value].priority`;
`none` models the `KeyError` on a missing key. -/
def mmh_getitem (h : MutableMinHeap V) (value : V) : Option Int :=
  (h.elements_by_value value).map (·.1)

/-- `MutableMinHeap.dequeue`: `heappop(self._elements).value`.  Note the
dictionary is left untouched. -/
def mmh_dequeue [Inhabited V] (vlt : V → V → Bool) (h : MutableMinHeap V) :
    Option (V × MutableMinHeap V) :=
  (heappop (mmh_lt vlt h.elements_by_value) h.elements).map
    (fun vr => (vr.1, ⟨h.elements_by_value, vr.2, h.counter⟩))

/-- The mapping/heap coupling invariant stated by the spec for
`MutablePriorityIndex`: every key present in the dictionary has exactly one
entry present in the heap. -/
def mmh_key_heap_inv [DecidableEq V] (h : MutableMinHeap V) : Prop :=
  ∀ v, h.elements_by_value v ≠ none → h.elements.count v = 1

instance [DecidableEq V] [Fintype V] (h : MutableMinHeap V) :
    Decidable (mmh_key_heap_inv h) :=
  decidable_of_iff (∀ v, h.elements_by_value v ≠ none → h.elements.count v = 1) Iff.rfl

/-! ### Graph traversal engine (yuhua_graph_test.py)

A graph is an adjacency function `adj : α → List α` (the
`get_neighbors_of_node` collaborator, materialised as an ordered list).
`Queue` is a FIFO deque and `Stack` its LIFO subclass; both are inlined as
`List` operations.  Python `while` loops take fuel. -/

/-- `ReachN adj n a b`: there is a walk of exactly `n` edges from `a` to `b`. -/
def ReachN (adj : α → List α) : Nat → α → α → Prop
  | 0, a, b => b = a
  | n + 1, a, b => ∃ c, ReachN adj n a c ∧ b ∈ adj c

/-- `b` is reachable from `a` by some walk. -/
def Reaches (adj : α → List α) (a b : α) : Prop := ∃ n, ReachN adj n a b

/-- A list of nodes is a path in the graph: each node is a neighbor of the
previous one. -/
def IsPath (adj : α → List α) (p : List α) : Prop :=
  List.Chain' (fun a b => b ∈ adj a) p

/-- The inner `for neighbor in neighbors` loop of `traverse_network_bfs`
(lines 117-121): check `visited`, mark, enqueue. -/
def enqueueNew [DecidableEq α] : List α → List α → List α → List α × List α
  | visited, queue, [] => (visited, queue)
  | visited, queue, x :: xs =>
      if x ∈ visited then enqueueNew visited queue xs
      else enqueueNew (x :: visited) (queue ++ [x]) xs

/-- The `while q:` loop of `traverse_network_bfs`, yielding dequeued nodes. -/
def bfsAux [DecidableEq α] (adj : α → List α) : Nat → List α → List α → List α
  | 0, _, _ => []
  | _ + 1, [], _ => []
  | fuel + 1, node :: q, visited =>
      let vq := enqueueNew visited q (adj node)
      node :: bfsAux adj fuel vq.2 vq.1

/-- `traverse_network_bfs(network, root)`: the list of yielded nodes. -/
def traverse_network_bfs [DecidableEq α] (adj : α → List α) (root : α) (fuel : Nat) :
    List α :=
  bfsAux adj fuel [root] [root]

/-- The `while q:` loop of `traverse_network_dfs` (lines 133-142).  The
stack holds `(node, iterator)` pairs; the partially consumed neighbor
iterator is the remaining list suffix.  The head of the list is the top of
the stack (`peak`/`enqueue`/`dequeue` act on the same end). -/
def dfsAux [DecidableEq α] (adj : α → List α) : Nat → List (α × List α) → List α → List α
  | 0, _, _ => []
  | _ + 1, [], _ => []
  | fuel + 1, (node, neighbors) :: rest, visited =>
      match neighbors with
      | [] => dfsAux adj fuel rest visited
      | x :: xs =>
          if x ∈ visited then dfsAux adj fuel ((node, xs) :: rest) visited
          else x :: dfsAux adj fuel ((x, adj x) :: (node, xs) :: rest) (x :: visited)

/-- `traverse_network_dfs(network, root)`: yields the root first, then runs
the stack loop. -/
def traverse_network_dfs [DecidableEq α] (adj : α → List α) (root : α) (fuel : Nat) :
    List α :=
  root :: dfsAux adj fuel [(root, adj root)] [root]

/-- The `while current != source` loop of `retrace` (lines 148-152),
accumulating the deque `path`.  Fuel bounds the backward walk; `none` is
Python's `return None` on a missing predecessor (and the fuel-out value,
which sufficient fuel makes unreachable). -/
def retraceGo [DecidableEq α] (previous : α → Option α) (source : α) :
    Nat → α → List α → Option (List α)
  | 0, _, _ => none
  | fuel + 1, current, path =>
      if current = source then some (current :: path)
      else
        match previous current with
        | none => none
        | some p => retraceGo previous source fuel p (current :: path)

/-- `retrace(previous, source, destination)`. -/
def retrace [DecidableEq α] (previous : α → Option α) (source destination : α)
    (fuel : Nat) : Option (List α) :=
  retraceGo previous source fuel destination []

/-- `neighbors.sort(key=order_by)` — Python's stable ascending sort by key.
`List.insertionSort` with the reflexive key comparison is a stable sort, so
it produces the same list as Python's. -/
def orderNeighbors [LinearOrder β] (order_by : Option (α → β)) (neighbors : List α) :
    List α :=
  match order_by with
  | none => neighbors
  | some f => neighbors.insertionSort (fun a b => f a ≤ f b)

/-- The inner `for neighbor in neighbors` loop of `shortest_path`
(lines 175-181): skip visited neighbors; otherwise mark visited, enqueue,
record the predecessor, and return `retrace(...)` as soon as the neighbor is
the destination.  `Sum.inl` is the early `return`, `Sum.inr` the state
`(queue, visited, previous)` at normal loop exit. -/
def spInner [DecidableEq α] (source dest : α) (rfuel : Nat) (node : α) :
    List α → List α → List α → (α → Option α) →
    Option (List α) ⊕ (List α × List α × (α → Option α))
  | [], q, visited, previous => .inr (q, visited, previous)
  | y :: ys, q, visited, previous =>
      if y ∈ visited then spInner source dest rfuel node ys q visited previous
      else
        let previous' := fun z => if z = y then some node else previous z
        if y = dest then .inl (retraceGo previous' source rfuel dest [])
        else spInner source dest rfuel node ys (q ++ [y]) (y :: visited) previous'

/-- The `while queue:` loop of `shortest_path` (lines 170-182). -/
def spLoop [DecidableEq α] [LinearOrder β] (adj : α → List α)
    (order_by : Option (α → β)) (source dest : α) (rfuel : Nat) :
    Nat → List α → List α → (α → Option α) → Option (List α)
  | 0, _, _, _ => none
  | _ + 1, [], _, _ => some []
  | fuel + 1, node :: q, visited, previous =>
      match spInner source dest rfuel node (orderNeighbors order_by (adj node))
          q visited previous with
      | .inl res => res
      | .inr s => spLoop adj order_by source dest rfuel fuel s.1 s.2.1 s.2.2

/-- `shortest_path(network, source, destination, order_by)`.  The result is
`some path` for a found path, `some []` for the `return []` fall-through,
and `none` for Python's `None` (broken `retrace`) or fuel exhaustion. -/
def shortest_path [DecidableEq α] [LinearOrder β] (adj : α → List α)
    (source dest : α) (order_by : Option (α → β)) (fuel : Nat) : Option (List α) :=
  spLoop adj order_by source dest fuel fuel [source] [source] (fun _ => none)

instance : Inhabited Job := ⟨⟨"", 0⟩⟩

/-- A state-changing operation on the mutable min-heap: `__setitem__` or
`dequeue` (`__getitem__` reads without mutating). -/
inductive MMHOp (V : Type) where
  | setitem (value : V) (priority : Int)
  | deq
deriving Repr

/-- Run a sequence of operations on a `MutableMinHeap` (a dequeue from an
empty heap raises in Python; here it leaves the state unchanged). -/
def mmh_run [DecidableEq V] [Inhabited V] (vlt : V → V → Bool) :
    List (MMHOp V) → MutableMinHeap V → MutableMinHeap V
  | [], h => h
  | .setitem v p :: ops, h => mmh_run vlt ops (mmh_setitem vlt h v p)
  | .deq :: ops, h =>
      match mmh_dequeue vlt h with
      | none => mmh_run vlt ops h
      | some vr => mmh_run vlt ops vr.2

/-- Run-time invariant of `PriorityQueue`: every stored entry's counter was
drawn from `next(self._counter)`, so counters are below the counter state,
pairwise distinct, and the heap array satisfies the heap invariant for the
value-blind comparison (the one Python effectively uses, since the value
component is never reached). -/
def PQInv [Inhabited V] (q : PriorityQueue V) : Prop :=
  (∀ e ∈ q.elements, e.2.1 < q.counter) ∧
  (q.elements.map (fun e => e.2.1)).Nodup ∧
  IsHeap (entry_lt (fun _ _ => false)) q.elements

/-- Run-time invariant of `MutableMinHeap`: the heap list is duplicate-free,
every heap entry is a dictionary key, counters are below the counter state
and pairwise distinct, and the heap invariant holds for the value-blind
element comparison read through the current dictionary. -/
def MMHInv [Inhabited V] (h : MutableMinHeap V) : Prop :=
  h.elements.Nodup ∧
  (∀ v ∈ h.elements, h.elements_by_value v ≠ none) ∧
  (∀ v p c, h.elements_by_value v = some (p, c) → c < h.counter) ∧
  (∀ v w pv cv pw cw, h.elements_by_value v = some (pv, cv) →
      h.elements_by_value w = some (pw, cw) → v ≠ w → cv ≠ cw) ∧
  IsHeap (mmh_lt (fun _ _ => false) h.elements_by_value) h.elements

instance instDecidableReachN [DecidableEq α] [Fintype α] (adj : α → List α) :
    ∀ (n : Nat) (a b : α), Decidable (ReachN adj n a b) := fun n => by
  induction n with
  | zero => intro a b; exact decidable_of_iff (b = a) Iff.rfl
  | succ n ih =>
    intro a b
    haveI hD : DecidablePred fun c => ReachN adj n a c ∧ b ∈ adj c := fun c =>
      @instDecidableAnd _ _ (ih a c) _
    exact decidable_of_iff (∃ c, ReachN adj n a c ∧ b ∈ adj c) Iff.rfl

/-! ## Theorems -/

/-! ### Worker completion signalling (C9) and the depth-1 crawl scenario (C5) -/

theorem worker_step_links (max_depth : Nat) (fetch : String → Except PyExc (Option String))
    (parse : String → String → List String) (job : Job) (links : String → Nat) :
    (worker_step max_depth fetch parse job links).1 =
      fun u => if u = job.url then links u + 1 else links u := by
  unfold worker_step
  by_cases hd : job.depth < max_depth
  · cases hf : fetch job.url with
    | ok o => cases o <;> simp [hd, hf]
    | error e => cases e <;> simp [hd, hf]
  · simp [hd]

theorem worker_step_depth_exhausted (max_depth : Nat)
    (fetch : String → Except PyExc (Option String))
    (parse : String → String → List String) (job : Job) (links : String → Nat)
    (h : max_depth ≤ job.depth) :
    (worker_step max_depth fetch parse job links).2.enqueued = [] := by
  unfold worker_step
  simp [Nat.not_lt.mpr h]

theorem worker_step_fetch_ok (max_depth : Nat)
    (fetch : String → Except PyExc (Option String))
    (parse : String → String → List String) (job : Job) (links : String → Nat)
    (html : String) (hd : job.depth < max_depth) (hf : fetch job.url = .ok (some html)) :
    (worker_step max_depth fetch parse job links).2.enqueued =
      (parse job.url html).map (fun u => ⟨u, job.depth + 1⟩) := by
  unfold worker_step
  simp [hd, hf]

/-- C9: every dequeued job leads to exactly one `task_done()` signal; a
`ClientError` during fetch is caught inside the worker, produces no children,
and still signals completion, so the `queue.join()` barrier is not starved. -/
theorem worker_task_done_exactly_once (max_depth : Nat)
    (fetch : String → Except PyExc (Option String))
    (parse : String → String → List String) (job : Job) (links : String → Nat) :
    (worker_step max_depth fetch parse job links).2.taskDoneCalls = 1 ∧
    (fetch job.url = .error .clientError →
      (worker_step max_depth fetch parse job links).2.enqueued = [] ∧
      (worker_step max_depth fetch parse job links).2.raised = none) := by
  constructor
  · unfold worker_step
    by_cases hd : job.depth < max_depth
    · cases hf : fetch job.url with
      | ok o => cases o <;> simp [hd, hf]
      | error e => cases e <;> simp [hd, hf]
    · simp [hd]
  · intro hf
    unfold worker_step
    by_cases hd : job.depth < max_depth <;> simp [hd, hf]

/-- Witness for `worker_task_done_exactly_once` at a failing fetch. -/
theorem worker_task_done_exactly_once_witness :
    (worker_step 2 (fun _ => .error .clientError) (fun _ _ => []) ⟨"u", 0⟩
        (fun _ => 0)).2.taskDoneCalls = 1 ∧
    (worker_step 2 (fun _ => .error .clientError) (fun _ _ => []) ⟨"u", 0⟩
        (fun _ => 0)).2.enqueued = [] ∧
    (worker_step 2 (fun _ => .error .clientError) (fun _ _ => []) ⟨"u", 0⟩
        (fun _ => 0)).2.raised = none := by
  have h := worker_task_done_exactly_once 2 (fun _ => .error .clientError)
    (fun _ _ => []) ⟨"u", 0⟩ (fun _ => 0)
  exact ⟨h.1, h.2 rfl⟩

theorem drain_mono (max_depth : Nat) (fetch : String → Except PyExc (Option String))
    (parse : String → String → List String) :
    ∀ (fuel : Nat) (jobs : List Job) (links : String → Nat) (u : String),
      links u ≤ drain max_depth fetch parse fuel jobs links u := by
  intro fuel
  induction fuel with
  | zero => intro jobs links u; exact Nat.le_refl _
  | succ fuel ih =>
    intro jobs links u
    match jobs with
    | [] => exact Nat.le_refl _
    | job :: rest =>
      refine Nat.le_trans ?_ (ih _ _ u)
      rw [worker_step_links]
      by_cases h : u = job.url <;> simp [h]

theorem drain_counts_exhausted (max_depth : Nat)
    (fetch : String → Except PyExc (Option String))
    (parse : String → String → List String) :
    ∀ (jobs : List Job) (fuel : Nat) (links : String → Nat),
      (∀ j ∈ jobs, max_depth ≤ j.depth) → jobs.length ≤ fuel →
      ∀ j ∈ jobs, 1 ≤ drain max_depth fetch parse fuel jobs links j.url := by
  intro jobs
  induction jobs with
  | nil => intro fuel links _ _ j hj; cases hj
  | cons job rest ih =>
    intro fuel links hd hfuel j hj
    cases fuel with
    | zero => exact absurd hfuel (by simp)
    | succ fuel =>
      unfold drain
      dsimp only
      rw [worker_step_depth_exhausted _ _ _ _ _ (hd job (List.mem_cons_self _ _)),
        List.append_nil]
      rcases List.mem_cons.mp hj with hj | hj
      · subst hj
        refine Nat.le_trans ?_ (drain_mono _ _ _ _ _ _ _)
        rw [worker_step_links]
        simp
      · exact ih fuel _ (fun a ha => hd a (List.mem_cons_of_mem _ ha))
          (Nat.le_of_succ_le_succ hfuel) j hj

/-- C5: frontier seeded with one job at depth 0 and `maxDepth = 1`; after the
sequential drain completes, the link counter has an entry (a positive count)
for every child URL extracted from the seed's fetched page. -/
theorem crawl_depth1_counts_children (fetch : String → Except PyExc (Option String))
    (parse : String → String → List String) (seed html : String)
    (links0 : String → Nat) (fuel : Nat)
    (hfetch : fetch seed = .ok (some html))
    (hfuel : (parse seed html).length + 1 ≤ fuel) :
    ∀ u ∈ parse seed html, 1 ≤ drain 1 fetch parse fuel [⟨seed, 0⟩] links0 u := by
  intro u hu
  cases fuel with
  | zero => exact absurd hfuel (by simp)
  | succ fuel =>
    unfold drain
    dsimp only
    rw [worker_step_fetch_ok 1 fetch parse ⟨seed, 0⟩ links0 html (Nat.zero_lt_one) hfetch]
    refine drain_counts_exhausted 1 fetch parse _ fuel _ ?_ ?_ ⟨u, 1⟩ ?_
    · intro j hj
      simp only [List.nil_append, List.mem_map] at hj
      obtain ⟨w, _, rfl⟩ := hj
      exact Nat.le_refl 1
    · simpa using Nat.le_of_succ_le_succ hfuel
    · simp only [List.nil_append, List.mem_map]
      exact ⟨u, hu, rfl⟩

/-- Witness for `crawl_depth1_counts_children`: a seed page with three links. -/
theorem crawl_depth1_counts_children_witness :
    (fun _ : String => (Except.ok (some "page") : Except PyExc (Option String))) "s" =
      Except.ok (some "page") ∧
    (["a", "bb", "ccc"] : List String).length + 1 ≤ 4 ∧
    ∀ u ∈ ["a", "bb", "ccc"],
      1 ≤ drain 1 (fun _ => .ok (some "page")) (fun _ _ => ["a", "bb", "ccc"]) 4
            [⟨"s", 0⟩] (fun _ => 0) u := by
  refine ⟨rfl, by decide, ?_⟩
  exact crawl_depth1_counts_children (fun _ => .ok (some "page"))
    (fun _ _ => ["a", "bb", "ccc"]) "s" "page" (fun _ => 0) 4 rfl (by decide)

/-! ### List and index helpers for the heap proofs -/

theorem getD_set_self [Inhabited α] (l : List α) (i : Nat) (x : α) (h : i < l.length) :
    (l.set i x).getD i default = x := by
  rw [List.getD_eq_getElem?_getD, List.getElem?_set_self h]
  rfl

theorem getD_set_ne [Inhabited α] (l : List α) {i j : Nat} (x : α) (h : i ≠ j) :
    (l.set i x).getD j default = l.getD j default := by
  rw [List.getD_eq_getElem?_getD, List.getD_eq_getElem?_getD, List.getElem?_set_ne h]

theorem getD_mem [Inhabited α] (l : List α) (i : Nat) (h : i < l.length) :
    l.getD i default ∈ l := by
  rw [List.getD_eq_getElem l default h]
  exact List.getElem_mem h

theorem set_getD_self [Inhabited α] (l : List α) (i : Nat) (h : i < l.length) :
    l.set i (l.getD i default) = l := by
  induction l generalizing i with
  | nil => simp at h
  | cons a t ih =>
    cases i with
    | zero => simp [List.getD_cons_zero]
    | succ i =>
      simp only [List.getD_cons_succ, List.set_cons_succ, List.cons.injEq, true_and]
      exact ih i (by simpa using h)

theorem set_perm [Inhabited α] (l : List α) (i : Nat) (x : α) (h : i < l.length) :
    List.Perm (l.set i x) (x :: l.eraseIdx i) := by
  induction l generalizing i with
  | nil => simp at h
  | cons a t ih =>
    cases i with
    | zero => simp [List.set_cons_zero, List.eraseIdx_cons_zero]
    | succ i =>
      simp only [List.set_cons_succ, List.eraseIdx_cons_succ]
      exact ((ih i (by simpa using h)).cons a).trans (List.Perm.swap x a _)

theorem perm_getD_eraseIdx [Inhabited α] (l : List α) (i : Nat) (h : i < l.length) :
    List.Perm l (l.getD i default :: l.eraseIdx i) := by
  conv_lhs => rw [← set_getD_self l i h]
  exact set_perm l i _ h

/-- The "hole" identity: overwrite `pos` with the value currently at `ppos`,
then overwrite `ppos` with `y`; up to permutation this is just writing `y`
at `pos`. -/
theorem set_set_perm [Inhabited α] (l : List α) (pos ppos : Nat) (y : α)
    (hpos : pos < l.length) (hppos : ppos < l.length) (hne : ppos ≠ pos) :
    List.Perm ((l.set pos (l.getD ppos default)).set ppos y) (l.set pos y) := by
  have hlen : ppos < (l.set pos (l.getD ppos default)).length := by simpa using hppos
  have h1 := set_perm (l.set pos (l.getD ppos default)) ppos y hlen
  have h2 := set_perm l pos y hpos
  refine h1.trans (List.Perm.trans ?_ h2.symm)
  refine List.Perm.cons y ?_
  have hA := set_perm l pos (l.getD ppos default) hpos
  have hB := perm_getD_eraseIdx (l.set pos (l.getD ppos default)) ppos hlen
  rw [getD_set_ne _ _ (fun hh => hne hh.symm)] at hB
  exact ((List.perm_cons _).mp (hA.symm.trans hB)).symm

theorem parentIdx_lt {j : Nat} (h : 0 < j) : parentIdx j < j := by
  unfold parentIdx; omega

theorem parentIdx_children {c pos : Nat} (h0 : 0 < c) (h : parentIdx c = pos) :
    c = 2 * pos + 1 ∨ c = 2 * pos + 2 := by
  unfold parentIdx at h; omega

theorem parentIdx_left (pos : Nat) : parentIdx (2 * pos + 1) = pos := by
  unfold parentIdx; omega

theorem parentIdx_right (pos : Nat) : parentIdx (2 * pos + 2) = pos := by
  unfold parentIdx; omega

/-- Membership of index `j` in the subtree rooted at index `r` of the
implicit binary tree on array indices. -/
inductive InSub (r : Nat) : Nat → Prop
  | base : InSub r r
  | left {j : Nat} : InSub r j → InSub r (2 * j + 1)
  | right {j : Nat} : InSub r j → InSub r (2 * j + 2)

theorem InSub.ge {r j : Nat} (h : InSub r j) : r ≤ j := by
  induction h with
  | base => exact Nat.le_refl r
  | left _ ih => omega
  | right _ ih => omega

theorem not_insub_of_lt {r j : Nat} (h : j < r) : ¬ InSub r j :=
  fun hs => absurd hs.ge (by omega)

theorem InSub.parent {r j : Nat} (h : InSub r j) (hne : j ≠ r) :
    InSub r (parentIdx j) := by
  cases h with
  | base => exact absurd rfl hne
  | left h => rw [parentIdx_left]; exact h
  | right h => rw [parentIdx_right]; exact h

theorem insub_of_parent {r j : Nat} (h0 : 0 < j) (h : InSub r (parentIdx j)) :
    InSub r j := by
  rcases parentIdx_children h0 rfl with hc | hc
  · rw [(by omega : j = 2 * parentIdx j + 1)]; exact h.left
  · rw [(by omega : j = 2 * parentIdx j + 2)]; exact h.right

theorem insub_zero : ∀ j, InSub 0 j := by
  intro j
  induction j using Nat.strong_induction_on with
  | _ j ih =>
    cases Nat.eq_zero_or_pos j with
    | inl h => subst h; exact InSub.base
    | inr h => exact insub_of_parent h (ih _ (parentIdx_lt h))

/-- The three strict-weak-order facts about a boolean `<` that the heap
algorithms rely on: asymmetry, transitivity, and negative transitivity. -/
def StrictWeak (lt : α → α → Bool) : Prop :=
  (∀ a b, lt a b = true → lt b a = false) ∧
  (∀ a b c, lt a b = true → lt b c = true → lt a c = true) ∧
  (∀ a b c, lt a c = true → lt a b = true ∨ lt b c = true)

theorem StrictWeak.irrefl {lt : α → α → Bool} (h : StrictWeak lt) (a : α) :
    lt a a = false := by
  cases hc : lt a a with
  | false => rfl
  | true => exact absurd ((h.1 a a hc).symm.trans hc) Bool.false_ne_true

/-! ### Verification of the sift routines

The specifications speak about the "region" `InSub startpos`, the subtree of
array indices below the sift's starting position: only region entries move,
and afterwards every parent/child pair with the parent in the region is
correctly ordered. -/

/-- Resting case of the `_siftdown` loop: writing `newitem` at `pos`
restores every region edge, provided all other region edges hold, the
children of `pos` dominate `newitem`, and either `pos` is the region root or
`newitem` does not beat the parent of `pos`. -/
theorem siftdownGo_stop [Inhabited α] {lt : α → α → Bool} (hsw : StrictWeak lt)
    (startpos : Nat) (newitem : α) (l : List α) (pos : Nat)
    (hlen : pos < l.length) (hin : InSub startpos pos)
    (hA : ∀ j, j < l.length → 0 < j → InSub startpos (parentIdx j) → j ≠ pos →
        lt (l.getD j default) (l.getD (parentIdx j) default) = false)
    (hB : ∀ c, c < l.length → 0 < c → parentIdx c = pos →
        lt (l.getD c default) newitem = false)
    (hstop : pos = startpos ∨ lt newitem (l.getD (parentIdx pos) default) = false) :
    ∀ j, j < l.length → 0 < j → InSub startpos (parentIdx j) →
      lt ((l.set pos newitem).getD j default)
        ((l.set pos newitem).getD (parentIdx j) default) = false := by
  intro j hj hj0 hreg
  by_cases hjpos : j = pos
  · subst hjpos
    rcases hstop with hps | hlt
    · subst hps
      exact absurd hreg (not_insub_of_lt (parentIdx_lt hj0))
    · rw [getD_set_self l j newitem hlen,
        getD_set_ne l newitem (Nat.ne_of_lt (parentIdx_lt hj0)).symm]
      exact hlt
  · by_cases hpj : parentIdx j = pos
    · rw [getD_set_ne l newitem (fun hh => hjpos hh.symm), hpj,
        getD_set_self l pos newitem hlen]
      exact hB j hj hj0 hpj
    · rw [getD_set_ne l newitem (fun hh => hjpos hh.symm),
        getD_set_ne l newitem (fun hh => hpj hh.symm)]
      exact hA j hj hj0 hreg hjpos

/-- Main specification of the `_siftdown` loop `siftdownGo`: with sufficient
fuel it permutes the list into `l.set pos newitem`, touches only region
entries, and re-establishes every region edge. -/
theorem siftdownGo_spec [Inhabited α] {lt : α → α → Bool} (hsw : StrictWeak lt)
    (startpos : Nat) (newitem : α) :
    ∀ (fuel : Nat) (l : List α) (pos : Nat),
      pos ≤ fuel →
      pos < l.length →
      InSub startpos pos →
      (∀ j, j < l.length → 0 < j → InSub startpos (parentIdx j) → j ≠ pos →
          lt (l.getD j default) (l.getD (parentIdx j) default) = false) →
      (∀ c, c < l.length → 0 < c → parentIdx c = pos →
          lt (l.getD c default) newitem = false) →
      ((∀ c, c < l.length → 0 < c → parentIdx c ≠ pos) ∨ startpos = pos ∨
        (lt (l.getD pos default) (l.getD (parentIdx pos) default) = false ∧
          lt newitem (l.getD pos default) = true)) →
      (siftdownGo lt startpos newitem fuel l pos).length = l.length ∧
      (∀ j, j < l.length → ¬ InSub startpos j →
          (siftdownGo lt startpos newitem fuel l pos).getD j default = l.getD j default) ∧
      List.Perm (siftdownGo lt startpos newitem fuel l pos) (l.set pos newitem) ∧
      (∀ j, j < l.length → 0 < j → InSub startpos (parentIdx j) →
          lt ((siftdownGo lt startpos newitem fuel l pos).getD j default)
            ((siftdownGo lt startpos newitem fuel l pos).getD (parentIdx j) default)
            = false) := by
  intro fuel
  induction fuel with
  | zero =>
    intro l pos hfuel hlen hin hA hB _
    have hpos0 : pos = 0 := Nat.le_zero.mp hfuel
    subst hpos0
    have hsp0 : startpos = 0 := Nat.le_zero.mp hin.ge
    show (l.set 0 newitem).length = l.length ∧ _
    refine ⟨by simp, ?_, List.Perm.refl _, ?_⟩
    · intro j hj hns
      exact getD_set_ne l newitem (fun hh => hns (hh ▸ hin))
    · exact siftdownGo_stop hsw startpos newitem l 0 hlen hin hA hB (Or.inl hsp0.symm)
  | succ fuel ih =>
    intro l pos hfuel hlen hin hA hB hC
    by_cases hsp : startpos < pos
    · have hpos0 : 0 < pos := Nat.lt_of_le_of_lt (Nat.zero_le _) hsp
      have hppl : parentIdx pos < pos := parentIdx_lt hpos0
      by_cases hmove : lt newitem (l.getD (parentIdx pos) default) = true
      · -- the parent moves down into `pos`; the loop continues at the parent
        have hres : siftdownGo lt startpos newitem (fuel + 1) l pos =
            siftdownGo lt startpos newitem fuel
              (l.set pos (l.getD (parentIdx pos) default)) (parentIdx pos) := by
          simp only [siftdownGo, hsp, if_true, hmove]
        set pp := parentIdx pos with hppdef
        set parent := l.getD pp default with hparentdef
        set l' := l.set pos parent with hlpdef
        have hppne : pp ≠ pos := Nat.ne_of_lt hppl
        have hlplen : l'.length = l.length := by simp [hlpdef]
        have hgpp : l'.getD pp default = parent := by
          rw [hlpdef, getD_set_ne l parent (fun hh => hppne hh.symm)]
        have hgpos : l'.getD pos default = parent := by
          rw [hlpdef, getD_set_self l pos parent hlen]
        have hinpp : InSub startpos pp := hin.parent (Nat.ne_of_gt hsp)
        have hA' : ∀ j, j < l'.length → 0 < j → InSub startpos (parentIdx j) →
            j ≠ pp → lt (l'.getD j default) (l'.getD (parentIdx j) default) = false := by
          intro j hj hj0 hreg hjpp
          rw [hlplen] at hj
          by_cases hjpos : j = pos
          · subst hjpos
            rw [hgpos, ← hppdef, hgpp]
            exact hsw.irrefl parent
          · by_cases hpj : parentIdx j = pos
            · rw [show l'.getD j default = l.getD j default from
                getD_set_ne l parent (fun hh => hjpos hh.symm), hpj, hgpos]
              rcases hC with hno | hps | hec
              · exact absurd hpj (hno j hj hj0)
              · omega
              · cases hcc : lt (l.getD j default) parent with
                | false => rfl
                | true =>
                  rcases hsw.2.2 _ (l.getD pos default) _ hcc with h1 | h2
                  · have h4 := hA j hj hj0 (hpj ▸ hreg) hjpos
                    rw [hpj] at h4
                    simp only [h4] at h1
                    exact absurd h1 Bool.false_ne_true
                  · simp only [hec.1] at h2
                    exact absurd h2 Bool.false_ne_true
            · rw [show l'.getD j default = l.getD j default from
                getD_set_ne l parent (fun hh => hjpos hh.symm),
                show l'.getD (parentIdx j) default = l.getD (parentIdx j) default from
                getD_set_ne l parent (fun hh => hpj hh.symm)]
              exact hA j hj hj0 hreg hjpos
        have hB' : ∀ c, c < l'.length → 0 < c → parentIdx c = pp →
            lt (l'.getD c default) newitem = false := by
          intro c hc hc0 hcpp
          rw [hlplen] at hc
          by_cases hcpos : c = pos
          · subst hcpos
            rw [hgpos]
            exact hsw.1 _ _ hmove
          · rw [show l'.getD c default = l.getD c default from
              getD_set_ne l parent (fun hh => hcpos hh.symm)]
            cases hcc : lt (l.getD c default) newitem with
            | false => rfl
            | true =>
              have h2 := hsw.2.1 _ _ _ hcc hmove
              have h3 := hA c hc hc0 (by rw [hcpp]; exact hinpp) hcpos
              rw [hcpp, ← hparentdef] at h3
              simp only [h3] at h2
              exact absurd h2 Bool.false_ne_true
        have hC' : (∀ c, c < l'.length → 0 < c → parentIdx c ≠ pp) ∨ startpos = pp ∨
            (lt (l'.getD pp default) (l'.getD (parentIdx pp) default) = false ∧
              lt newitem (l'.getD pp default) = true) := by
          by_cases hppsp : startpos = pp
          · exact Or.inr (Or.inl hppsp)
          · refine Or.inr (Or.inr ⟨?_, ?_⟩)
            · have hpp0 : 0 < pp := by
                have := hinpp.ge
                omega
            
              have hgppp : l'.getD (parentIdx pp) default = l.getD (parentIdx pp) default :=
                getD_set_ne l parent
                  (fun hh => (Nat.ne_of_lt (Nat.lt_trans (parentIdx_lt hpp0) hppl)) hh.symm)
              rw [hgpp, hgppp]
              exact hA pp (Nat.lt_trans hppl hlen) hpp0
                (hinpp.parent (fun hh => hppsp hh.symm)) hppne
            · rw [hgpp]
              exact hmove
        have hfuel' : pp ≤ fuel := by omega
        have hlen' : pp < l'.length := by rw [hlplen]; exact Nat.lt_trans hppl hlen
        obtain ⟨ihlen, ihout, ihperm, ihedge⟩ :=
          ih l' pp hfuel' hlen' hinpp hA' hB' hC'
        rw [hres]
        refine ⟨ihlen.trans hlplen, ?_, ?_, ?_⟩
        · intro j hj hns
          have hjne : j ≠ pos := fun hh => hns (hh ▸ hin)
          rw [ihout j (by rw [hlplen]; exact hj) hns, hlpdef,
            getD_set_ne l parent (fun hh => hjne hh.symm)]
        · refine ihperm.trans ?_
          rw [hlpdef, hparentdef]
          exact set_set_perm l pos pp newitem hlen (Nat.lt_trans hppl hlen) hppne
        · intro j hj hj0 hreg
          exact ihedge j (by rw [hlplen]; exact hj) hj0 hreg
      · -- `newitem` does not beat the parent: the loop stops here
        have hres : siftdownGo lt startpos newitem (fuel + 1) l pos = l.set pos newitem := by
          simp only [siftdownGo, hsp, if_true, hmove]
          simp [Bool.not_eq_true] at hmove
          simp [hmove]
        rw [hres]
        refine ⟨by simp, ?_, List.Perm.refl _, ?_⟩
        · intro j hj hns
          exact getD_set_ne l newitem (fun hh => hns (hh ▸ hin))
        · refine siftdownGo_stop hsw startpos newitem l pos hlen hin hA hB (Or.inr ?_)
          simpa using hmove
    · -- `pos ≤ startpos`, so `pos = startpos`: write and stop
      have hps : pos = startpos := Nat.le_antisymm (Nat.not_lt.mp hsp) hin.ge
      have hres : siftdownGo lt startpos newitem (fuel + 1) l pos = l.set pos newitem := by
        simp only [siftdownGo, hsp, if_false]
      rw [hres]
      refine ⟨by simp, ?_, List.Perm.refl _, ?_⟩
      · intro j hj hns
        exact getD_set_ne l newitem (fun hh => hns (hh ▸ hin))
      · exact siftdownGo_stop hsw startpos newitem l pos hlen hin hA hB (Or.inl hps)

/-- Main specification of the `_siftup` descending loop `siftupGo`: it walks
down the chain of preferred children to a leaf of the region, leaving a
"hole" at the returned position — setting any `x` there is, up to
permutation, setting `x` at the original position — while keeping every
region edge whose parent is not the hole, touching nothing outside the
region, and never duplicating a value that occurred only at the hole. -/
theorem siftupGo_spec [Inhabited α] {lt : α → α → Bool} (hsw : StrictWeak lt) (p0 : Nat) :
    ∀ (fuel : Nat) (l : List α) (pos : Nat),
      l.length - pos ≤ fuel →
      pos < l.length →
      InSub p0 pos →
      (∀ j, j < l.length → 0 < j → InSub p0 (parentIdx j) → parentIdx j ≠ pos →
          lt (l.getD j default) (l.getD (parentIdx j) default) = false) →
      (pos = p0 ∨ (∀ c, c < l.length → 0 < c → parentIdx c = pos →
          lt (l.getD c default) (l.getD (parentIdx c) default) = false)) →
      (siftupGo lt fuel l pos).1.length = l.length ∧
      (siftupGo lt fuel l pos).2 < l.length ∧
      InSub p0 (siftupGo lt fuel l pos).2 ∧
      l.length ≤ 2 * (siftupGo lt fuel l pos).2 + 1 ∧
      (∀ j, j < l.length → ¬ InSub p0 j →
          (siftupGo lt fuel l pos).1.getD j default = l.getD j default) ∧
      (∀ x, List.Perm ((siftupGo lt fuel l pos).1.set (siftupGo lt fuel l pos).2 x)
          (l.set pos x)) ∧
      (∀ j, j < l.length → 0 < j → InSub p0 (parentIdx j) →
          parentIdx j ≠ (siftupGo lt fuel l pos).2 →
          lt ((siftupGo lt fuel l pos).1.getD j default)
            ((siftupGo lt fuel l pos).1.getD (parentIdx j) default) = false) ∧
      (∀ i, i < l.length → (siftupGo lt fuel l pos).1.getD i default ∈ l) ∧
      (∀ v, (∀ i, i < l.length → i ≠ pos → l.getD i default ≠ v) →
          ∀ i, i < l.length → i ≠ (siftupGo lt fuel l pos).2 →
            (siftupGo lt fuel l pos).1.getD i default ≠ v) := by
  intro fuel
  induction fuel with
  | zero =>
    intro l pos hfuel hlen _ _ _
    omega
  | succ fuel ih =>
    intro l pos hfuel hlen hin hA hA2
    by_cases hchild : 2 * pos + 1 < l.length
    · -- there is at least a left child: one more step of the descent
      set cpos := if (decide (2 * pos + 1 + 1 < l.length) &&
          !(lt (l.getD (2 * pos + 1) default) (l.getD (2 * pos + 1 + 1) default))) = true
        then 2 * pos + 1 + 1 else 2 * pos + 1 with hcposdef
      have hres : siftupGo lt (fuel + 1) l pos =
          siftupGo lt fuel (l.set pos (l.getD cpos default)) cpos := by
        simp only [siftupGo, hchild, if_true, hcposdef]
      have hcpar : parentIdx cpos = pos := by
        rw [hcposdef]; split
        · exact parentIdx_right pos
        · exact parentIdx_left pos
      have hclen : cpos < l.length := by
        rw [hcposdef]; split
        · next hc => simp only [Bool.and_eq_true, decide_eq_true_eq] at hc; exact hc.1
        · exact hchild
      have hcgt : pos < cpos := by rw [hcposdef]; split <;> omega
      have hc0 : 0 < cpos := by omega
      -- the chosen child is not beaten by its sibling
      have hsib : ∀ o, o < l.length → 0 < o → parentIdx o = pos → o ≠ cpos →
          lt (l.getD o default) (l.getD cpos default) = false := by
        intro o ho ho0 hopar hone
        have ho2 : o = 2 * pos + 1 ∨ o = 2 * pos + 2 := parentIdx_children ho0 hopar
        by_cases hcb : (decide (2 * pos + 1 + 1 < l.length) &&
            !(lt (l.getD (2 * pos + 1) default) (l.getD (2 * pos + 1 + 1) default))) = true
        · have hcv : cpos = 2 * pos + 1 + 1 := by rw [hcposdef, if_pos hcb]
          have ho1 : o = 2 * pos + 1 := by omega
          subst ho1
          rw [hcv]
          simp only [Bool.and_eq_true, Bool.not_eq_true', decide_eq_true_eq] at hcb
          exact hcb.2
        · have hcv : cpos = 2 * pos + 1 := by rw [hcposdef, if_neg hcb]
          have ho1 : o = 2 * pos + 2 := by omega
          subst ho1
          rw [hcv]
          simp only [Bool.and_eq_true, Bool.not_eq_true', decide_eq_true_eq,
            not_and, Bool.not_eq_false] at hcb
          exact hsw.1 _ _ (hcb (by omega))
      set l' := l.set pos (l.getD cpos default) with hlpdef
      have hlplen : l'.length = l.length := by simp [hlpdef]
      have hgpos' : l'.getD pos default = l.getD cpos default :=
        getD_set_self l pos _ hlen
      have hgne' : ∀ j, j ≠ pos → l'.getD j default = l.getD j default := by
        intro j hj
        exact getD_set_ne l _ (fun hh => hj hh.symm)
      have hincpos : InSub p0 cpos := insub_of_parent hc0 (hcpar ▸ hin)
      have hA' : ∀ j, j < l'.length → 0 < j → InSub p0 (parentIdx j) →
          parentIdx j ≠ cpos →
          lt (l'.getD j default) (l'.getD (parentIdx j) default) = false := by
        intro j hj hj0 hreg hjc
        rw [hlplen] at hj
        by_cases hpj : parentIdx j = pos
        · -- children of the old position
          have hj2 := parentIdx_children hj0 hpj
          rw [hgne' j (by omega), hpj, hgpos']
          by_cases hjcp : j = cpos
          · subst hjcp; exact hsw.irrefl _
          · exact hsib j hj hj0 hpj hjcp
        · by_cases hjpos : j = pos
          · -- the edge from the old position up to its parent
            subst hjpos
            rw [hgpos', hgne' (parentIdx j) hpj]
            rcases hA2 with hp0 | hA2
            · subst hp0
              exact absurd hreg (not_insub_of_lt (parentIdx_lt hj0))
            · have hedgec : lt (l.getD cpos default) (l.getD j default) = false := by
                have := hA2 cpos hclen hc0 hcpar
                rwa [hcpar] at this
              have hedgep : lt (l.getD j default) (l.getD (parentIdx j) default) = false :=
                hA j hj hj0 hreg (Nat.ne_of_lt (parentIdx_lt hj0))
              cases hcc : lt (l.getD cpos default) (l.getD (parentIdx j) default) with
              | false => rfl
              | true =>
                rcases hsw.2.2 _ (l.getD j default) _ hcc with h1 | h2
                · simp only [hedgec] at h1; exact absurd h1 Bool.false_ne_true
                · simp only [hedgep] at h2; exact absurd h2 Bool.false_ne_true
          · rw [hgne' j hjpos, hgne' (parentIdx j) hpj]
            exact hA j hj hj0 hreg hpj
      have hA2' : cpos = p0 ∨ (∀ c, c < l'.length → 0 < c → parentIdx c = cpos →
          lt (l'.getD c default) (l'.getD (parentIdx c) default) = false) := by
        refine Or.inr ?_
        intro c hc hc0' hcc
        rw [hlplen] at hc
        have hc2 := parentIdx_children hc0' hcc
        rw [hgne' c (by omega), hcc, hgne' cpos (by omega)]
        have := hA c hc hc0' (by rw [hcc]; exact hincpos) (by rw [hcc]; omega)
        rwa [hcc] at this
      have hfuel' : l'.length - cpos ≤ fuel := by rw [hlplen]; omega
      obtain ⟨ihlen, ihposlt, ihpossub, ihleaf, ihout, ihhole, ihedge, ihmem, ihuniq⟩ :=
        ih l' cpos hfuel' (by rw [hlplen]; exact hclen) hincpos hA' hA2'
      rw [hres]
      rw [hlplen] at ihlen ihposlt ihleaf
      refine ⟨ihlen, ihposlt, ihpossub, ihleaf, ?_, ?_, ?_, ?_, ?_⟩
      · intro j hj hns
        rw [ihout j (by rw [hlplen]; exact hj) hns]
        exact hgne' j (fun hh => hns (hh ▸ hin))
      · intro x
        refine (ihhole x).trans ?_
        rw [hlpdef]
        exact set_set_perm l pos cpos x hlen hclen (by omega)
      · intro j hj hj0 hreg hjf
        exact ihedge j (by rw [hlplen]; exact hj) hj0 hreg hjf
      · intro i hi
        have hmem := ihmem i (by rw [hlplen]; exact hi)
        -- members of l' are members of l
        have hsub : ∀ x, x ∈ l' → x ∈ l := by
          intro x hx
          have := (set_perm l pos (l.getD cpos default) hlen).mem_iff.mp (hlpdef ▸ hx)
          rcases List.mem_cons.mp this with h | h
          · rw [h]; exact getD_mem l cpos hclen
          · exact (List.eraseIdx_sublist l pos).subset h
        exact hsub _ hmem
      · intro v hv i hi hif
        refine ihuniq v ?_ i (by rw [hlplen]; exact hi) hif
        intro k hk hkc
        rw [hlplen] at hk
        by_cases hkpos : k = pos
        · subst hkpos; rw [hgpos']
          exact hv cpos hclen (by omega)
        · rw [hgne' k hkpos]
          exact hv k hk hkpos
    · -- no children: the descent stops; `pos` is a leaf of the heap
      have hres : siftupGo lt (fuel + 1) l pos = (l, pos) := by
        simp only [siftupGo, hchild, if_false]
      rw [hres]
      refine ⟨rfl, hlen, hin, by omega, fun j _ _ => rfl, fun x => List.Perm.refl _,
        ?_, fun i hi => getD_mem l i hi, fun v hv i hi hif => hv i hi hif⟩
      intro j hj hj0 hreg hjp
      exact hA j hj hj0 hreg hjp

theorem getD_append_left [Inhabited α] (l l' : List α) (j : Nat) (h : j < l.length) :
    (l ++ l').getD j default = l.getD j default := by
  rw [List.getD_eq_getElem?_getD, List.getD_eq_getElem?_getD,
    List.getElem?_append_left h]

theorem getD_append_last [Inhabited α] (l : List α) (x : α) :
    (l ++ [x]).getD l.length default = x := by
  rw [List.getD_eq_getElem?_getD, List.getElem?_append_right (Nat.le_refl _)]
  simp

theorem getD_dropLast [Inhabited α] (l : List α) (j : Nat) (h : j < l.length - 1) :
    l.dropLast.getD j default = l.getD j default := by
  rw [List.getD_eq_getElem?_getD, List.getD_eq_getElem?_getD]
  have h1 : j < l.dropLast.length := by simp; omega
  have h2 : j < l.length := by omega
  rw [List.getElem?_eq_getElem h1, List.getElem?_eq_getElem h2, List.getElem_dropLast]

/-- CPython `_siftup` re-establishes every edge of the subtree under `pos`
while permuting the list, leaving everything outside that subtree alone. -/
theorem siftup_spec [Inhabited α] {lt : α → α → Bool} (hsw : StrictWeak lt)
    (l : List α) (pos : Nat) (hlen : pos < l.length)
    (hA : ∀ j, j < l.length → 0 < j → InSub pos (parentIdx j) → parentIdx j ≠ pos →
        lt (l.getD j default) (l.getD (parentIdx j) default) = false) :
    (siftup lt l pos).length = l.length ∧
    List.Perm (siftup lt l pos) l ∧
    (∀ j, j < l.length → ¬ InSub pos j →
        (siftup lt l pos).getD j default = l.getD j default) ∧
    (∀ j, j < l.length → 0 < j → InSub pos (parentIdx j) →
        lt ((siftup lt l pos).getD j default)
          ((siftup lt l pos).getD (parentIdx j) default) = false) := by
  obtain ⟨glen, gposlt, gpossub, gleaf, gout, ghole, gedge, gmem, guniq⟩ :=
    siftupGo_spec hsw pos l.length l pos (Nat.sub_le _ _) hlen InSub.base hA (Or.inl rfl)
  set newitem := l.getD pos default with hnewdef
  set dp := siftupGo lt l.length l pos with hdpdef
  set L := dp.1.set dp.2 newitem with hLdef
  have hLlen : L.length = l.length := by rw [hLdef, List.length_set, glen]
  have hchildless : ∀ c, c < L.length → 0 < c → parentIdx c ≠ dp.2 := by
    intro c hc hc0 hcp
    have := parentIdx_children hc0 hcp
    rw [hLlen] at hc
    omega
  have hd2L : dp.2 < L.length := by rw [hLlen]; exact gposlt
  obtain ⟨dlen, dout, dperm, dedge⟩ :=
    siftdownGo_spec hsw pos newitem dp.2 L dp.2 (Nat.le_refl _) hd2L gpossub
      (by
        intro j hj hj0 hreg hjne
        have hpne : parentIdx j ≠ dp.2 := by
          intro hh
          have := parentIdx_children hj0 hh
          rw [hLlen] at hj
          omega
        rw [hLdef, getD_set_ne _ _ (fun hh => hjne hh.symm),
          getD_set_ne _ _ (fun hh => hpne hh.symm)]
        exact gedge j (by rw [hLlen] at hj; exact hj) hj0 hreg hpne)
      (by
        intro c hc hc0 hcp
        exact absurd hcp (hchildless c hc hc0))
      (Or.inl hchildless)
  have hresdef : siftup lt l pos = siftdownGo lt pos newitem dp.2 L dp.2 := rfl
  rw [hresdef]
  refine ⟨dlen.trans hLlen, ?_, ?_, ?_⟩
  · -- permutation with the original list
    refine dperm.trans ?_
    have hset2 : L.set dp.2 newitem = dp.1.set dp.2 newitem := by
      rw [hLdef, List.set_set]
    rw [hset2]
    refine (ghole newitem).trans ?_
    rw [hnewdef, set_getD_self l pos hlen]
  · intro j hj hns
    have hjne : j ≠ dp.2 := fun hh => hns (hh ▸ gpossub)
    rw [dout j (by rw [hLlen]; exact hj) hns, hLdef,
      getD_set_ne _ _ (fun hh => hjne hh.symm)]
    exact gout j hj hns
  · intro j hj hj0 hreg
    exact dedge j (by rw [hLlen]; exact hj) hj0 hreg

/-- The processed prefix invariant of `heapify`'s loop: running the
`_siftup` calls for indices `i-1, …, 0` on a list whose edges with parent
index `≥ i` already hold produces a permutation satisfying the full heap
invariant. -/
theorem heapify_fold_spec [Inhabited α] {lt : α → α → Bool} (hsw : StrictWeak lt) :
    ∀ (i : Nat) (l : List α), i ≤ l.length / 2 →
      (∀ j, j < l.length → 0 < j → i ≤ parentIdx j →
          lt (l.getD j default) (l.getD (parentIdx j) default) = false) →
      ((List.range i).reverse.foldl (fun h k => siftup lt h k) l).length = l.length ∧
      List.Perm ((List.range i).reverse.foldl (fun h k => siftup lt h k) l) l ∧
      (∀ j, j < l.length → 0 < j →
          lt (((List.range i).reverse.foldl (fun h k => siftup lt h k) l).getD j default)
            (((List.range i).reverse.foldl (fun h k => siftup lt h k) l).getD
              (parentIdx j) default) = false) := by
  intro i
  induction i with
  | zero =>
    intro l _ hQ
    exact ⟨rfl, List.Perm.refl _, fun j hj hj0 => hQ j hj hj0 (Nat.zero_le _)⟩
  | succ i ih =>
    intro l hi hQ
    have hstep : (List.range (i + 1)).reverse = i :: (List.range i).reverse := by
      rw [List.range_succ, List.reverse_append]
      rfl
    rw [hstep]
    have hilen : i < l.length := by omega
    obtain ⟨slen, sperm, sout, sedge⟩ := siftup_spec hsw l i hilen
      (by
        intro j hj hj0 hreg hne
        refine hQ j hj hj0 ?_
        have := hreg.ge
        omega)
    have hQ' : ∀ j, j < (siftup lt l i).length → 0 < j → i ≤ parentIdx j →
        lt ((siftup lt l i).getD j default)
          ((siftup lt l i).getD (parentIdx j) default) = false := by
      intro j hj hj0 hge
      rw [slen] at hj
      by_cases hreg : InSub i (parentIdx j)
      · exact sedge j hj hj0 hreg
      · have hpne : parentIdx j ≠ i := fun hh => hreg (hh ▸ InSub.base)
        have hjns : ¬ InSub i j := by
          intro hjs
          rcases eq_or_ne j i with hji | hji
          · subst hji
            exact absurd hge (by have := parentIdx_lt hj0; omega)
          · exact hreg (hjs.parent hji)
        rw [sout j hj hjns, sout (parentIdx j) (Nat.lt_trans (parentIdx_lt hj0) hj) hreg]
        exact hQ j hj hj0 (by omega)
    have hi' : i ≤ (siftup lt l i).length / 2 := by rw [slen]; omega
    obtain ⟨flen, fperm, fedge⟩ := ih (siftup lt l i) hi' hQ'
    show (List.foldl (fun h k => siftup lt h k) (siftup lt l i) (List.range i).reverse).length
        = l.length ∧ _
    refine ⟨flen.trans slen, (fperm.trans sperm), ?_⟩
    intro j hj hj0
    exact fedge j (by rw [slen]; exact hj) hj0

/-- CPython `heapify` permutes the list and establishes the heap invariant. -/
theorem heapify_spec [Inhabited α] {lt : α → α → Bool} (hsw : StrictWeak lt) (l : List α) :
    (heapify lt l).length = l.length ∧
    List.Perm (heapify lt l) l ∧
    IsHeap lt (heapify lt l) := by
  unfold heapify
  obtain ⟨hlen, hperm, hedge⟩ := heapify_fold_spec hsw (l.length / 2) l (Nat.le_refl _)
    (by
      intro j hj hj0 hge
      have := parentIdx_children hj0 rfl
      omega)
  exact ⟨hlen, hperm, fun i hi hi0 => hedge i (by rw [hlen] at hi; exact hi) hi0⟩

/-- CPython `heappush` preserves the heap invariant and adds the item. -/
theorem heappush_spec [Inhabited α] {lt : α → α → Bool} (hsw : StrictWeak lt)
    (l : List α) (item : α) (hheap : IsHeap lt l) :
    (heappush lt l item).length = l.length + 1 ∧
    List.Perm (heappush lt l item) (item :: l) ∧
    IsHeap lt (heappush lt l item) := by
  have hitem : (l ++ [item]).getD l.length default = item := getD_append_last l item
  have hlenL : (l ++ [item]).length = l.length + 1 := by simp
  have hchildless : ∀ c, c < (l ++ [item]).length → 0 < c → parentIdx c ≠ l.length := by
    intro c hc hc0 hcp
    have := parentIdx_children hc0 hcp
    rw [hlenL] at hc
    omega
  obtain ⟨dlen, dout, dperm, dedge⟩ := siftdownGo_spec hsw 0 item l.length (l ++ [item])
    l.length (Nat.le_refl _) (by omega) (insub_zero _)
    (by
      intro j hj hj0 _ hjne
      rw [hlenL] at hj
      have hjl : j < l.length := by omega
      rw [getD_append_left l [item] j hjl,
        getD_append_left l [item] (parentIdx j) (Nat.lt_trans (parentIdx_lt hj0) hjl)]
      exact hheap j hjl hj0)
    (by
      intro c hc hc0 hcp
      exact absurd hcp (hchildless c hc hc0))
    (Or.inl hchildless)
  have hres : heappush lt l item =
      siftdownGo lt 0 item l.length (l ++ [item]) l.length := by
    unfold heappush siftdown
    rw [hitem]
  rw [hres]
  refine ⟨dlen.trans hlenL, ?_, ?_⟩
  · refine dperm.trans ?_
    have : (l ++ [item]).set l.length item = l ++ [item] := by
      have h2 := set_getD_self (l ++ [item]) l.length (by simp)
      rwa [hitem] at h2
    rw [this]
    exact List.perm_append_singleton item l
  · intro i hi hi0
    rw [dlen, hlenL] at hi
    exact dedge i (by rw [hlenL]; omega) hi0 (insub_zero _)

/-- CPython `heappop` on a non-empty heap returns the root, removes it, and
preserves the heap invariant. -/
theorem heappop_spec [Inhabited α] {lt : α → α → Bool} (hsw : StrictWeak lt)
    (l : List α) (hheap : IsHeap lt l) (hne : l ≠ []) :
    ∃ l', heappop lt l = some (l.getD 0 default, l') ∧
      l'.length = l.length - 1 ∧
      List.Perm l (l.getD 0 default :: l') ∧
      IsHeap lt l' := by
  have hlast : l.getLast? = some (l.getLast hne) := List.getLast?_eq_getLast l hne
  by_cases hrest : l.dropLast.isEmpty
  · -- singleton heap
    obtain ⟨a, rfl⟩ : ∃ a, l = [a] := by
      rw [List.isEmpty_iff] at hrest
      cases l with
      | nil => exact absurd rfl hne
      | cons x t =>
        cases t with
        | nil => exact ⟨x, rfl⟩
        | cons y u => simp at hrest
    exact ⟨[], rfl, rfl, List.Perm.refl _, fun i hi hi0 => by simp at hi⟩
  · -- at least two elements
    have hrlen : 0 < l.dropLast.length := by
      rw [List.isEmpty_iff_length_eq_zero] at hrest
      omega
    have hllen : 2 ≤ l.length := by
      have := List.length_dropLast l
      omega
    set lastelt := l.getLast hne with hlastdef
    set rest := l.dropLast with hrestdef
    set L0 := rest.set 0 lastelt with hL0def
    have hL0len : L0.length = l.length - 1 := by
      rw [hL0def, List.length_set, hrestdef, List.length_dropLast]
    obtain ⟨slen, sperm, sout, sedge⟩ := siftup_spec hsw L0 0 (by omega)
      (by
        intro j hj hj0 _ hpne
        have hp0 : 0 < parentIdx j := Nat.pos_of_ne_zero hpne
        rw [hL0len] at hj
        rw [hL0def, getD_set_ne _ _ (Nat.ne_of_lt hj0),
          getD_set_ne _ _ (Nat.ne_of_lt hp0)]
        rw [hrestdef, getD_dropLast l j hj,
          getD_dropLast l (parentIdx j) (Nat.lt_trans (parentIdx_lt hj0) hj)]
        exact hheap j (by omega) hj0)
    have hpop : heappop lt l = some (rest.getD 0 default, siftup lt L0 0) := by
      unfold heappop
      rw [hlast]
      simp only [hrest, if_false]
      rfl
    have hgd0 : rest.getD 0 default = l.getD 0 default := by
      rw [hrestdef, getD_dropLast l 0 (by omega)]
    refine ⟨siftup lt L0 0, by rw [hpop, hgd0], by rw [slen, hL0len], ?_, ?_⟩
    · -- l ~ root :: popped heap
      have h1 : List.Perm l (lastelt :: rest) := by
        conv_lhs => rw [← List.dropLast_append_getLast hne]
        exact List.perm_append_singleton _ _
      have h2 : List.Perm rest (rest.getD 0 default :: rest.eraseIdx 0) :=
        perm_getD_eraseIdx rest 0 (by omega)
      have h3 : List.Perm L0 (lastelt :: rest.eraseIdx 0) :=
        set_perm rest 0 lastelt (by omega)
      rw [← hgd0]
      refine h1.trans ?_
      refine (List.Perm.cons lastelt h2).trans ?_
      refine (List.Perm.swap _ _ _).trans ?_
      exact List.Perm.cons _ (h3.symm.trans sperm.symm)
    · intro i hi hi0
      rw [slen, hL0len] at hi
      exact sedge i (by omega) hi0 (insub_zero _)

/-- In a heap, no entry beats the root. -/
theorem isHeap_root_le [Inhabited α] {lt : α → α → Bool} (hsw : StrictWeak lt)
    (l : List α) (hheap : IsHeap lt l) :
    ∀ i, i < l.length → lt (l.getD i default) (l.getD 0 default) = false := by
  intro i
  induction i using Nat.strong_induction_on with
  | _ i ihi =>
    intro hi
    rcases Nat.eq_zero_or_pos i with hi0 | hi0
    · subst hi0; exact hsw.irrefl _
    · have hedge := hheap i hi hi0
      have hpar := ihi (parentIdx i) (parentIdx_lt hi0)
        (Nat.lt_trans (parentIdx_lt hi0) hi)
      cases hcc : lt (l.getD i default) (l.getD 0 default) with
      | false => rfl
      | true =>
        rcases hsw.2.2 _ (l.getD (parentIdx i) default) _ hcc with h1 | h2
        · simp only [hedge] at h1; exact absurd h1 Bool.false_ne_true
        · simp only [hpar] at h2; exact absurd h2 Bool.false_ne_true

/-- Membership form of `isHeap_root_le`. -/
theorem isHeap_root_le_mem [Inhabited α] {lt : α → α → Bool} (hsw : StrictWeak lt)
    (l : List α) (hheap : IsHeap lt l) (x : α) (hx : x ∈ l) :
    lt x (l.getD 0 default) = false := by
  obtain ⟨i, hi, rfl⟩ := List.mem_iff_getElem.mp hx
  rw [← List.getD_eq_getElem l default hi]
  exact isHeap_root_le hsw l hheap i hi

/-! ### Comparator-independence of the heap routines

The entries pushed by `PriorityQueue` and `MutableMinHeap` carry pairwise
distinct insertion counters, so any two entries that the sift routines ever
compare are distinct, and their comparison is decided by `(priority,
counter)` without consulting the stored value.  The lemmas below make this
precise: two comparators that agree on all pairs of *distinct* elements of
the list produce identical results, so the (possibly meaningless) value
comparison is never exercised. -/

theorem nodup_getD_ne [Inhabited α] {l : List α} (hnd : l.Nodup) {i j : Nat}
    (hi : i < l.length) (hj : j < l.length) (hne : i ≠ j) :
    l.getD i default ≠ l.getD j default := by
  rw [List.getD_eq_getElem l default hi, List.getD_eq_getElem l default hj]
  intro hh
  exact hne (hnd.getElem_inj_iff.mp hh)

/-- Order-free facts about the `_siftdown` loop: length preservation and the
permutation identity. -/
theorem siftdownGo_perm [Inhabited α] (lt : α → α → Bool) (startpos : Nat) (newitem : α) :
    ∀ (fuel : Nat) (l : List α) (pos : Nat), pos < l.length →
      (siftdownGo lt startpos newitem fuel l pos).length = l.length ∧
      List.Perm (siftdownGo lt startpos newitem fuel l pos) (l.set pos newitem) := by
  intro fuel
  induction fuel with
  | zero => intro l pos _; exact ⟨by simp [siftdownGo], List.Perm.refl _⟩
  | succ fuel ih =>
    intro l pos hpos
    by_cases hsp : startpos < pos
    · have hppl : parentIdx pos < pos := parentIdx_lt (by omega)
      by_cases hmove : lt newitem (l.getD (parentIdx pos) default) = true
      · have hres : siftdownGo lt startpos newitem (fuel + 1) l pos =
            siftdownGo lt startpos newitem fuel
              (l.set pos (l.getD (parentIdx pos) default)) (parentIdx pos) := by
          simp only [siftdownGo, hsp, if_true, hmove]
        rw [hres]
        obtain ⟨ihl, ihp⟩ := ih (l.set pos (l.getD (parentIdx pos) default)) (parentIdx pos)
          (by simp; omega)
        refine ⟨ihl.trans (by simp), ihp.trans ?_⟩
        exact set_set_perm l pos (parentIdx pos) newitem hpos (by omega) (by omega)
      · have hres : siftdownGo lt startpos newitem (fuel + 1) l pos = l.set pos newitem := by
          simp only [siftdownGo, hsp, if_true, hmove]
          simp only [Bool.not_eq_true] at hmove
          simp [hmove]
        rw [hres]
        exact ⟨by simp, List.Perm.refl _⟩
    · have hres : siftdownGo lt startpos newitem (fuel + 1) l pos = l.set pos newitem := by
        simp only [siftdownGo, hsp, if_false]
      rw [hres]
      exact ⟨by simp, List.Perm.refl _⟩

/-- Order-free facts about the `_siftup` descending loop: lengths, bounds on
the final hole, the hole permutation identity, provenance of every slot, and
preservation of "value `v` occurs at most at the hole". -/
theorem siftupGo_basic [Inhabited α] (lt : α → α → Bool) :
    ∀ (fuel : Nat) (l : List α) (pos : Nat), pos < l.length →
      (siftupGo lt fuel l pos).1.length = l.length ∧
      pos ≤ (siftupGo lt fuel l pos).2 ∧
      (siftupGo lt fuel l pos).2 < l.length ∧
      (∀ x, List.Perm ((siftupGo lt fuel l pos).1.set (siftupGo lt fuel l pos).2 x)
          (l.set pos x)) ∧
      (∀ i, i < l.length → (siftupGo lt fuel l pos).1.getD i default ∈ l) ∧
      (∀ v, (∀ i, i < l.length → i ≠ pos → l.getD i default ≠ v) →
          ∀ i, i < l.length → i ≠ (siftupGo lt fuel l pos).2 →
            (siftupGo lt fuel l pos).1.getD i default ≠ v) := by
  intro fuel
  induction fuel with
  | zero =>
    intro l pos hpos
    exact ⟨rfl, Nat.le_refl _, hpos, fun x => List.Perm.refl _,
      fun i hi => getD_mem l i hi, fun v hv i hi hif => hv i hi hif⟩
  | succ fuel ih =>
    intro l pos hpos
    by_cases hchild : 2 * pos + 1 < l.length
    · set cpos := if (decide (2 * pos + 1 + 1 < l.length) &&
          !(lt (l.getD (2 * pos + 1) default) (l.getD (2 * pos + 1 + 1) default))) = true
        then 2 * pos + 1 + 1 else 2 * pos + 1 with hcposdef
      have hres : siftupGo lt (fuel + 1) l pos =
          siftupGo lt fuel (l.set pos (l.getD cpos default)) cpos := by
        simp only [siftupGo, hchild, if_true, hcposdef]
      have hclen : cpos < l.length := by
        rw [hcposdef]; split
        · next hc => simp only [Bool.and_eq_true, decide_eq_true_eq] at hc; exact hc.1
        · exact hchild
      have hcgt : pos < cpos := by rw [hcposdef]; split <;> omega
      set l' := l.set pos (l.getD cpos default) with hlpdef
      have hlplen : l'.length = l.length := by simp [hlpdef]
      obtain ⟨ihlen, ihge, ihlt, ihhole, ihmem, ihuniq⟩ :=
        ih l' cpos (by rw [hlplen]; exact hclen)
      rw [hres]
      rw [hlplen] at ihlen ihlt
      refine ⟨ihlen, by omega, ihlt, ?_, ?_, ?_⟩
      · intro x
        refine (ihhole x).trans ?_
        rw [hlpdef]
        exact set_set_perm l pos cpos x hpos hclen (by omega)
      · intro i hi
        have hmem := ihmem i (by rw [hlplen]; exact hi)
        have hsub : ∀ y, y ∈ l' → y ∈ l := by
          intro y hy
          have := (set_perm l pos (l.getD cpos default) hpos).mem_iff.mp (hlpdef ▸ hy)
          rcases List.mem_cons.mp this with h | h
          · rw [h]; exact getD_mem l cpos hclen
          · exact (List.eraseIdx_sublist l pos).subset h
        exact hsub _ hmem
      · intro v hv i hi hif
        refine ihuniq v ?_ i (by rw [hlplen]; exact hi) hif
        intro k hk hkc
        rw [hlplen] at hk
        by_cases hkpos : k = pos
        · rw [hkpos, hlpdef, getD_set_self l pos _ hpos]
          exact hv cpos hclen (by omega)
        · rw [hlpdef, getD_set_ne l _ (fun hh => hkpos hh.symm)]
          exact hv k hk hkpos
    · have hres : siftupGo lt (fuel + 1) l pos = (l, pos) := by
        simp only [siftupGo, hchild, if_false]
      rw [hres]
      exact ⟨rfl, Nat.le_refl _, hpos, fun x => List.Perm.refl _,
        fun i hi => getD_mem l i hi, fun v hv i hi hif => hv i hi hif⟩

/-- `_siftup` permutes the list (no order assumptions needed). -/
theorem siftup_perm [Inhabited α] (lt : α → α → Bool) (l : List α) (pos : Nat)
    (hpos : pos < l.length) :
    (siftup lt l pos).length = l.length ∧ List.Perm (siftup lt l pos) l := by
  obtain ⟨blen, bge, blt, bhole, _, _⟩ := siftupGo_basic lt l.length l pos hpos
  set newitem := l.getD pos default with hnewdef
  set dp := siftupGo lt l.length l pos with hdpdef
  have hLlen : (dp.1.set dp.2 newitem).length = l.length := by
    rw [List.length_set, blen]
  obtain ⟨dlen, dperm⟩ := siftdownGo_perm lt pos newitem dp.2 (dp.1.set dp.2 newitem)
    dp.2 (by rw [hLlen]; exact blt)
  have hresdef : siftup lt l pos = siftdownGo lt pos newitem dp.2 (dp.1.set dp.2 newitem) dp.2 := rfl
  rw [hresdef]
  constructor
  · rw [dlen, hLlen]
  · refine dperm.trans ?_
    rw [List.set_set]
    refine (bhole newitem).trans ?_
    rw [hnewdef, set_getD_self l pos hpos]

/-- Two comparators that agree on `newitem` versus every entry strictly
below `pos` drive the `_siftdown` loop identically. -/
theorem siftdownGo_cong [Inhabited α] (lt1 lt2 : α → α → Bool) (startpos : Nat)
    (newitem : α) :
    ∀ (fuel : Nat) (l : List α) (pos : Nat),
      (∀ i, i < pos → lt1 newitem (l.getD i default) = lt2 newitem (l.getD i default)) →
      siftdownGo lt1 startpos newitem fuel l pos =
        siftdownGo lt2 startpos newitem fuel l pos := by
  intro fuel
  induction fuel with
  | zero => intro l pos _; rfl
  | succ fuel ih =>
    intro l pos hagree
    by_cases hsp : startpos < pos
    · have hppl : parentIdx pos < pos := parentIdx_lt (by omega)
      have hag := hagree (parentIdx pos) hppl
      by_cases hmove : lt1 newitem (l.getD (parentIdx pos) default) = true
      · have hmove2 : lt2 newitem (l.getD (parentIdx pos) default) = true := by
          rw [← hag]; exact hmove
        have hres1 : siftdownGo lt1 startpos newitem (fuel + 1) l pos =
            siftdownGo lt1 startpos newitem fuel
              (l.set pos (l.getD (parentIdx pos) default)) (parentIdx pos) := by
          simp only [siftdownGo, hsp, if_true, hmove]
        have hres2 : siftdownGo lt2 startpos newitem (fuel + 1) l pos =
            siftdownGo lt2 startpos newitem fuel
              (l.set pos (l.getD (parentIdx pos) default)) (parentIdx pos) := by
          simp only [siftdownGo, hsp, if_true, hmove2]
        rw [hres1, hres2]
        refine ih _ (parentIdx pos) ?_
        intro i hi
        rw [getD_set_ne l _ (by omega : pos ≠ i)]
        exact hagree i (by omega)
      · have hmove2 : ¬ lt2 newitem (l.getD (parentIdx pos) default) = true := by
          rw [← hag]; exact hmove
        have hres1 : siftdownGo lt1 startpos newitem (fuel + 1) l pos = l.set pos newitem := by
          simp only [siftdownGo, hsp, if_true, hmove]
          simp only [Bool.not_eq_true] at hmove
          simp [hmove]
        have hres2 : siftdownGo lt2 startpos newitem (fuel + 1) l pos = l.set pos newitem := by
          simp only [siftdownGo, hsp, if_true, hmove2]
          simp only [Bool.not_eq_true] at hmove2
          simp [hmove2]
        rw [hres1, hres2]
    · have hres1 : siftdownGo lt1 startpos newitem (fuel + 1) l pos = l.set pos newitem := by
        simp only [siftdownGo, hsp, if_false]
      have hres2 : siftdownGo lt2 startpos newitem (fuel + 1) l pos = l.set pos newitem := by
        simp only [siftdownGo, hsp, if_false]
      rw [hres1, hres2]

/-- Two comparators that agree on all pairs of entries strictly below `pos`
(at distinct positions) drive the `_siftup` descending loop identically. -/
theorem siftupGo_cong [Inhabited α] (lt1 lt2 : α → α → Bool) :
    ∀ (fuel : Nat) (l : List α) (pos : Nat),
      (∀ i j, i < l.length → j < l.length → pos < i → pos < j → i ≠ j →
          lt1 (l.getD i default) (l.getD j default) =
            lt2 (l.getD i default) (l.getD j default)) →
      siftupGo lt1 fuel l pos = siftupGo lt2 fuel l pos := by
  intro fuel
  induction fuel with
  | zero => intro l pos _; rfl
  | succ fuel ih =>
    intro l pos hagree
    by_cases hchild : 2 * pos + 1 < l.length
    · have hcond : (decide (2 * pos + 1 + 1 < l.length) &&
          !(lt2 (l.getD (2 * pos + 1) default) (l.getD (2 * pos + 1 + 1) default))) =
          (decide (2 * pos + 1 + 1 < l.length) &&
          !(lt1 (l.getD (2 * pos + 1) default) (l.getD (2 * pos + 1 + 1) default))) := by
        by_cases hrp : 2 * pos + 1 + 1 < l.length
        · rw [hagree (2 * pos + 1) (2 * pos + 1 + 1) hchild hrp (by omega) (by omega)
            (by omega)]
        · simp [hrp]
      have hnext : ∀ c, pos < c → c < l.length →
          siftupGo lt1 fuel (l.set pos (l.getD c default)) c =
            siftupGo lt2 fuel (l.set pos (l.getD c default)) c := by
        intro c hpc hcl
        refine ih _ c ?_
        intro i j hi hj hpi hpj hij
        rw [List.length_set] at hi hj
        rw [getD_set_ne l _ (by omega : pos ≠ i), getD_set_ne l _ (by omega : pos ≠ j)]
        exact hagree i j hi hj (by omega) (by omega) hij
      by_cases hcb : (decide (2 * pos + 1 + 1 < l.length) &&
          !(lt1 (l.getD (2 * pos + 1) default) (l.getD (2 * pos + 1 + 1) default))) = true
      · have hcb2 : (decide (2 * pos + 1 + 1 < l.length) &&
            !(lt2 (l.getD (2 * pos + 1) default) (l.getD (2 * pos + 1 + 1) default))) = true := by
          rw [hcond]; exact hcb
        have hrp : 2 * pos + 1 + 1 < l.length := by
          simp only [Bool.and_eq_true, decide_eq_true_eq] at hcb
          exact hcb.1
        have hres1 : siftupGo lt1 (fuel + 1) l pos =
            siftupGo lt1 fuel (l.set pos (l.getD (2 * pos + 1 + 1) default)) (2 * pos + 1 + 1) := by
          simp only [siftupGo, hchild, if_true, hcb]
        have hres2 : siftupGo lt2 (fuel + 1) l pos =
            siftupGo lt2 fuel (l.set pos (l.getD (2 * pos + 1 + 1) default)) (2 * pos + 1 + 1) := by
          simp only [siftupGo, hchild, if_true, hcb2]
        rw [hres1, hres2]
        exact hnext (2 * pos + 1 + 1) (by omega) hrp
      · have hcb2 : ¬ (decide (2 * pos + 1 + 1 < l.length) &&
            !(lt2 (l.getD (2 * pos + 1) default) (l.getD (2 * pos + 1 + 1) default))) = true := by
          rw [hcond]; exact hcb
        rw [Bool.not_eq_true] at hcb hcb2
        have hres1 : siftupGo lt1 (fuel + 1) l pos =
            siftupGo lt1 fuel (l.set pos (l.getD (2 * pos + 1) default)) (2 * pos + 1) := by
          simp only [siftupGo, hchild, if_true, hcb, Bool.false_eq_true, if_false]
        have hres2 : siftupGo lt2 (fuel + 1) l pos =
            siftupGo lt2 fuel (l.set pos (l.getD (2 * pos + 1) default)) (2 * pos + 1) := by
          simp only [siftupGo, hchild, if_true, hcb2, Bool.false_eq_true, if_false]
        rw [hres1, hres2]
        exact hnext (2 * pos + 1) (by omega) hchild
    · have hres1 : siftupGo lt1 (fuel + 1) l pos = (l, pos) := by
        simp only [siftupGo, hchild, if_false]
      have hres2 : siftupGo lt2 (fuel + 1) l pos = (l, pos) := by
        simp only [siftupGo, hchild, if_false]
      rw [hres1, hres2]

/-- Two comparators that agree on all pairs of distinct entries of a
duplicate-free list drive `_siftup` identically. -/
theorem siftup_cong [Inhabited α] (lt1 lt2 : α → α → Bool) (l : List α) (pos : Nat)
    (hpos : pos < l.length) (hnd : l.Nodup)
    (hagree : ∀ x y, x ∈ l → y ∈ l → x ≠ y → lt1 x y = lt2 x y) :
    siftup lt1 l pos = siftup lt2 l pos := by
  have hgo : siftupGo lt1 l.length l pos = siftupGo lt2 l.length l pos := by
    refine siftupGo_cong lt1 lt2 l.length l pos ?_
    intro i j hi hj _ _ hij
    exact hagree _ _ (getD_mem l i hi) (getD_mem l j hj) (nodup_getD_ne hnd hi hj hij)
  obtain ⟨blen, bge, blt, bhole, bmem, buniq⟩ := siftupGo_basic lt1 l.length l pos hpos
  have hmain : siftdownGo lt1 pos (l.getD pos default) (siftupGo lt1 l.length l pos).2
      ((siftupGo lt1 l.length l pos).1.set (siftupGo lt1 l.length l pos).2
        (l.getD pos default)) (siftupGo lt1 l.length l pos).2 =
      siftdownGo lt2 pos (l.getD pos default) (siftupGo lt1 l.length l pos).2
      ((siftupGo lt1 l.length l pos).1.set (siftupGo lt1 l.length l pos).2
        (l.getD pos default)) (siftupGo lt1 l.length l pos).2 := by
    refine siftdownGo_cong lt1 lt2 pos (l.getD pos default) _ _ _ ?_
    intro i hi
    have hne : i ≠ (siftupGo lt1 l.length l pos).2 := Nat.ne_of_lt hi
    have hiL : i < l.length := Nat.lt_trans hi blt
    rw [getD_set_ne _ _ (fun hh => hne hh.symm)]
    have hmem2 := bmem i hiL
    have hval : (siftupGo lt1 l.length l pos).1.getD i default ≠ l.getD pos default :=
      buniq (l.getD pos default) (fun k hk hkpos => nodup_getD_ne hnd hk hpos hkpos)
        i hiL hne
    exact hagree _ _ (getD_mem l pos hpos) hmem2 (fun hh => hval hh.symm)
  have h1 : siftup lt1 l pos = siftdownGo lt1 pos (l.getD pos default)
      (siftupGo lt1 l.length l pos).2
      ((siftupGo lt1 l.length l pos).1.set (siftupGo lt1 l.length l pos).2
        (l.getD pos default)) (siftupGo lt1 l.length l pos).2 := rfl
  have h2 : siftup lt2 l pos = siftdownGo lt2 pos (l.getD pos default)
      (siftupGo lt1 l.length l pos).2
      ((siftupGo lt1 l.length l pos).1.set (siftupGo lt1 l.length l pos).2
        (l.getD pos default)) (siftupGo lt1 l.length l pos).2 := by
    rw [hgo]
    rfl
  rw [h1, h2, hmain]

/-- `heappush` is driven entirely by comparisons of the new item against
existing entries. -/
theorem heappush_cong [Inhabited α] (lt1 lt2 : α → α → Bool) (l : List α) (item : α)
    (hagree : ∀ x, x ∈ l → lt1 item x = lt2 item x) :
    heappush lt1 l item = heappush lt2 l item := by
  unfold heappush siftdown
  rw [getD_append_last]
  refine siftdownGo_cong lt1 lt2 0 item l.length (l ++ [item]) l.length ?_
  intro i hi
  rw [getD_append_left l [item] i hi]
  exact hagree _ (getD_mem l i hi)

/-- `heappop` on a duplicate-free heap is driven entirely by comparisons of
distinct entries. -/
theorem heappop_cong [Inhabited α] (lt1 lt2 : α → α → Bool) (l : List α)
    (hnd : l.Nodup)
    (hagree : ∀ x y, x ∈ l → y ∈ l → x ≠ y → lt1 x y = lt2 x y) :
    heappop lt1 l = heappop lt2 l := by
  unfold heappop
  cases hlast : l.getLast? with
  | none => rfl
  | some lastelt =>
    have hne : l ≠ [] := by intro h; rw [h] at hlast; cases hlast
    have hlasteq : lastelt = l.getLast hne := by
      have := List.getLast?_eq_getLast l hne
      rw [hlast] at this
      exact Option.some.inj this
    have hsplit : l.dropLast ++ [lastelt] = l := by
      rw [hlasteq]
      exact List.dropLast_append_getLast hne
    by_cases hrest : l.dropLast.isEmpty = true
    · simp only [hrest, if_true]
    · rw [Bool.not_eq_true] at hrest
      simp only [hrest, Bool.false_eq_true, if_false]
      have hrlen : 0 < l.dropLast.length := by
        cases hdl : l.dropLast with
        | nil => rw [hdl] at hrest; simp at hrest
        | cons a t => simp
      have hndsplit : (l.dropLast ++ [lastelt]).Nodup := by rw [hsplit]; exact hnd
      have hlnotin : lastelt ∉ l.dropLast := by
        intro hmem
        rcases List.nodup_append.mp hndsplit with ⟨_, _, hdisj⟩
        exact hdisj hmem (List.mem_singleton_self _)
      have hnddrop : l.dropLast.Nodup := (List.nodup_append.mp hndsplit).1
      have hL0nd : (l.dropLast.set 0 lastelt).Nodup := by
        have hperm := set_perm l.dropLast 0 lastelt hrlen
        rw [hperm.nodup_iff]
        refine List.Nodup.cons ?_ (hnddrop.sublist (List.eraseIdx_sublist _ _))
        intro hmem
        exact hlnotin ((List.eraseIdx_sublist l.dropLast 0).subset hmem)
      have hL0sub : ∀ x, x ∈ l.dropLast.set 0 lastelt → x ∈ l := by
        intro x hx
        have := (set_perm l.dropLast 0 lastelt hrlen).mem_iff.mp hx
        rcases List.mem_cons.mp this with h | h
        · rw [h, hlasteq]; exact List.getLast_mem hne
        · exact (List.dropLast_sublist l).subset
            ((List.eraseIdx_sublist l.dropLast 0).subset h)
      have hsc := siftup_cong lt1 lt2 (l.dropLast.set 0 lastelt) 0
        (by simpa using hrlen) hL0nd
        (fun x y hx hy hxy => hagree x y (hL0sub x hx) (hL0sub y hy) hxy)
      rw [hsc]

/-- `heapify` on a duplicate-free list is driven entirely by comparisons of
distinct entries. -/
theorem heapify_fold_cong [Inhabited α] (lt1 lt2 : α → α → Bool) :
    ∀ (i : Nat) (l : List α), i ≤ l.length / 2 → l.Nodup →
      (∀ x y, x ∈ l → y ∈ l → x ≠ y → lt1 x y = lt2 x y) →
      (List.range i).reverse.foldl (fun h k => siftup lt1 h k) l =
        (List.range i).reverse.foldl (fun h k => siftup lt2 h k) l := by
  intro i
  induction i with
  | zero => intro l _ _ _; rfl
  | succ i ih =>
    intro l hi hnd hagree
    have hstep : (List.range (i + 1)).reverse = i :: (List.range i).reverse := by
      rw [List.range_succ, List.reverse_append]
      rfl
    rw [hstep]
    have hilen : i < l.length := by omega
    have hsc := siftup_cong lt1 lt2 l i hilen hnd hagree
    show List.foldl (fun h k => siftup lt1 h k) (siftup lt1 l i) (List.range i).reverse =
      List.foldl (fun h k => siftup lt2 h k) (siftup lt2 l i) (List.range i).reverse
    rw [← hsc]
    obtain ⟨hplen, hperm⟩ := siftup_perm lt1 l i hilen
    exact ih (siftup lt1 l i) (by rw [hplen]; omega) (hperm.nodup_iff.mpr hnd)
      (fun x y hx hy hxy => hagree x y (hperm.subset hx) (hperm.subset hy) hxy)

theorem heapify_cong [Inhabited α] (lt1 lt2 : α → α → Bool) (l : List α)
    (hnd : l.Nodup)
    (hagree : ∀ x y, x ∈ l → y ∈ l → x ≠ y → lt1 x y = lt2 x y) :
    heapify lt1 l = heapify lt2 l := by
  unfold heapify
  exact heapify_fold_cong lt1 lt2 (l.length / 2) l (Nat.le_refl _) hnd hagree

/-! ### PriorityQueue: stability and value-blindness (C2, C10) -/

/-- Python's tuple comparison on two `PriorityQueue` entries with distinct
counters never reaches the value component: its outcome does not depend on
the value order at all. -/
theorem entry_lt_counter_blind (vlt vlt' : V → V → Bool) (a b : Int × Nat × V)
    (h : a.2.1 ≠ b.2.1) : entry_lt vlt a b = entry_lt vlt' a b := by
  unfold entry_lt
  by_cases h1 : a.1 ≠ b.1
  · simp [h1]
  · by_cases h2 : a.2.1 ≠ b.2.1
    · simp [h1, h2]
    · exact absurd (not_not.mp h2) h

theorem entry_lt_noval_swo : StrictWeak (entry_lt (V := V) (fun _ _ => false)) := by
  refine ⟨?_, ?_, ?_⟩
  · intro a b hab
    unfold entry_lt at hab ⊢
    split_ifs at hab ⊢ <;>
      simp_all [decide_eq_true_eq] <;> omega
  · intro a b c hab hbc
    unfold entry_lt at hab hbc ⊢
    split_ifs at hab hbc ⊢ <;>
      simp_all [decide_eq_true_eq] <;> omega
  · intro a b c hac
    unfold entry_lt at hac ⊢
    split_ifs at hac ⊢ <;>
      simp_all [decide_eq_true_eq] <;> omega

theorem entry_lt_false_min (a b : Int × Nat × V)
    (h : entry_lt (fun _ _ => false) a b = false) :
    b.1 < a.1 ∨ (b.1 = a.1 ∧ b.2.1 ≤ a.2.1) := by
  unfold entry_lt at h
  split_ifs at h with h1 h2
  · simp only [decide_eq_false_iff_not] at h
    omega
  · simp only [decide_eq_false_iff_not] at h
    omega
  · push_neg at h1 h2
    omega

theorem counters_distinct {el : List (Int × Nat × V)}
    (hnd : (el.map (fun e => e.2.1)).Nodup)
    {x y : Int × Nat × V} (hx : x ∈ el) (hy : y ∈ el) (hxy : x ≠ y) :
    x.2.1 ≠ y.2.1 := by
  intro hc
  exact hxy (List.inj_on_of_nodup_map hnd hx hy hc)

theorem elements_nodup_of_counters {el : List (Int × Nat × V)}
    (hnd : (el.map (fun e => e.2.1)).Nodup) : el.Nodup :=
  List.Nodup.of_map _ hnd

/-- Enqueues with any value comparator coincide with the value-blind one and
preserve the invariant. -/
theorem pq_enqueue_inv [Inhabited V] (vlt : V → V → Bool) (q : PriorityQueue V)
    (hinv : PQInv q) (p : Int) (v : V) :
    enqueue_with_priority vlt q p v =
      enqueue_with_priority (fun _ _ => false) q p v ∧
    PQInv (enqueue_with_priority vlt q p v) := by
  obtain ⟨hbound, hnd, hheap⟩ := hinv
  have hcong : heappush (entry_lt vlt) q.elements (-p, q.counter, v) =
      heappush (entry_lt (fun _ _ => false)) q.elements (-p, q.counter, v) := by
    refine heappush_cong _ _ _ _ ?_
    intro x hx
    exact entry_lt_counter_blind _ _ _ _ (fun hh => by
      have := hbound x hx
      simp only [← hh] at this
      omega)
  obtain ⟨hlen, hperm, hheap'⟩ := heappush_spec entry_lt_noval_swo q.elements
    (-p, q.counter, v) hheap
  rw [← hcong] at hperm hheap'
  constructor
  · unfold enqueue_with_priority
    rw [hcong]
  · unfold enqueue_with_priority
    refine ⟨?_, ?_, ?_⟩
    · intro e he
      simp only at he ⊢
      rcases List.mem_cons.mp (hperm.mem_iff.mp he) with h | h
      · rw [h]
        simp
      · have := hbound e h
        omega
    · simp only
      have hpm := hperm.map (fun e : Int × Nat × V => e.2.1)
      rw [hpm.nodup_iff]
      simp only [List.map_cons]
      refine List.Nodup.cons ?_ hnd
      intro hmem
      simp only [List.mem_map] at hmem
      obtain ⟨e, he, heq⟩ := hmem
      have := hbound e he
      omega
    · simp only
      rw [hcong]
      rw [hcong] at hheap'
      exact hheap'

/-- Dequeues with any value comparator coincide with the value-blind one;
on a non-empty queue the dequeued entry is the lexicographic minimum of
`(negated priority, counter)` among the stored entries, and the invariant
is preserved. -/
theorem pq_dequeue_inv [Inhabited V] (vlt : V → V → Bool) (q : PriorityQueue V)
    (hinv : PQInv q) :
    pq_dequeue vlt q = pq_dequeue (fun _ _ => false) q ∧
    (q.elements = [] → pq_dequeue vlt q = none) ∧
    (q.elements ≠ [] →
      ∃ p c v q', pq_dequeue vlt q = some (v, q') ∧ (p, c, v) ∈ q.elements ∧
        PQInv q' ∧ List.Perm q.elements ((p, c, v) :: q'.elements) ∧
        q'.counter = q.counter ∧
        (∀ p' c' v', (p', c', v') ∈ q.elements →
          p < p' ∨ (p = p' ∧ c ≤ c'))) := by
  obtain ⟨hbound, hnd, hheap⟩ := hinv
  have hcong : heappop (entry_lt vlt) q.elements =
      heappop (entry_lt (fun _ _ => false)) q.elements := by
    refine heappop_cong _ _ _ (elements_nodup_of_counters hnd) ?_
    intro x y hx hy hxy
    exact entry_lt_counter_blind _ _ _ _ (counters_distinct hnd hx hy hxy)
  refine ⟨?_, ?_, ?_⟩
  · unfold pq_dequeue
    rw [hcong]
  · intro hempty
    unfold pq_dequeue
    rw [hempty]
    rfl
  · intro hne
    obtain ⟨l', hpop, hlen', hperm, hheap'⟩ :=
      heappop_spec entry_lt_noval_swo q.elements hheap hne
    set root := q.elements.getD 0 default with hrootdef
    have hrootmem : root ∈ q.elements := by
      rw [hrootdef]
      exact getD_mem q.elements 0 (List.length_pos.mpr hne)
    refine ⟨root.1, root.2.1, root.2.2, ⟨l', q.counter⟩, ?_, ?_, ?_, ?_, rfl, ?_⟩
    · unfold pq_dequeue
      rw [hcong, hpop]
      rfl
    · exact hrootmem
    · refine ⟨?_, ?_, hheap'⟩
      · intro e he
        exact hbound e (hperm.mem_iff.mpr (List.mem_cons_of_mem _ he))
      · have hpm := hperm.map (fun e : Int × Nat × V => e.2.1)
        rw [hpm.nodup_iff] at hnd
        simp only [List.map_cons] at hnd
        exact hnd.of_cons
    · simpa using hperm
    · intro p' c' v' hmem
      have hfalse := isHeap_root_le_mem entry_lt_noval_swo q.elements hheap _ hmem
      have := entry_lt_false_min (p', c', v') root hfalse
      rcases this with h | h
      · left; exact h
      · by_cases hsame : (p', c', v') = root
        · rw [← hsame]
          right
          exact ⟨rfl, Nat.le_refl _⟩
        · right
          refine ⟨h.1, ?_⟩
          have hcne := counters_distinct hnd hmem hrootmem hsame
          have := h.2
          simp only at hcne this ⊢
          omega

/-- The invariant holds at every state reachable from the empty queue. -/
theorem pq_run_inv [Inhabited V] (vlt : V → V → Bool) (ops : List (PQOp V)) :
    ∀ q, PQInv q → PQInv (pq_run vlt ops q) := by
  induction ops with
  | nil => intro q hq; exact hq
  | cons op ops ih =>
    intro q hq
    cases op with
    | enq p v =>
      show PQInv (pq_run vlt ops (enqueue_with_priority vlt q p v))
      exact ih _ (pq_enqueue_inv vlt q hq p v).2
    | deq =>
      obtain ⟨hc, hemp, hfull⟩ := pq_dequeue_inv vlt q hq
      show PQInv (match pq_dequeue vlt q with
        | none => pq_run vlt ops q
        | some vq => pq_run vlt ops vq.2)
      by_cases hne : q.elements = []
      · rw [hemp hne]
        exact ih q hq
      · obtain ⟨p, c, v, q', hdeq, _, hinv', _, _, _⟩ := hfull hne
        rw [hdeq]
        exact ih q' hinv'

theorem pq_empty_inv [Inhabited V] : PQInv (pq_empty (V := V)) := by
  refine ⟨fun e he => absurd he (List.not_mem_nil e), by simp [pq_empty], ?_⟩
  intro i hi
  simp [pq_empty] at hi

/-- C2: in every state reachable by any sequence of operations from the
empty `PriorityQueue`, a dequeue returns the entry whose
`(-priority, counter)` pair is lexicographically least among all stored
entries: any strictly-higher-priority entry would be returned first, and
among equal priorities the smallest (earliest) insertion counter wins. -/
theorem pq_dequeue_priority_stable [Inhabited V] (vlt : V → V → Bool)
    (ops : List (PQOp V)) (v : V) (q' : PriorityQueue V)
    (hdeq : pq_dequeue vlt (pq_run vlt ops pq_empty) = some (v, q')) :
    ∃ p c, (p, c, v) ∈ (pq_run vlt ops pq_empty).elements ∧
      ∀ p' c' v', (p', c', v') ∈ (pq_run vlt ops pq_empty).elements →
        p < p' ∨ (p = p' ∧ c ≤ c') := by
  have hinv := pq_run_inv vlt ops pq_empty pq_empty_inv
  obtain ⟨hc, hemp, hfull⟩ := pq_dequeue_inv vlt (pq_run vlt ops pq_empty) hinv
  by_cases hne : (pq_run vlt ops pq_empty).elements = []
  · rw [hemp hne] at hdeq
    cases hdeq
  · obtain ⟨p, c, w, q'', hdeq', hmem, _, _, _, hmin⟩ := hfull hne
    rw [hdeq'] at hdeq
    have hveq : w = v := (Prod.ext_iff.mp (Option.some.inj hdeq)).1
    rw [hveq] at hmem
    exact ⟨p, c, hmem, hmin⟩

/-- Witness for `pq_dequeue_priority_stable`: enqueue priorities 1, 3, 3
and dequeue; the priority-3 value enqueued first comes out. -/
theorem pq_dequeue_priority_stable_witness :
    pq_dequeue (fun _ _ => false)
      (pq_run (V := Nat) (fun _ _ => false)
        [.enq 1 10, .enq 3 20, .enq 3 30] pq_empty) =
      some (20, ⟨[(-3, 2, 30), (-1, 0, 10)], 3⟩) ∧
    ∃ p c, (p, c, 20) ∈ (pq_run (V := Nat) (fun _ _ => false)
        [.enq 1 10, .enq 3 20, .enq 3 30] pq_empty).elements ∧
      ∀ p' c' v', (p', c', v') ∈ (pq_run (V := Nat) (fun _ _ => false)
          [.enq 1 10, .enq 3 20, .enq 3 30] pq_empty).elements →
        p < p' ∨ (p = p' ∧ c ≤ c') := by
  refine ⟨by decide, ?_⟩
  exact pq_dequeue_priority_stable (fun _ _ => false)
    [.enq 1 10, .enq 3 20, .enq 3 30] 20 ⟨[(-3, 2, 30), (-1, 0, 10)], 3⟩ (by decide)

/-! ### MutableMinHeap: invariants and operation specifications (C4, C7, C10) -/

/-- `Element` comparison on two entries whose counters differ never reaches
the `value` component. -/
theorem mmh_lt_counter_blind (vlt vlt' : V → V → Bool) (m : V → Option (Int × Nat))
    (a b : V) (h : ((m a).getD (0, 0)).2 ≠ ((m b).getD (0, 0)).2) :
    mmh_lt vlt m a b = mmh_lt vlt' m a b := by
  unfold mmh_lt
  dsimp only
  by_cases h1 : ((m a).getD (0, 0)).1 ≠ ((m b).getD (0, 0)).1
  · rw [if_pos h1, if_pos h1]
  · rw [if_neg h1, if_neg h1, if_pos h, if_pos h]

theorem mmh_lt_map_congr (vlt : V → V → Bool) (m m' : V → Option (Int × Nat))
    (a b : V) (ha : m' a = m a) (hb : m' b = m b) :
    mmh_lt vlt m' a b = mmh_lt vlt m a b := by
  unfold mmh_lt
  dsimp only
  rw [ha, hb]

theorem mmh_lt_noval_swo (m : V → Option (Int × Nat)) :
    StrictWeak (mmh_lt (fun _ _ => false) m) := by
  refine ⟨?_, ?_, ?_⟩
  · intro a b hab
    unfold mmh_lt at hab ⊢
    dsimp only at hab ⊢
    split_ifs at hab ⊢ <;> simp_all [decide_eq_true_eq] <;> omega
  · intro a b c hab hbc
    unfold mmh_lt at hab hbc ⊢
    dsimp only at hab hbc ⊢
    split_ifs at hab hbc ⊢ <;> simp_all [decide_eq_true_eq] <;> omega
  · intro a b c hac
    unfold mmh_lt at hac ⊢
    dsimp only at hac ⊢
    split_ifs at hac ⊢ <;> simp_all [decide_eq_true_eq] <;> omega

theorem mmh_lt_false_min (m : V → Option (Int × Nat)) (a b : V)
    (h : mmh_lt (fun _ _ => false) m a b = false) :
    ((m b).getD (0, 0)).1 < ((m a).getD (0, 0)).1 ∨
      (((m b).getD (0, 0)).1 = ((m a).getD (0, 0)).1 ∧
        ((m b).getD (0, 0)).2 ≤ ((m a).getD (0, 0)).2) := by
  unfold mmh_lt at h
  dsimp only at h
  split_ifs at h with h1 h2
  · simp only [decide_eq_false_iff_not] at h
    omega
  · simp only [decide_eq_false_iff_not] at h
    omega
  · push_neg at h1 h2
    omega

theorem isHeap_mmh_congr (vlt : V → V → Bool) [Inhabited V]
    (m m' : V → Option (Int × Nat)) (l : List V) (hag : ∀ x ∈ l, m' x = m x)
    (hheap : IsHeap (mmh_lt vlt m) l) : IsHeap (mmh_lt vlt m') l := by
  intro i hi hi0
  rw [mmh_lt_map_congr vlt m m' _ _ (hag _ (getD_mem l i hi))
    (hag _ (getD_mem l (parentIdx i) (Nat.lt_trans (parentIdx_lt hi0) hi)))]
  exact hheap i hi hi0

/-- `__setitem__` behaves identically for every value comparator, preserves
the run-time invariant, and touches the heap contents as Python does:
in-place update plus `heapify` for an existing key, `heappush` of the new
entry for a fresh key. -/
theorem mmh_setitem_inv [DecidableEq V] [Inhabited V] (vlt : V → V → Bool)
    (h : MutableMinHeap V) (hinv : MMHInv h) (value : V) (priority : Int) :
    mmh_setitem vlt h value priority =
      mmh_setitem (fun _ _ => false) h value priority ∧
    MMHInv (mmh_setitem vlt h value priority) ∧
    (∀ pc, h.elements_by_value value = some pc →
      List.Perm (mmh_setitem vlt h value priority).elements h.elements ∧
      (mmh_setitem vlt h value priority).counter = h.counter) ∧
    (h.elements_by_value value = none →
      List.Perm (mmh_setitem vlt h value priority).elements (value :: h.elements) ∧
      (mmh_setitem vlt h value priority).counter = h.counter + 1) ∧
    (mmh_setitem vlt h value priority).elements_by_value value ≠ none := by
  obtain ⟨hnd, hdom, hbound, hdistinct, hheap⟩ := hinv
  cases hv : h.elements_by_value value with
  | some pc =>
    -- in-place update of the shared element, then heapify
    set m' := fun z => if z = value then some (priority, pc.2) else h.elements_by_value z
      with hmpdef
    have hm'eq : ∀ z, m' z =
        if z = value then some (priority, pc.2) else h.elements_by_value z :=
      fun z => rfl
    have hm'cnt : ∀ z p c, m' z = some (p, c) →
        ∃ p0, h.elements_by_value z = some (p0, c) := by
      intro z p c hz
      rw [hm'eq] at hz
      by_cases hzv : z = value
      · rw [if_pos hzv] at hz
        have hc := (Prod.ext_iff.mp (Option.some.inj hz)).2
        dsimp only at hc
        refine ⟨pc.1, ?_⟩
        rw [hzv, hv, ← hc]
      · rw [if_neg hzv] at hz
        exact ⟨p, hz⟩
    have hm'some : ∀ z, z ∈ h.elements → ∃ p c, m' z = some (p, c) := by
      intro z hz
      rw [hm'eq]
      by_cases hzv : z = value
      · exact ⟨priority, pc.2, by rw [if_pos hzv]⟩
      · cases hmz : h.elements_by_value z with
        | none => exact absurd hmz (hdom z hz)
        | some q => exact ⟨q.1, q.2, by rw [if_neg hzv]⟩
    have hres : mmh_setitem vlt h value priority =
        ⟨m', heapify (mmh_lt vlt m') h.elements, h.counter⟩ := by
      unfold mmh_setitem
      rw [hv]
    have hres2 : mmh_setitem (fun _ _ => false) h value priority =
        ⟨m', heapify (mmh_lt (fun _ _ => false) m') h.elements, h.counter⟩ := by
      unfold mmh_setitem
      rw [hv]
    have hagree : ∀ x y, x ∈ h.elements → y ∈ h.elements → x ≠ y →
        mmh_lt vlt m' x y = mmh_lt (fun _ _ => false) m' x y := by
      intro x y hx hy hxy
      refine mmh_lt_counter_blind _ _ _ _ _ ?_
      obtain ⟨px, cx, hpx⟩ := hm'some x hx
      obtain ⟨py, cy, hpy⟩ := hm'some y hy
      rw [hpx, hpy]
      obtain ⟨px0, hx0⟩ := hm'cnt x px cx hpx
      obtain ⟨py0, hy0⟩ := hm'cnt y py cy hpy
      dsimp only [Option.getD_some]
      exact hdistinct x y px0 cx py0 cy hx0 hy0 hxy
    have hcong : heapify (mmh_lt vlt m') h.elements =
        heapify (mmh_lt (fun _ _ => false) m') h.elements :=
      heapify_cong _ _ h.elements hnd hagree
    obtain ⟨hflen, hfperm, hfheap⟩ := heapify_spec (mmh_lt_noval_swo m') h.elements
    refine ⟨by rw [hres, hres2, hcong], ?_, ?_, ?_, ?_⟩
    · rw [hres]
      refine ⟨?_, ?_, ?_, ?_, ?_⟩
      · show (heapify (mmh_lt vlt m') h.elements).Nodup
        rw [hcong, hfperm.nodup_iff]
        exact hnd
      · intro v hvmem
        show m' v ≠ none
        rw [hcong] at hvmem
        have hvel := hfperm.mem_iff.mp hvmem
        obtain ⟨p, c, hp⟩ := hm'some v hvel
        rw [hp]
        exact Option.some_ne_none _
      · intro z p c hz
        obtain ⟨p0, hz0⟩ := hm'cnt z p c hz
        exact hbound z p0 c hz0
      · intro z w pz cz pw cw hz hw hzw
        obtain ⟨pz0, hz0⟩ := hm'cnt z pz cz hz
        obtain ⟨pw0, hw0⟩ := hm'cnt w pw cw hw
        exact hdistinct z w pz0 cz pw0 cw hz0 hw0 hzw
      · show IsHeap (mmh_lt (fun _ _ => false) m') (heapify (mmh_lt vlt m') h.elements)
        rw [hcong]
        exact hfheap
    · intro pc' _
      rw [hres]
      refine ⟨?_, rfl⟩
      show List.Perm (heapify (mmh_lt vlt m') h.elements) h.elements
      rw [hcong]
      exact hfperm
    · intro hnone
      exact Option.noConfusion hnone
    · rw [hres]
      show m' value ≠ none
      rw [hm'eq, if_pos rfl]
      exact Option.some_ne_none _
  | none =>
    -- fresh key: create the element and push it
    set m' := fun z => if z = value then some (priority, h.counter) else h.elements_by_value z
      with hmpdef
    have hm'eq : ∀ z, m' z =
        if z = value then some (priority, h.counter) else h.elements_by_value z :=
      fun z => rfl
    have hvnotin : value ∉ h.elements := by
      intro hmem
      exact hdom value hmem hv
    have hm'old : ∀ z, z ∈ h.elements → m' z = h.elements_by_value z := by
      intro z hz
      rw [hm'eq, if_neg (fun hh => hvnotin (by rw [← hh]; exact hz))]
    have hres : mmh_setitem vlt h value priority =
        ⟨m', heappush (mmh_lt vlt m') h.elements value, h.counter + 1⟩ := by
      unfold mmh_setitem
      rw [hv]
    have hres2 : mmh_setitem (fun _ _ => false) h value priority =
        ⟨m', heappush (mmh_lt (fun _ _ => false) m') h.elements value, h.counter + 1⟩ := by
      unfold mmh_setitem
      rw [hv]
    have hagree : ∀ x, x ∈ h.elements →
        mmh_lt vlt m' value x = mmh_lt (fun _ _ => false) m' value x := by
      intro x hx
      refine mmh_lt_counter_blind _ _ _ _ _ ?_
      have hval : m' value = some (priority, h.counter) := by rw [hm'eq, if_pos rfl]
      cases hmx : h.elements_by_value x with
      | none => exact absurd hmx (hdom x hx)
      | some q =>
        rw [hval, hm'old x hx, hmx]
        have hb := hbound x q.1 q.2 (by rw [hmx])
        dsimp only [Option.getD_some]
        omega
    have hcong : heappush (mmh_lt vlt m') h.elements value =
        heappush (mmh_lt (fun _ _ => false) m') h.elements value :=
      heappush_cong _ _ _ _ hagree
    have hheap' : IsHeap (mmh_lt (fun _ _ => false) m') h.elements :=
      isHeap_mmh_congr _ _ _ _ hm'old hheap
    obtain ⟨hplen, hpperm, hpheap⟩ :=
      heappush_spec (mmh_lt_noval_swo m') h.elements value hheap'
    refine ⟨by rw [hres, hres2, hcong], ?_, ?_, ?_, ?_⟩
    · rw [hres]
      refine ⟨?_, ?_, ?_, ?_, ?_⟩
      · show (heappush (mmh_lt vlt m') h.elements value).Nodup
        rw [hcong, hpperm.nodup_iff]
        exact List.Nodup.cons hvnotin hnd
      · intro v hvmem
        show m' v ≠ none
        rw [hcong] at hvmem
        rcases List.mem_cons.mp (hpperm.mem_iff.mp hvmem) with hcase | hcase
        · rw [hm'eq, if_pos hcase]
          exact Option.some_ne_none _
        · rw [hm'old v hcase]
          exact hdom v hcase
      · intro z p c hz
        replace hz : m' z = some (p, c) := hz
        rw [hm'eq] at hz
        show c < h.counter + 1
        by_cases hzv : z = value
        · rw [if_pos hzv] at hz
          have hc := (Prod.ext_iff.mp (Option.some.inj hz)).2
          dsimp only at hc
          omega
        · rw [if_neg hzv] at hz
          have := hbound z p c hz
          omega
      · intro z w pz cz pw cw hz hw hzw
        replace hz : m' z = some (pz, cz) := hz
        replace hw : m' w = some (pw, cw) := hw
        rw [hm'eq] at hz hw
        by_cases hzv : z = value <;> by_cases hwv : w = value
        · exact absurd (hzv.trans hwv.symm) hzw
        · rw [if_pos hzv] at hz
          rw [if_neg hwv] at hw
          have hcz := (Prod.ext_iff.mp (Option.some.inj hz)).2
          have := hbound w pw cw hw
          dsimp only at hcz
          omega
        · rw [if_neg hzv] at hz
          rw [if_pos hwv] at hw
          have hcw := (Prod.ext_iff.mp (Option.some.inj hw)).2
          have := hbound z pz cz hz
          dsimp only at hcw
          omega
        · rw [if_neg hzv] at hz
          rw [if_neg hwv] at hw
          exact hdistinct z w pz cz pw cw hz hw hzw
      · show IsHeap (mmh_lt (fun _ _ => false) m')
          (heappush (mmh_lt vlt m') h.elements value)
        rw [hcong]
        exact hpheap
    · intro pc' hpc
      exact Option.noConfusion hpc
    · intro _
      rw [hres]
      refine ⟨?_, rfl⟩
      show List.Perm (heappush (mmh_lt vlt m') h.elements value) (value :: h.elements)
      rw [hcong]
      exact hpperm
    · rw [hres]
      show m' value ≠ none
      rw [hm'eq, if_pos rfl]
      exact Option.some_ne_none _

/-- `dequeue` behaves identically for every value comparator; on a
non-empty heap it removes and returns the entry with the lexicographically
least `(priority, count)` under the current dictionary, preserving the
run-time invariant — but it leaves the dictionary untouched. -/
theorem mmh_dequeue_inv [DecidableEq V] [Inhabited V] (vlt : V → V → Bool)
    (h : MutableMinHeap V) (hinv : MMHInv h) :
    mmh_dequeue vlt h = mmh_dequeue (fun _ _ => false) h ∧
    (h.elements = [] → mmh_dequeue vlt h = none) ∧
    (h.elements ≠ [] →
      ∃ w rest, mmh_dequeue vlt h =
          some (w, ⟨h.elements_by_value, rest, h.counter⟩) ∧
        w ∈ h.elements ∧
        List.Perm h.elements (w :: rest) ∧
        MMHInv ⟨h.elements_by_value, rest, h.counter⟩ ∧
        (∀ u ∈ h.elements, ∀ pu cu, h.elements_by_value u = some (pu, cu) →
          ∀ pw cw, h.elements_by_value w = some (pw, cw) →
            pw < pu ∨ (pw = pu ∧ cw ≤ cu))) := by
  obtain ⟨hnd, hdom, hbound, hdistinct, hheap⟩ := hinv
  have hcong : heappop (mmh_lt vlt h.elements_by_value) h.elements =
      heappop (mmh_lt (fun _ _ => false) h.elements_by_value) h.elements := by
    refine heappop_cong _ _ _ hnd ?_
    intro x y hx hy hxy
    refine mmh_lt_counter_blind _ _ _ _ _ ?_
    cases hmx : h.elements_by_value x with
    | none => exact absurd hmx (hdom x hx)
    | some qx =>
      cases hmy : h.elements_by_value y with
      | none => exact absurd hmy (hdom y hy)
      | some qy =>
        dsimp only [Option.getD_some]
        exact hdistinct x y qx.1 qx.2 qy.1 qy.2 (by rw [hmx]) (by rw [hmy]) hxy
  refine ⟨?_, ?_, ?_⟩
  · unfold mmh_dequeue
    rw [hcong]
  · intro hempty
    unfold mmh_dequeue
    rw [hempty]
    rfl
  · intro hne
    obtain ⟨rest, hpop, hrlen, hrperm, hrheap⟩ :=
      heappop_spec (mmh_lt_noval_swo h.elements_by_value) h.elements hheap hne
    set root := h.elements.getD 0 default with hrootdef
    have hrootmem : root ∈ h.elements := getD_mem _ 0 (List.length_pos.mpr hne)
    refine ⟨root, rest, ?_, hrootmem, hrperm, ?_, ?_⟩
    · unfold mmh_dequeue
      rw [hcong, hpop]
      rfl
    · refine ⟨?_, ?_, hbound, hdistinct, hrheap⟩
      · rw [hrperm.nodup_iff] at hnd
        exact hnd.of_cons
      · intro v hv
        exact hdom v (hrperm.mem_iff.mpr (List.mem_cons_of_mem _ hv))
    · intro u hu pu cu hmu pw cw hmw
      have hfalse := isHeap_root_le_mem (mmh_lt_noval_swo h.elements_by_value)
        h.elements hheap u hu
      have hdec := mmh_lt_false_min h.elements_by_value u root hfalse
      rw [hmu, hmw] at hdec
      dsimp only [Option.getD_some] at hdec
      rcases hdec with hlt | ⟨heq, hle⟩
      · exact Or.inl hlt
      · exact Or.inr ⟨heq, hle⟩

theorem mmh_empty_inv [DecidableEq V] [Inhabited V] : MMHInv (mmh_empty (V := V)) := by
  refine ⟨List.nodup_nil, ?_, ?_, ?_, ?_⟩
  · intro v hv
    exact absurd hv (List.not_mem_nil v)
  · intro v p c hvc
    exact Option.noConfusion hvc
  · intro v w pv cv pw cw hv
    exact absurd hv (Option.noConfusion ·)
  · intro i hi hi0
    exact absurd hi (by simp [mmh_empty])

theorem mmh_run_inv [DecidableEq V] [Inhabited V] (vlt : V → V → Bool)
    (ops : List (MMHOp V)) :
    ∀ h, MMHInv h → MMHInv (mmh_run vlt ops h) := by
  induction ops with
  | nil => intro h hh; exact hh
  | cons op ops ih =>
    intro h hh
    cases op with
    | setitem v p =>
      exact ih _ (mmh_setitem_inv vlt h hh v p).2.1
    | deq =>
      obtain ⟨hc, hemp, hfull⟩ := mmh_dequeue_inv vlt h hh
      show MMHInv (match mmh_dequeue vlt h with
        | none => mmh_run vlt ops h
        | some vr => mmh_run vlt ops vr.2)
      by_cases hne : h.elements = []
      · rw [hemp hne]
        exact ih h hh
      · obtain ⟨w, rest, hdeq, _, _, hinv', _⟩ := hfull hne
        rw [hdeq]
        exact ih _ hinv'

/-- Value-comparator independence of a whole `PriorityQueue` run. -/
theorem pq_run_indep [Inhabited V] (vlt1 vlt2 : V → V → Bool)
    (ops : List (PQOp V)) :
    ∀ q, PQInv q → pq_run vlt1 ops q = pq_run vlt2 ops q := by
  induction ops with
  | nil => intro q _; rfl
  | cons op ops ih =>
    intro q hq
    cases op with
    | enq p v =>
      show pq_run vlt1 ops (enqueue_with_priority vlt1 q p v) =
        pq_run vlt2 ops (enqueue_with_priority vlt2 q p v)
      have h1 := pq_enqueue_inv vlt1 q hq p v
      have h2 := pq_enqueue_inv vlt2 q hq p v
      rw [h1.1, h2.1]
      exact ih _ (h2.1 ▸ h2.2)
    | deq =>
      have h1 := pq_dequeue_inv vlt1 q hq
      have h2 := pq_dequeue_inv vlt2 q hq
      show (match pq_dequeue vlt1 q with
          | none => pq_run vlt1 ops q
          | some vq => pq_run vlt1 ops vq.2) =
        (match pq_dequeue vlt2 q with
          | none => pq_run vlt2 ops q
          | some vq => pq_run vlt2 ops vq.2)
      rw [h1.1, h2.1]
      by_cases hne : q.elements = []
      · rw [(h1.1 ▸ h1.2.1 hne : pq_dequeue (fun _ _ => false) q = none)]
        exact ih q hq
      · obtain ⟨p, c, v, q', hdeq, _, hinv', _, _, _⟩ := h1.2.2 hne
        rw [h1.1] at hdeq
        rw [hdeq]
        exact ih q' hinv'

/-- Value-comparator independence of a whole `MutableMinHeap` run. -/
theorem mmh_run_indep [DecidableEq V] [Inhabited V] (vlt1 vlt2 : V → V → Bool)
    (ops : List (MMHOp V)) :
    ∀ h, MMHInv h → mmh_run vlt1 ops h = mmh_run vlt2 ops h := by
  induction ops with
  | nil => intro h _; rfl
  | cons op ops ih =>
    intro h hh
    cases op with
    | setitem v p =>
      show mmh_run vlt1 ops (mmh_setitem vlt1 h v p) =
        mmh_run vlt2 ops (mmh_setitem vlt2 h v p)
      have h1 := mmh_setitem_inv vlt1 h hh v p
      have h2 := mmh_setitem_inv vlt2 h hh v p
      rw [h1.1, h2.1]
      exact ih _ (h2.1 ▸ h2.2.1)
    | deq =>
      have h1 := mmh_dequeue_inv vlt1 h hh
      have h2 := mmh_dequeue_inv vlt2 h hh
      show (match mmh_dequeue vlt1 h with
          | none => mmh_run vlt1 ops h
          | some vr => mmh_run vlt1 ops vr.2) =
        (match mmh_dequeue vlt2 h with
          | none => mmh_run vlt2 ops h
          | some vr => mmh_run vlt2 ops vr.2)
      rw [h1.1, h2.1]
      by_cases hne : h.elements = []
      · rw [(h1.1 ▸ h1.2.1 hne : mmh_dequeue (fun _ _ => false) h = none)]
        exact ih h hh
      · obtain ⟨w, rest, hdeq, _, _, hinv', _⟩ := h1.2.2 hne
        rw [h1.1] at hdeq
        rw [hdeq]
        exact ih _ hinv'

/-- C7: setting a key's priority and reading it back returns exactly the
just-set value, and the next `dequeue()` after a priority update returns the
value whose `(priority, sequence-number)` pair is lexicographically least
under the updated priorities. -/
theorem mmh_set_get_dequeue [DecidableEq V] [Inhabited V] (vlt : V → V → Bool)
    (h : MutableMinHeap V) (k : V) (p : Int)
    (hinv : MMHInv h) (hkey : mmh_key_heap_inv h) :
    mmh_getitem (mmh_setitem vlt h k p) k = some p ∧
    ∃ w rest, mmh_dequeue vlt (mmh_setitem vlt h k p) = some (w, rest) ∧
      (∀ u ∈ (mmh_setitem vlt h k p).elements,
        ∀ pu cu, (mmh_setitem vlt h k p).elements_by_value u = some (pu, cu) →
        ∀ pw cw, (mmh_setitem vlt h k p).elements_by_value w = some (pw, cw) →
          pw < pu ∨ (pw = pu ∧ cw ≤ cu)) := by
  constructor
  · -- getPriority after setPriority returns the just-set value
    unfold mmh_getitem mmh_setitem
    cases hv : h.elements_by_value k <;> simp [hv]
  · have hsi := mmh_setitem_inv vlt h hinv k p
    have hinv' : MMHInv (mmh_setitem vlt h k p) := hsi.2.1
    have hne : (mmh_setitem vlt h k p).elements ≠ [] := by
      cases hv : h.elements_by_value k with
      | some pc =>
        obtain ⟨hperm, _⟩ := hsi.2.2.1 pc hv
        have hkel : k ∈ h.elements := by
          have hcount := hkey k (by rw [hv]; exact Option.some_ne_none _)
          have : 0 < h.elements.count k := by omega
          exact List.count_pos_iff.mp this
        intro hempty
        rw [hempty] at hperm
        exact absurd (hperm.symm.mem_iff.mp hkel) (List.not_mem_nil k)
      | none =>
        obtain ⟨hperm, _⟩ := hsi.2.2.2.1 hv
        intro hempty
        rw [hempty] at hperm
        exact absurd (hperm.symm.mem_iff.mp (List.mem_cons_self k _))
          (List.not_mem_nil k)
    obtain ⟨_, _, hfull⟩ := mmh_dequeue_inv vlt (mmh_setitem vlt h k p) hinv'
    obtain ⟨w, rest, hdeq, hwmem, _, _, hmin⟩ := hfull hne
    refine ⟨w, _, hdeq, ?_⟩
    intro u hu pu cu hmu pw cw hmw
    exact hmin u hu pu cu hmu pw cw hmw

/-- Witness for `mmh_set_get_dequeue`: decrease the priority of key `1` in a
two-key heap; the read-back and the dequeue reflect the update. -/
theorem mmh_set_get_dequeue_witness :
    mmh_getitem (mmh_setitem (fun _ _ => false)
      (mmh_setitem (fun _ _ => false)
        (mmh_setitem (fun _ _ => false) (mmh_empty (V := Fin 2)) 0 3) 1 7)
      1 (-2)) 1 = some (-2) ∧
    ∃ w rest, mmh_dequeue (fun _ _ => false)
        (mmh_setitem (fun _ _ => false)
          (mmh_setitem (fun _ _ => false)
            (mmh_setitem (fun _ _ => false) (mmh_empty (V := Fin 2)) 0 3) 1 7)
          1 (-2)) = some (w, rest) ∧
      (∀ u ∈ (mmh_setitem (fun _ _ => false)
          (mmh_setitem (fun _ _ => false)
            (mmh_setitem (fun _ _ => false) (mmh_empty (V := Fin 2)) 0 3) 1 7)
          1 (-2)).elements,
        ∀ pu cu, (mmh_setitem (fun _ _ => false)
          (mmh_setitem (fun _ _ => false)
            (mmh_setitem (fun _ _ => false) (mmh_empty (V := Fin 2)) 0 3) 1 7)
          1 (-2)).elements_by_value u = some (pu, cu) →
        ∀ pw cw, (mmh_setitem (fun _ _ => false)
          (mmh_setitem (fun _ _ => false)
            (mmh_setitem (fun _ _ => false) (mmh_empty (V := Fin 2)) 0 3) 1 7)
          1 (-2)).elements_by_value w = some (pw, cw) →
          pw < pu ∨ (pw = pu ∧ cw ≤ cu)) := by
  have h1 : MMHInv (mmh_setitem (fun _ _ => false) (mmh_empty (V := Fin 2)) 0 3) :=
    (mmh_setitem_inv _ _ mmh_empty_inv 0 3).2.1
  have h2 : MMHInv (mmh_setitem (fun _ _ => false)
      (mmh_setitem (fun _ _ => false) (mmh_empty (V := Fin 2)) 0 3) 1 7) :=
    (mmh_setitem_inv _ _ h1 1 7).2.1
  refine mmh_set_get_dequeue (fun _ _ => false) _ 1 (-2) h2 ?_
  intro v hv
  fin_cases v <;> revert hv <;> decide

/-- C4 (amended): `__setitem__` preserves the "every dictionary key has
exactly one live heap entry" invariant — for an existing key it updates the
shared element in place and re-heapifies (a permutation), for a fresh key it
adds one entry and one dictionary binding.  (`__getitem__` does not mutate
the state at all; `dequeue` breaks the invariant, see the counterexample.) -/
theorem mmh_setitem_preserves_key_heap_inv [DecidableEq V] [Inhabited V]
    (vlt : V → V → Bool) (h : MutableMinHeap V)
    (hinv : MMHInv h) (hkey : mmh_key_heap_inv h) (k : V) (p : Int) :
    mmh_key_heap_inv (mmh_setitem vlt h k p) := by
  have hdom := hinv.2.1
  intro v hvne
  cases hvk : h.elements_by_value k with
  | some pc =>
    obtain ⟨hperm, _⟩ := (mmh_setitem_inv vlt h hinv k p).2.2.1 pc hvk
    rw [hperm.count_eq]
    by_cases hvkk : v = k
    · subst hvkk
      exact hkey v (by rw [hvk]; exact Option.some_ne_none _)
    · refine hkey v ?_
      have heq : (mmh_setitem vlt h k p).elements_by_value v = h.elements_by_value v := by
        unfold mmh_setitem
        rw [hvk]
        dsimp only
        rw [if_neg hvkk]
      rwa [heq] at hvne
  | none =>
    obtain ⟨hperm, _⟩ := (mmh_setitem_inv vlt h hinv k p).2.2.2.1 hvk
    rw [hperm.count_eq]
    by_cases hvkk : v = k
    · subst hvkk
      rw [List.count_cons_self]
      have : v ∉ h.elements := fun hmem => hdom v hmem hvk
      rw [List.count_eq_zero.mpr this]
    · rw [List.count_cons_of_ne hvkk]
      refine hkey v ?_
      have heq : (mmh_setitem vlt h k p).elements_by_value v = h.elements_by_value v := by
        unfold mmh_setitem
        rw [hvk]
        dsimp only
        rw [if_neg hvkk]
      rwa [heq] at hvne

/-- Witness for `mmh_setitem_preserves_key_heap_inv`: update an existing key. -/
theorem mmh_setitem_preserves_key_heap_inv_witness :
    mmh_key_heap_inv (mmh_setitem (fun _ _ => false)
      (mmh_setitem (fun _ _ => false) (mmh_empty (V := Fin 2)) 0 3) 0 1) := by
  have h1 : MMHInv (mmh_setitem (fun _ _ => false) (mmh_empty (V := Fin 2)) 0 3) :=
    (mmh_setitem_inv _ _ mmh_empty_inv 0 3).2.1
  refine mmh_setitem_preserves_key_heap_inv (fun _ _ => false) _ h1 ?_ 0 1
  intro v hv
  fin_cases v <;> revert hv <;> decide

/-- Counterexample to C4 as stated: after one `__setitem__` the invariant
holds, but `dequeue` pops the heap entry while leaving the key in
`_elements_by_value`, so the resulting state has a mapped key with zero heap
entries. -/
theorem mmh_dequeue_breaks_key_heap_inv :
    mmh_key_heap_inv (mmh_setitem (fun _ _ => false) (mmh_empty (V := Fin 1)) 0 5) ∧
    (mmh_dequeue (fun _ _ => false)
        (mmh_setitem (fun _ _ => false) (mmh_empty (V := Fin 1)) 0 5)).map
      (fun vr => decide (mmh_key_heap_inv vr.2)) = some false := by
  constructor
  · intro v hv
    fin_cases v <;> revert hv <;> decide
  · rfl

theorem job_lt_swo : StrictWeak job_lt := by
  refine ⟨?_, ?_, ?_⟩
  · intro a b hab
    unfold job_lt at hab ⊢
    simp only [decide_eq_true_eq] at hab
    simp only [decide_eq_false_iff_not]
    omega
  · intro a b c hab hbc
    unfold job_lt at hab hbc ⊢
    simp only [decide_eq_true_eq] at hab hbc ⊢
    omega
  · intro a b c hac
    unfold job_lt at hac ⊢
    simp only [decide_eq_true_eq] at hac ⊢
    omega

/-- C6 (amended): the crawler's `asyncio.PriorityQueue` orders `Job`s by
`Job.__lt__`, i.e. by URL length alone: pushes preserve the heap invariant
and a pop returns a job of minimal URL length.  There is no insertion
sequence number, and equal-length jobs are *not* dequeued in insertion
order (see the counterexample). -/
theorem crawler_priority_by_url_length (q : List Job) (hq : IsHeap job_lt q) (j : Job) :
    IsHeap job_lt (heappush job_lt q j) ∧
    List.Perm (heappush job_lt q j) (j :: q) ∧
    (∀ j0 q', heappop job_lt q = some (j0, q') →
      List.Perm q (j0 :: q') ∧ ∀ j' ∈ q, j0.url.length ≤ j'.url.length) := by
  obtain ⟨hplen, hpperm, hpheap⟩ := heappush_spec job_lt_swo q j hq
  refine ⟨hpheap, hpperm, ?_⟩
  intro j0 q' hpop
  have hne : q ≠ [] := by
    intro hempty
    rw [hempty] at hpop
    cases hpop
  obtain ⟨l', hpop', _, hperm', _⟩ := heappop_spec job_lt_swo q hq hne
  rw [hpop'] at hpop
  have hj0 : q.getD 0 default = j0 := (Prod.ext_iff.mp (Option.some.inj hpop)).1
  have hq' : l' = q' := (Prod.ext_iff.mp (Option.some.inj hpop)).2
  constructor
  · rw [← hj0, ← hq']
    exact hperm'
  · intro j' hj'
    have := isHeap_root_le_mem job_lt_swo q hq j' hj'
    rw [hj0] at this
    unfold job_lt at this
    simp only [decide_eq_false_iff_not] at this
    omega

/-- Witness for `crawler_priority_by_url_length`. -/
theorem crawler_priority_by_url_length_witness :
    IsHeap job_lt [Job.mk "ab" 1, Job.mk "abcd" 1] ∧
    (IsHeap job_lt (heappush job_lt [Job.mk "ab" 1, Job.mk "abcd" 1] (Job.mk "xyz" 1)) ∧
    List.Perm (heappush job_lt [Job.mk "ab" 1, Job.mk "abcd" 1] (Job.mk "xyz" 1))
      (Job.mk "xyz" 1 :: [Job.mk "ab" 1, Job.mk "abcd" 1]) ∧
    (∀ j0 q', heappop job_lt [Job.mk "ab" 1, Job.mk "abcd" 1] = some (j0, q') →
      List.Perm [Job.mk "ab" 1, Job.mk "abcd" 1] (j0 :: q') ∧
        ∀ j' ∈ [Job.mk "ab" 1, Job.mk "abcd" 1], j0.url.length ≤ j'.url.length)) := by
  refine ⟨by decide, ?_⟩
  exact crawler_priority_by_url_length [Job.mk "ab" 1, Job.mk "abcd" 1] (by decide)
    (Job.mk "xyz" 1)

/-- Counterexample to C6 as stated: four jobs with equal-length URLs pushed
in order a1, b2, c3, d4 (CPython heap layout `[a1, b2, c3, d4]`); the first
pop returns `a1` and leaves `[c3, b2, d4]`, so the second pop returns `c3`
even though `b2` was enqueued earlier at the same priority — equal-priority
jobs are not dequeued in insertion order. -/
theorem crawler_equal_priority_not_fifo :
    heappush job_lt (heappush job_lt (heappush job_lt
        (heappush job_lt [] ⟨"a1", 1⟩) ⟨"b2", 1⟩) ⟨"c3", 1⟩) ⟨"d4", 1⟩ =
      [⟨"a1", 1⟩, ⟨"b2", 1⟩, ⟨"c3", 1⟩, ⟨"d4", 1⟩] ∧
    heappop job_lt [⟨"a1", 1⟩, ⟨"b2", 1⟩, ⟨"c3", 1⟩, ⟨"d4", 1⟩] =
      some (⟨"a1", 1⟩, [⟨"c3", 1⟩, ⟨"b2", 1⟩, ⟨"d4", 1⟩]) ∧
    heappop job_lt [⟨"c3", 1⟩, ⟨"b2", 1⟩, ⟨"d4", 1⟩] =
      some (⟨"c3", 1⟩, [⟨"b2", 1⟩, ⟨"d4", 1⟩]) ∧
    ("a1" : String).length = 2 ∧ ("b2" : String).length = 2 ∧
    ("c3" : String).length = 2 ∧ ("d4" : String).length = 2 := by
  refine ⟨rfl, rfl, rfl, rfl, rfl, rfl, rfl⟩

/-- C10: the run of any operation sequence on `PriorityQueue` or
`MutableMinHeap` is independent of the value comparison — entries carry
pairwise-distinct insertion counters, so every comparison is decided by
`(priority, counter)` before the stored value would be examined, and no
operation can fail on mutually un-comparable values. -/
theorem heap_entries_value_blind [Inhabited V] [DecidableEq V]
    (vlt1 vlt2 : V → V → Bool) (ops : List (PQOp V)) (mops : List (MMHOp V)) :
    pq_run vlt1 ops pq_empty = pq_run vlt2 ops pq_empty ∧
    ((pq_run vlt1 ops pq_empty).elements.map (fun e => e.2.1)).Nodup ∧
    mmh_run vlt1 mops mmh_empty = mmh_run vlt2 mops mmh_empty ∧
    (∀ v w pv cv pw cw,
      (mmh_run vlt1 mops mmh_empty).elements_by_value v = some (pv, cv) →
      (mmh_run vlt1 mops mmh_empty).elements_by_value w = some (pw, cw) →
      v ≠ w → cv ≠ cw) :=
  ⟨pq_run_indep vlt1 vlt2 ops pq_empty pq_empty_inv,
   (pq_run_inv vlt1 ops pq_empty pq_empty_inv).2.1,
   mmh_run_indep vlt1 vlt2 mops mmh_empty mmh_empty_inv,
   (mmh_run_inv vlt1 mops mmh_empty mmh_empty_inv).2.2.2.1⟩

/-! ### BFS / DFS traversal: every reachable node, exactly once (C3) -/

theorem reach_refl (adj : α → List α) (a : α) : Reaches adj a a := ⟨0, rfl⟩

theorem reach_step {adj : α → List α} {a b c : α} (h : Reaches adj a b)
    (hc : c ∈ adj b) : Reaches adj a c := by
  obtain ⟨n, hn⟩ := h
  exact ⟨n + 1, b, hn, hc⟩

theorem enqueueNew_mem_visited [DecidableEq α] (xs : List α) :
    ∀ (v q : List α) (y : α), y ∈ (enqueueNew v q xs).1 ↔ y ∈ v ∨ y ∈ xs := by
  induction xs with
  | nil => intro v q y; simp [enqueueNew]
  | cons x rest ih =>
    intro v q y
    by_cases hx : x ∈ v
    · simp only [enqueueNew]
      rw [if_pos hx, ih]
      simp only [List.mem_cons]
      constructor
      · rintro (h | h)
        · exact Or.inl h
        · exact Or.inr (Or.inr h)
      · rintro (h | rfl | h)
        · exact Or.inl h
        · exact Or.inl hx
        · exact Or.inr h
    · simp only [enqueueNew]
      rw [if_neg hx, ih]
      simp only [List.mem_cons]
      constructor
      · rintro ((rfl | h) | h)
        · exact Or.inr (Or.inl rfl)
        · exact Or.inl h
        · exact Or.inr (Or.inr h)
      · rintro (h | rfl | h)
        · exact Or.inl (Or.inr h)
        · exact Or.inl (Or.inl rfl)
        · exact Or.inr h

theorem enqueueNew_mem_queue [DecidableEq α] (xs : List α) :
    ∀ (v q : List α) (y : α),
      y ∈ (enqueueNew v q xs).2 ↔ y ∈ q ∨ (y ∈ xs ∧ y ∉ v) := by
  induction xs with
  | nil => intro v q y; simp [enqueueNew]
  | cons x rest ih =>
    intro v q y
    by_cases hx : x ∈ v
    · simp only [enqueueNew]
      rw [if_pos hx, ih]
      simp only [List.mem_cons]
      constructor
      · rintro (h | ⟨h1, h2⟩)
        · exact Or.inl h
        · exact Or.inr ⟨Or.inr h1, h2⟩
      · rintro (h | ⟨(rfl | h1), h2⟩)
        · exact Or.inl h
        · exact absurd hx h2
        · exact Or.inr ⟨h1, h2⟩
    · simp only [enqueueNew]
      rw [if_neg hx, ih]
      simp only [List.mem_append, List.mem_cons]
      constructor
      · rintro ((h | rfl | h0) | ⟨h1, h2⟩)
        · exact Or.inl h
        · exact Or.inr ⟨Or.inl rfl, hx⟩
        · exact absurd h0 (List.not_mem_nil _)
        · exact Or.inr ⟨Or.inr h1, fun hv => h2 (Or.inr hv)⟩
      · rintro (h | ⟨(rfl | h1), h2⟩)
        · exact Or.inl (Or.inl h)
        · exact Or.inl (Or.inr (Or.inl rfl))
        · by_cases hyx : y = x
          · exact Or.inl (Or.inr (Or.inl hyx))
          · refine Or.inr ⟨h1, fun hv => ?_⟩
            rcases hv with h | h
            · exact hyx h
            · exact h2 h

theorem enqueueNew_nodup_visited [DecidableEq α] (xs : List α) :
    ∀ (v q : List α), v.Nodup → (enqueueNew v q xs).1.Nodup := by
  induction xs with
  | nil => intro v q hv; simpa [enqueueNew] using hv
  | cons x rest ih =>
    intro v q hv
    by_cases hx : x ∈ v
    · simp only [enqueueNew]
      rw [if_pos hx]
      exact ih v q hv
    · simp only [enqueueNew]
      rw [if_neg hx]
      exact ih (x :: v) (q ++ [x]) (List.nodup_cons.mpr ⟨hx, hv⟩)

theorem enqueueNew_nodup_queue [DecidableEq α] (xs : List α) :
    ∀ (v q : List α), q.Nodup → (∀ y ∈ q, y ∈ v) → (enqueueNew v q xs).2.Nodup := by
  induction xs with
  | nil => intro v q hq _; simpa [enqueueNew] using hq
  | cons x rest ih =>
    intro v q hq hqv
    by_cases hx : x ∈ v
    · simp only [enqueueNew]
      rw [if_pos hx]
      exact ih v q hq hqv
    · simp only [enqueueNew]
      rw [if_neg hx]
      refine ih (x :: v) (q ++ [x]) ?_ ?_
      · refine List.Nodup.append hq (List.nodup_singleton x) ?_
        intro a ha hax
        rw [List.mem_singleton] at hax
        subst hax
        exact hx (hqv a ha)
      · intro y hy
        rcases List.mem_append.mp hy with hy | hy
        · exact List.mem_cons_of_mem _ (hqv y hy)
        · rw [List.mem_singleton] at hy
          rw [hy]
          exact List.mem_cons_self x v

theorem enqueueNew_length [DecidableEq α] (xs : List α) :
    ∀ (v q : List α),
      (enqueueNew v q xs).2.length + v.length =
        q.length + (enqueueNew v q xs).1.length ∧
      q.length ≤ (enqueueNew v q xs).2.length := by
  induction xs with
  | nil => intro v q; simp [enqueueNew]
  | cons x rest ih =>
    intro v q
    by_cases hx : x ∈ v
    · simp only [enqueueNew]
      rw [if_pos hx]
      exact ih v q
    · simp only [enqueueNew]
      rw [if_neg hx]
      obtain ⟨h1, h2⟩ := ih (x :: v) (q ++ [x])
      simp only [List.length_cons, List.length_append, List.length_singleton,
        List.length_nil] at h1 h2
      constructor
      · omega
      · omega

theorem bfsAux_sound [DecidableEq α] (adj : α → List α) (root : α) :
    ∀ (fuel : Nat) (q v : List α), q.Nodup → (∀ x ∈ q, x ∈ v) →
      (∀ x ∈ v, Reaches adj root x) →
      (bfsAux adj fuel q v).Nodup ∧
      ∀ x ∈ bfsAux adj fuel q v, (x ∈ q ∨ x ∉ v) ∧ Reaches adj root x := by
  intro fuel
  induction fuel with
  | zero => intro q v _ _ _; simp [bfsAux]
  | succ fuel ih =>
    intro q v hqnd hqv hvreach
    cases q with
    | nil => simp [bfsAux]
    | cons node rest =>
      have hstep : bfsAux adj (fuel + 1) (node :: rest) v =
          node :: bfsAux adj fuel (enqueueNew v rest (adj node)).2
            (enqueueNew v rest (adj node)).1 := rfl
      have hmemv : ∀ y, y ∈ (enqueueNew v rest (adj node)).1 ↔ y ∈ v ∨ y ∈ adj node :=
        fun y => enqueueNew_mem_visited (adj node) v rest y
      have hmemq : ∀ y, y ∈ (enqueueNew v rest (adj node)).2 ↔
          y ∈ rest ∨ (y ∈ adj node ∧ y ∉ v) :=
        fun y => enqueueNew_mem_queue (adj node) v rest y
      have hrestv : ∀ x ∈ rest, x ∈ v :=
        fun x hx => hqv x (List.mem_cons_of_mem _ hx)
      have hq'nd : (enqueueNew v rest (adj node)).2.Nodup :=
        enqueueNew_nodup_queue (adj node) v rest (List.nodup_cons.mp hqnd).2 hrestv
      have hq'v : ∀ x ∈ (enqueueNew v rest (adj node)).2,
          x ∈ (enqueueNew v rest (adj node)).1 := by
        intro x hx
        rcases (hmemq x).mp hx with h | ⟨h1, _⟩
        · exact (hmemv x).mpr (Or.inl (hrestv x h))
        · exact (hmemv x).mpr (Or.inr h1)
      have hv'reach : ∀ x ∈ (enqueueNew v rest (adj node)).1, Reaches adj root x := by
        intro x hx
        rcases (hmemv x).mp hx with h | h
        · exact hvreach x h
        · exact reach_step (hvreach node (hqv node (List.mem_cons_self _ _))) h
      obtain ⟨ihnd, ihmem⟩ := ih _ _ hq'nd hq'v hv'reach
      rw [hstep]
      constructor
      · refine List.nodup_cons.mpr ⟨?_, ihnd⟩
        intro hin
        obtain ⟨hor, _⟩ := ihmem node hin
        rcases hor with h | h
        · rcases (hmemq node).mp h with h | ⟨_, h⟩
          · exact (List.nodup_cons.mp hqnd).1 h
          · exact h (hqv node (List.mem_cons_self _ _))
        · exact h ((hmemv node).mpr (Or.inl (hqv node (List.mem_cons_self _ _))))
      · intro x hx
        rcases List.mem_cons.mp hx with rfl | hx
        · exact ⟨Or.inl (List.mem_cons_self _ _),
            hvreach x (hqv x (List.mem_cons_self _ _))⟩
        · obtain ⟨hor, hre⟩ := ihmem x hx
          refine ⟨?_, hre⟩
          rcases hor with h | h
          · rcases (hmemq x).mp h with h | ⟨_, h⟩
            · exact Or.inl (List.mem_cons_of_mem _ h)
            · exact Or.inr h
          · exact Or.inr (fun hv => h ((hmemv x).mpr (Or.inl hv)))

theorem bfsAux_complete [DecidableEq α] [Fintype α] (adj : α → List α) :
    ∀ (fuel : Nat) (q v : List α), v.Nodup →
      q.length + (Fintype.card α - v.length) ≤ fuel →
      (∀ x ∈ q, x ∈ bfsAux adj fuel q v) ∧
      (∀ x ∈ bfsAux adj fuel q v, ∀ y ∈ adj x,
        y ∈ v ∨ y ∈ bfsAux adj fuel q v) := by
  intro fuel
  induction fuel with
  | zero =>
    intro q v _ hfuel
    have hq : q = [] := List.eq_nil_of_length_eq_zero (by omega)
    subst hq
    simp [bfsAux]
  | succ fuel ih =>
    intro q v hvnd hfuel
    cases q with
    | nil => simp [bfsAux]
    | cons node rest =>
      have hstep : bfsAux adj (fuel + 1) (node :: rest) v =
          node :: bfsAux adj fuel (enqueueNew v rest (adj node)).2
            (enqueueNew v rest (adj node)).1 := rfl
      have hmemq : ∀ y, y ∈ (enqueueNew v rest (adj node)).2 ↔
          y ∈ rest ∨ (y ∈ adj node ∧ y ∉ v) :=
        fun y => enqueueNew_mem_queue (adj node) v rest y
      have hmemv : ∀ y, y ∈ (enqueueNew v rest (adj node)).1 ↔ y ∈ v ∨ y ∈ adj node :=
        fun y => enqueueNew_mem_visited (adj node) v rest y
      have hv'nd : (enqueueNew v rest (adj node)).1.Nodup :=
        enqueueNew_nodup_visited (adj node) v rest hvnd
      obtain ⟨hlen, hlenge⟩ := enqueueNew_length (adj node) v rest
      have hcard : (enqueueNew v rest (adj node)).1.length ≤ Fintype.card α :=
        hv'nd.length_le_card
      have hqlen : (node :: rest).length = rest.length + 1 := rfl
      have hfuel' : (enqueueNew v rest (adj node)).2.length +
          (Fintype.card α - (enqueueNew v rest (adj node)).1.length) ≤ fuel := by
        rw [hqlen] at hfuel
        omega
      obtain ⟨ihA, ihB⟩ := ih _ _ hv'nd hfuel'
      rw [hstep]
      constructor
      · intro x hx
        rcases List.mem_cons.mp hx with rfl | hx
        · exact List.mem_cons_self _ _
        · exact List.mem_cons_of_mem _ (ihA x ((hmemq x).mpr (Or.inl hx)))
      · intro x hx y hy
        rcases List.mem_cons.mp hx with rfl | hx
        · by_cases hyv : y ∈ v
          · exact Or.inl hyv
          · exact Or.inr (List.mem_cons_of_mem _
              (ihA y ((hmemq y).mpr (Or.inr ⟨hy, hyv⟩))))
        · rcases ihB x hx y hy with h | h
          · rcases (hmemv y).mp h with h | h
            · exact Or.inl h
            · by_cases hyv : y ∈ v
              · exact Or.inl hyv
              · exact Or.inr (List.mem_cons_of_mem _
                  (ihA y ((hmemq y).mpr (Or.inr ⟨h, hyv⟩))))
          · exact Or.inr (List.mem_cons_of_mem _ h)

theorem traverse_network_bfs_spec [DecidableEq α] [Fintype α] (adj : α → List α)
    (root : α) (fuel : Nat) (hfuel : Fintype.card α ≤ fuel) :
    (traverse_network_bfs adj root fuel).Nodup ∧
    ∀ x, x ∈ traverse_network_bfs adj root fuel ↔ Reaches adj root x := by
  have hdef : traverse_network_bfs adj root fuel = bfsAux adj fuel [root] [root] := rfl
  have hsound := bfsAux_sound adj root fuel [root] [root] (List.nodup_singleton root)
    (fun x hx => hx)
    (by
      intro x hx
      rcases List.mem_singleton.mp hx with rfl
      exact reach_refl adj x)
  have hcardpos : 0 < Fintype.card α := Fintype.card_pos_iff.mpr ⟨root⟩
  have hcomp := bfsAux_complete adj fuel [root] [root] (List.nodup_singleton root)
    (by
      have h1 : ([root] : List α).length = 1 := rfl
      rw [h1]
      omega)
  rw [hdef]
  refine ⟨hsound.1, ?_⟩
  intro x
  constructor
  · intro hx
    exact (hsound.2 x hx).2
  · rintro ⟨n, hn⟩
    induction n generalizing x with
    | zero =>
      have hx : x = root := hn
      subst hx
      exact hcomp.1 x (List.mem_singleton_self x)
    | succ n ihn =>
      obtain ⟨c, hc, hxc⟩ := hn
      have hcmem := ihn c hc
      rcases hcomp.2 c hcmem x hxc with h | h
      · have hx : x = root := List.mem_singleton.mp h
        subst hx
        exact hcomp.1 x (List.mem_singleton_self x)
      · exact h

theorem dfsAux_sound [DecidableEq α] (adj : α → List α) (root : α) :
    ∀ (fuel : Nat) (stack : List (α × List α)) (v : List α),
      (∀ e ∈ stack, e.1 ∈ v ∧ ∀ y ∈ e.2, y ∈ adj e.1) →
      (∀ x ∈ v, Reaches adj root x) →
      (dfsAux adj fuel stack v).Nodup ∧
      ∀ x ∈ dfsAux adj fuel stack v, x ∉ v ∧ Reaches adj root x := by
  intro fuel
  induction fuel with
  | zero => intro stack v _ _; simp [dfsAux]
  | succ fuel ih =>
    intro stack v hstack hreach
    cases stack with
    | nil => simp [dfsAux]
    | cons e rest =>
      obtain ⟨node, neighbors⟩ := e
      cases neighbors with
      | nil =>
        have hstep : dfsAux adj (fuel + 1) ((node, []) :: rest) v =
            dfsAux adj fuel rest v := rfl
        rw [hstep]
        exact ih rest v (fun e he => hstack e (List.mem_cons_of_mem _ he)) hreach
      | cons x xs =>
        have hnode : node ∈ v ∧ ∀ y ∈ x :: xs, y ∈ adj node :=
          hstack (node, x :: xs) (List.mem_cons_self _ _)
        by_cases hx : x ∈ v
        · have hstep : dfsAux adj (fuel + 1) ((node, x :: xs) :: rest) v =
              dfsAux adj fuel ((node, xs) :: rest) v := by
            show (if x ∈ v then dfsAux adj fuel ((node, xs) :: rest) v
              else x :: dfsAux adj fuel ((x, adj x) :: (node, xs) :: rest) (x :: v)) =
              dfsAux adj fuel ((node, xs) :: rest) v
            rw [if_pos hx]
          rw [hstep]
          refine ih _ _ ?_ hreach
          intro e he
          rcases List.mem_cons.mp he with rfl | he
          · exact ⟨hnode.1, fun y hy => hnode.2 y (List.mem_cons_of_mem _ hy)⟩
          · exact hstack e (List.mem_cons_of_mem _ he)
        · have hstep : dfsAux adj (fuel + 1) ((node, x :: xs) :: rest) v =
              x :: dfsAux adj fuel ((x, adj x) :: (node, xs) :: rest) (x :: v) := by
            show (if x ∈ v then dfsAux adj fuel ((node, xs) :: rest) v
              else x :: dfsAux adj fuel ((x, adj x) :: (node, xs) :: rest) (x :: v)) =
              x :: dfsAux adj fuel ((x, adj x) :: (node, xs) :: rest) (x :: v)
            rw [if_neg hx]
          rw [hstep]
          have hxreach : Reaches adj root x :=
            reach_step (hreach node hnode.1) (hnode.2 x (List.mem_cons_self _ _))
          have hstack' : ∀ e ∈ (x, adj x) :: (node, xs) :: rest,
              e.1 ∈ x :: v ∧ ∀ y ∈ e.2, y ∈ adj e.1 := by
            intro e he
            rcases List.mem_cons.mp he with rfl | he
            · exact ⟨List.mem_cons_self _ _, fun y hy => hy⟩
            · rcases List.mem_cons.mp he with rfl | he
              · exact ⟨List.mem_cons_of_mem _ hnode.1,
                  fun y hy => hnode.2 y (List.mem_cons_of_mem _ hy)⟩
              · obtain ⟨h1, h2⟩ := hstack e (List.mem_cons_of_mem _ he)
                exact ⟨List.mem_cons_of_mem _ h1, h2⟩
          have hreach' : ∀ z ∈ x :: v, Reaches adj root z := by
            intro z hz
            rcases List.mem_cons.mp hz with rfl | hz
            · exact hxreach
            · exact hreach z hz
          obtain ⟨ihnd, ihmem⟩ := ih _ _ hstack' hreach'
          constructor
          · exact List.nodup_cons.mpr
              ⟨fun hmem => (ihmem x hmem).1 (List.mem_cons_self _ _), ihnd⟩
          · intro z hz
            rcases List.mem_cons.mp hz with rfl | hz
            · exact ⟨hx, hxreach⟩
            · obtain ⟨hnv, hr⟩ := ihmem z hz
              exact ⟨fun hv => hnv (List.mem_cons_of_mem _ hv), hr⟩

theorem dfsAux_complete [DecidableEq α] [Fintype α] (adj : α → List α) (B : Nat)
    (hB : ∀ y : α, (adj y).length + 1 ≤ B) :
    ∀ (fuel : Nat) (stack : List (α × List α)) (v : List α), v.Nodup →
      (stack.map (fun e => e.2.length + 1)).sum +
        (Fintype.card α - v.length) * B ≤ fuel →
      (∀ e ∈ stack, ∀ y ∈ e.2, y ∈ v ∨ y ∈ dfsAux adj fuel stack v) ∧
      (∀ x ∈ dfsAux adj fuel stack v, ∀ y ∈ adj x,
        y ∈ v ∨ y ∈ dfsAux adj fuel stack v) := by
  intro fuel
  induction fuel with
  | zero =>
    intro stack v _ hfuel
    cases stack with
    | nil => simp [dfsAux]
    | cons e rest =>
      exfalso
      simp only [List.map_cons, List.sum_cons] at hfuel
      omega
  | succ fuel ih =>
    intro stack v hvnd hfuel
    cases stack with
    | nil => simp [dfsAux]
    | cons e rest =>
      obtain ⟨node, neighbors⟩ := e
      simp only [List.map_cons, List.sum_cons] at hfuel
      cases neighbors with
      | nil =>
        have hstep : dfsAux adj (fuel + 1) ((node, []) :: rest) v =
            dfsAux adj fuel rest v := rfl
        have hfuel' : (rest.map (fun e => e.2.length + 1)).sum +
            (Fintype.card α - v.length) * B ≤ fuel := by
          simp only [List.length_nil] at hfuel
          omega
        obtain ⟨ihA, ihB⟩ := ih rest v hvnd hfuel'
        rw [hstep]
        constructor
        · intro e he y hy
          rcases List.mem_cons.mp he with rfl | he
          · cases hy
          · exact ihA e he y hy
        · exact ihB
      | cons x xs =>
        by_cases hx : x ∈ v
        · have hstep : dfsAux adj (fuel + 1) ((node, x :: xs) :: rest) v =
              dfsAux adj fuel ((node, xs) :: rest) v := by
            show (if x ∈ v then dfsAux adj fuel ((node, xs) :: rest) v
              else x :: dfsAux adj fuel ((x, adj x) :: (node, xs) :: rest) (x :: v)) =
              dfsAux adj fuel ((node, xs) :: rest) v
            rw [if_pos hx]
          have hfuel' : (((node, xs) :: rest).map (fun e => e.2.length + 1)).sum +
              (Fintype.card α - v.length) * B ≤ fuel := by
            simp only [List.map_cons, List.sum_cons]
            simp only [List.length_cons] at hfuel
            omega
          obtain ⟨ihA, ihB⟩ := ih _ v hvnd hfuel'
          rw [hstep]
          constructor
          · intro e he y hy
            rcases List.mem_cons.mp he with rfl | he
            · rcases List.mem_cons.mp hy with rfl | hy
              · exact Or.inl hx
              · exact ihA (node, xs) (List.mem_cons_self _ _) y hy
            · exact ihA e (List.mem_cons_of_mem _ he) y hy
          · exact ihB
        · have hstep : dfsAux adj (fuel + 1) ((node, x :: xs) :: rest) v =
              x :: dfsAux adj fuel ((x, adj x) :: (node, xs) :: rest) (x :: v) := by
            show (if x ∈ v then dfsAux adj fuel ((node, xs) :: rest) v
              else x :: dfsAux adj fuel ((x, adj x) :: (node, xs) :: rest) (x :: v)) =
              x :: dfsAux adj fuel ((x, adj x) :: (node, xs) :: rest) (x :: v)
            rw [if_neg hx]
          have hv'nd : (x :: v).Nodup := List.nodup_cons.mpr ⟨hx, hvnd⟩
          have hcard : (x :: v).length ≤ Fintype.card α := hv'nd.length_le_card
          have hlx : (x :: v).length = v.length + 1 := rfl
          have hfuel' : (((x, adj x) :: (node, xs) :: rest).map
              (fun e => e.2.length + 1)).sum +
              (Fintype.card α - (x :: v).length) * B ≤ fuel := by
            simp only [List.map_cons, List.sum_cons, hlx]
            simp only [List.length_cons] at hfuel
            have hsub : Fintype.card α - v.length =
                (Fintype.card α - (v.length + 1)) + 1 := by
              rw [hlx] at hcard
              omega
            rw [hsub, Nat.add_mul, Nat.one_mul] at hfuel
            have hBx := hB x
            omega
          obtain ⟨ihA, ihB⟩ := ih _ _ hv'nd hfuel'
          rw [hstep]
          have hlift : ∀ y, y ∈ x :: v ∨
                y ∈ dfsAux adj fuel ((x, adj x) :: (node, xs) :: rest) (x :: v) →
              y ∈ v ∨ y ∈ x :: dfsAux adj fuel
                ((x, adj x) :: (node, xs) :: rest) (x :: v) := by
            intro y hy
            rcases hy with hy | hy
            · rcases List.mem_cons.mp hy with rfl | hy
              · exact Or.inr (List.mem_cons_self _ _)
              · exact Or.inl hy
            · exact Or.inr (List.mem_cons_of_mem _ hy)
          constructor
          · intro e he y hy
            rcases List.mem_cons.mp he with rfl | he
            · rcases List.mem_cons.mp hy with rfl | hy
              · exact Or.inr (List.mem_cons_self _ _)
              · exact hlift y (ihA (node, xs)
                  (List.mem_cons_of_mem _ (List.mem_cons_self _ _)) y hy)
            · exact hlift y (ihA e
                (List.mem_cons_of_mem _ (List.mem_cons_of_mem _ he)) y hy)
          · intro z hz y hy
            rcases List.mem_cons.mp hz with rfl | hz
            · exact hlift y (ihA (z, adj z) (List.mem_cons_self _ _) y hy)
            · exact hlift y (ihB z hz y hy)

theorem traverse_network_dfs_spec [DecidableEq α] [Fintype α] (adj : α → List α)
    (root : α) (fuel : Nat)
    (hfuel : (Fintype.card α + 1) *
      ((Finset.univ.sup fun y : α => (adj y).length) + 1) ≤ fuel) :
    (traverse_network_dfs adj root fuel).Nodup ∧
    ∀ x, x ∈ traverse_network_dfs adj root fuel ↔ Reaches adj root x := by
  have hB : ∀ y : α, (adj y).length + 1 ≤
      (Finset.univ.sup fun y : α => (adj y).length) + 1 := by
    intro y
    have h2 : (adj y).length ≤ Finset.univ.sup fun z : α => (adj z).length :=
      @Finset.le_sup _ _ _ _ Finset.univ (fun z : α => (adj z).length) y
        (Finset.mem_univ y)
    omega
  have hdef : traverse_network_dfs adj root fuel =
      root :: dfsAux adj fuel [(root, adj root)] [root] := rfl
  have hsound := dfsAux_sound adj root fuel [(root, adj root)] [root]
    (by
      intro e he
      rcases List.mem_singleton.mp he with rfl
      exact ⟨List.mem_singleton_self root, fun y hy => hy⟩)
    (by
      intro x hx
      rcases List.mem_singleton.mp hx with rfl
      exact reach_refl adj x)
  have hcardpos : 0 < Fintype.card α := Fintype.card_pos_iff.mpr ⟨root⟩
  have hcomp := dfsAux_complete adj
    ((Finset.univ.sup fun y : α => (adj y).length) + 1) hB fuel
    [(root, adj root)] [root] (List.nodup_singleton root)
    (by
      have hsum : ([(root, adj root)].map (fun e => e.2.length + 1)).sum =
          (adj root).length + 1 := by simp
      have hlen : ([root] : List α).length = 1 := rfl
      rw [hsum, hlen]
      have hBr := hB root
      have hmul : (Fintype.card α - 1) *
            ((Finset.univ.sup fun y : α => (adj y).length) + 1) +
            1 * ((Finset.univ.sup fun y : α => (adj y).length) + 1) =
          (Fintype.card α - 1 + 1) *
            ((Finset.univ.sup fun y : α => (adj y).length) + 1) := by
        rw [← Nat.add_mul]
      have hcc : Fintype.card α - 1 + 1 = Fintype.card α := by omega
      have hle : (Fintype.card α) *
            ((Finset.univ.sup fun y : α => (adj y).length) + 1) ≤
          (Fintype.card α + 1) *
            ((Finset.univ.sup fun y : α => (adj y).length) + 1) :=
        Nat.mul_le_mul_right _ (by omega)
      rw [hcc] at hmul
      rw [Nat.one_mul] at hmul
      omega)
  rw [hdef]
  constructor
  · refine List.nodup_cons.mpr ⟨?_, hsound.1⟩
    intro hmem
    exact (hsound.2 root hmem).1 (List.mem_singleton_self root)
  · intro x
    constructor
    · intro hx
      rcases List.mem_cons.mp hx with rfl | hx
      · exact reach_refl adj x
      · exact (hsound.2 x hx).2
    · rintro ⟨n, hn⟩
      induction n generalizing x with
      | zero =>
        have hx : x = root := hn
        subst hx
        exact List.mem_cons_self _ _
      | succ n ihn =>
        obtain ⟨c, hc, hxc⟩ := hn
        have hcmem := ihn c hc
        rcases List.mem_cons.mp hcmem with rfl | hcmem
        · rcases hcomp.1 (c, adj c) (List.mem_singleton_self _) x hxc with h | h
          · rcases List.mem_singleton.mp h with rfl
            exact List.mem_cons_self _ _
          · exact List.mem_cons_of_mem _ h
        · rcases hcomp.2 c hcmem x hxc with h | h
          · rcases List.mem_singleton.mp h with rfl
            exact List.mem_cons_self _ _
          · exact List.mem_cons_of_mem _ h

/-- C3: on any finite graph, with fuel at least the stated bounds, BFS and
DFS from `root` each yield every node reachable from `root` exactly once
(the outputs have no duplicates and their members are exactly the reachable
nodes), and the two traversals yield the same set of nodes. -/
theorem traversals_visit_reachable_exactly_once [DecidableEq α] [Fintype α]
    (adj : α → List α) (root : α) (fuel : Nat)
    (hbf : Fintype.card α ≤ fuel)
    (hdf : (Fintype.card α + 1) *
      ((Finset.univ.sup fun y : α => (adj y).length) + 1) ≤ fuel) :
    ((traverse_network_bfs adj root fuel).Nodup ∧
     (traverse_network_dfs adj root fuel).Nodup) ∧
    (∀ x, x ∈ traverse_network_bfs adj root fuel ↔ Reaches adj root x) ∧
    (∀ x, x ∈ traverse_network_dfs adj root fuel ↔ Reaches adj root x) ∧
    (∀ x, x ∈ traverse_network_bfs adj root fuel ↔
      x ∈ traverse_network_dfs adj root fuel) := by
  obtain ⟨hbnd, hbmem⟩ := traverse_network_bfs_spec adj root fuel hbf
  obtain ⟨hdnd, hdmem⟩ := traverse_network_dfs_spec adj root fuel hdf
  exact ⟨⟨hbnd, hdnd⟩, hbmem, hdmem,
    fun x => Iff.trans (hbmem x) (Iff.symm (hdmem x))⟩

/-- Witness for `traversals_visit_reachable_exactly_once`: the 3-node graph
0 → 1 ↔ 0, 1 → 2 with root 0 and fuel 20. -/
theorem traversals_visit_reachable_exactly_once_witness :
    ((traverse_network_bfs
        (fun i : Fin 3 => if i = 0 then [1] else if i = 1 then [0, 2] else [])
        0 20).Nodup ∧
     (traverse_network_dfs
        (fun i : Fin 3 => if i = 0 then [1] else if i = 1 then [0, 2] else [])
        0 20).Nodup) ∧
    (∀ x, x ∈ traverse_network_bfs
        (fun i : Fin 3 => if i = 0 then [1] else if i = 1 then [0, 2] else [])
        0 20 ↔
      Reaches (fun i : Fin 3 => if i = 0 then [1] else if i = 1 then [0, 2] else [])
        0 x) ∧
    (∀ x, x ∈ traverse_network_dfs
        (fun i : Fin 3 => if i = 0 then [1] else if i = 1 then [0, 2] else [])
        0 20 ↔
      Reaches (fun i : Fin 3 => if i = 0 then [1] else if i = 1 then [0, 2] else [])
        0 x) ∧
    (∀ x, x ∈ traverse_network_bfs
        (fun i : Fin 3 => if i = 0 then [1] else if i = 1 then [0, 2] else [])
        0 20 ↔
      x ∈ traverse_network_dfs
        (fun i : Fin 3 => if i = 0 then [1] else if i = 1 then [0, 2] else [])
        0 20) :=
  traversals_visit_reachable_exactly_once
    (fun i : Fin 3 => if i = 0 then [1] else if i = 1 then [0, 2] else [])
    0 20 (by decide) (by decide)

/-! ### shortest_path: minimal paths and the empty-result condition (C1, C8) -/

theorem orderNeighbors_mem [LinearOrder β] (order_by : Option (α → β)) (l : List α)
    (y : α) : y ∈ orderNeighbors order_by l ↔ y ∈ l := by
  cases order_by with
  | none => exact Iff.rfl
  | some f => exact (List.perm_insertionSort _ l).mem_iff

/-- `retrace` follows the predecessor map back to `source`: under the
predecessor-map invariant (each recorded edge goes from a labelled node to a
node labelled one higher), the reconstructed list is a path from `source` to
the start node whose length is the label plus one. -/
theorem retraceGo_spec [DecidableEq α] (adj : α → List α) (source : α)
    (prev : α → Option α) (lab : α → Nat) (V : List α)
    (hsrc0 : lab source = 0)
    (hP : ∀ z w, prev z = some w →
      z ∈ V ∧ z ≠ source ∧ w ∈ V ∧ z ∈ adj w ∧ lab z = lab w + 1)
    (hP2 : ∀ z ∈ V, z ≠ source → prev z ≠ none) :
    ∀ (f : Nat) (z : α) (acc : List α), z ∈ V → lab z < f →
      ∃ p, retraceGo prev source f z acc = some (p ++ acc) ∧
        p.length = lab z + 1 ∧ (∃ t, p = source :: t) ∧
        p.getLast? = some z ∧ IsPath adj p := by
  intro f
  induction f with
  | zero => intro z acc _ hlz; omega
  | succ f ih =>
    intro z acc hzV hlz
    by_cases hz : z = source
    · subst hz
      refine ⟨[z], ?_, by simp [hsrc0], ⟨[], rfl⟩, rfl, ?_⟩
      · rw [retraceGo]
        rw [if_pos rfl]
        rfl
      · exact List.chain'_singleton z
    · have hpz := hP2 z hzV hz
      cases hw : prev z with
      | none => exact absurd hw hpz
      | some w =>
        obtain ⟨_, _, hwV, hadj, hlab⟩ := hP z w hw
        have hlw : lab w < f := by omega
        obtain ⟨p1, hres, hlen, ⟨t, ht⟩, hlast, hpath⟩ := ih w (z :: acc) hwV hlw
        refine ⟨p1 ++ [z], ?_, ?_, ?_, ?_, ?_⟩
        · have hstep : retraceGo prev source (f + 1) z acc =
              retraceGo prev source f w (z :: acc) := by
            simp only [retraceGo]
            rw [if_neg hz, hw]
          rw [hstep, hres, List.append_assoc, List.singleton_append]
        · simp only [List.length_append, List.length_singleton]
          omega
        · exact ⟨t ++ [z], by rw [ht]; rfl⟩
        · exact List.getLast?_concat p1
        · unfold IsPath
          rw [List.chain'_append]
          refine ⟨hpath, List.chain'_singleton z, ?_⟩
          intro x hx y hy
          rw [hlast, Option.mem_some_iff] at hx
          simp only [List.head?_cons, Option.mem_some_iff] at hy
          subst hx
          subst hy
          exact hadj

/-- Escape lemma for the `shortest_path` loop invariants: any walk of length
`n` from `source` ends at a visited node whose label is at most `n`, or
leads out of the visited region through a node still on the queue. -/
theorem sp_escape [DecidableEq α] (adj : α → List α) (source : α)
    (q v : List α) (lab : α → Nat)
    (hsrc : source ∈ v) (hsrc0 : lab source = 0)
    (hVB : ∀ x ∈ v, ∀ w ∈ q, lab x ≤ lab w + 1)
    (hCL : ∀ x ∈ v, x ∉ q → ∀ y ∈ adj x, y ∈ v ∧ lab y ≤ lab x + 1) :
    ∀ (n : Nat) (y : α), ReachN adj n source y →
      (y ∈ v → lab y ≤ n) ∧
      (y ∉ v → ∃ w, w ∈ q ∧ ∃ k, ReachN adj k w y ∧ lab w + k ≤ n) := by
  intro n
  induction n with
  | zero =>
    intro y hy
    have hy2 : y = source := hy
    subst hy2
    exact ⟨fun _ => by omega, fun hns => absurd hsrc hns⟩
  | succ n ih =>
    intro y hy
    obtain ⟨c, hc, hyc⟩ := hy
    obtain ⟨ih1, ih2⟩ := ih c hc
    by_cases hcv : c ∈ v
    · have hlc := ih1 hcv
      by_cases hcq : c ∈ q
      · constructor
        · intro hyv
          have := hVB y hyv c hcq
          omega
        · intro _
          exact ⟨c, hcq, 1,
            show ∃ d, ReachN adj 0 c d ∧ y ∈ adj d from ⟨c, rfl, hyc⟩, by omega⟩
      · obtain ⟨hyv, hlyb⟩ := hCL c hcv hcq y hyc
        exact ⟨fun _ => by omega, fun hynv => absurd hyv hynv⟩
    · obtain ⟨w, hwq, k, hwk, hbound⟩ := ih2 hcv
      constructor
      · intro hyv
        have := hVB y hyv w hwq
        omega
      · intro _
        exact ⟨w, hwq, k + 1,
          show ∃ d, ReachN adj k w d ∧ y ∈ adj d from ⟨c, hwk, hyc⟩, by omega⟩

/-- One pass of the `for neighbor in neighbors` loop of `shortest_path`:
either it falls through (`Sum.inr`), appending the fresh unvisited
neighbors `new` to the queue, pushing them on `visited`, and recording
`node` as their predecessor — or it hits an unvisited `destination` and
early-returns (`Sum.inl`) the retrace over the predecessor map extended at
`destination`. -/
theorem spInner_spec [DecidableEq α] (source dest : α) (rfuel : Nat) (node : α) :
    ∀ (ys q v : List α) (prev : α → Option α),
      (∀ q2 v2 prev2,
        spInner source dest rfuel node ys q v prev = .inr (q2, v2, prev2) →
        ∃ new : List α,
          q2 = q ++ new ∧ v2 = new.reverse ++ v ∧
          new.Nodup ∧ (∀ z ∈ new, z ∉ v) ∧ (∀ z ∈ new, z ∈ ys) ∧
          (∀ z ∈ new, z ≠ dest) ∧
          (∀ y ∈ ys, y ∈ v ∨ y ∈ new) ∧
          (∀ z ∈ new, prev2 z = some node) ∧
          (∀ z, z ∉ new → prev2 z = prev z)) ∧
      (∀ res, spInner source dest rfuel node ys q v prev = .inl res →
        dest ∈ ys ∧ dest ∉ v ∧
        ∃ pm : α → Option α, ∃ new : List α,
          res = retraceGo (fun z => if z = dest then some node else pm z)
            source rfuel dest [] ∧
          new.Nodup ∧ (∀ z ∈ new, z ∉ v) ∧ (∀ z ∈ new, z ∈ ys) ∧
          (∀ z ∈ new, z ≠ dest) ∧
          (∀ z ∈ new, pm z = some node) ∧
          (∀ z, z ∉ new → pm z = prev z)) := by
  intro ys
  induction ys with
  | nil =>
    intro q v prev
    constructor
    · intro q2 v2 prev2 heq
      simp only [spInner, Sum.inr.injEq, Prod.mk.injEq] at heq
      obtain ⟨h1, h2, h3⟩ := heq
      subst h1
      subst h2
      subst h3
      refine ⟨[], by simp, by simp, List.nodup_nil, by simp, by simp, by simp,
        by simp, by simp, fun z _ => rfl⟩
    · intro res heq
      simp only [spInner] at heq
      exact Sum.noConfusion heq
  | cons y ys ih =>
    intro q v prev
    by_cases hyv : y ∈ v
    · have hstep : spInner source dest rfuel node (y :: ys) q v prev =
          spInner source dest rfuel node ys q v prev := by
        show (if y ∈ v then spInner source dest rfuel node ys q v prev
          else
            if y = dest then
              .inl (retraceGo (fun z => if z = y then some node else prev z)
                source rfuel dest [])
            else spInner source dest rfuel node ys (q ++ [y]) (y :: v)
              (fun z => if z = y then some node else prev z)) =
          spInner source dest rfuel node ys q v prev
        rw [if_pos hyv]
      obtain ⟨ihr, ihl⟩ := ih q v prev
      constructor
      · intro q2 v2 prev2 heq
        rw [hstep] at heq
        obtain ⟨new, h1, h2, h3, h4, h5, h6, h7, h8, h9⟩ := ihr q2 v2 prev2 heq
        refine ⟨new, h1, h2, h3, h4, fun z hz => List.mem_cons_of_mem _ (h5 z hz),
          h6, ?_, h8, h9⟩
        intro y2 hy2
        rcases List.mem_cons.mp hy2 with rfl | hy2
        · exact Or.inl hyv
        · exact h7 y2 hy2
      · intro res heq
        rw [hstep] at heq
        obtain ⟨hd1, hd2, pm, new, hres, h3, h4, h5, h6, h7, h8⟩ := ihl res heq
        exact ⟨List.mem_cons_of_mem _ hd1, hd2, pm, new, hres, h3, h4,
          fun z hz => List.mem_cons_of_mem _ (h5 z hz), h6, h7, h8⟩
    · by_cases hyd : y = dest
      · have hstep : spInner source dest rfuel node (y :: ys) q v prev =
            .inl (retraceGo (fun z => if z = y then some node else prev z)
              source rfuel dest []) := by
          show (if y ∈ v then spInner source dest rfuel node ys q v prev
            else
              if y = dest then
                .inl (retraceGo (fun z => if z = y then some node else prev z)
                  source rfuel dest [])
              else spInner source dest rfuel node ys (q ++ [y]) (y :: v)
                (fun z => if z = y then some node else prev z)) =
            .inl (retraceGo (fun z => if z = y then some node else prev z)
              source rfuel dest [])
          rw [if_neg hyv, if_pos hyd]
        constructor
        · intro q2 v2 prev2 heq
          rw [hstep] at heq
          exact Sum.noConfusion heq
        · intro res heq
          rw [hstep] at heq
          have hres : res = retraceGo (fun z => if z = y then some node else prev z)
              source rfuel dest [] := by
            injection heq with h
            exact h.symm
          rw [hyd] at hres
          refine ⟨by rw [← hyd]; exact List.mem_cons_self _ _,
            by rw [← hyd]; exact hyv, prev, [], hres, List.nodup_nil,
            by simp, by simp, by simp, by simp, fun z _ => rfl⟩
      · have hstep : spInner source dest rfuel node (y :: ys) q v prev =
            spInner source dest rfuel node ys (q ++ [y]) (y :: v)
              (fun z => if z = y then some node else prev z) := by
          show (if y ∈ v then spInner source dest rfuel node ys q v prev
            else
              if y = dest then
                .inl (retraceGo (fun z => if z = y then some node else prev z)
                  source rfuel dest [])
              else spInner source dest rfuel node ys (q ++ [y]) (y :: v)
                (fun z => if z = y then some node else prev z)) =
            spInner source dest rfuel node ys (q ++ [y]) (y :: v)
              (fun z => if z = y then some node else prev z)
          rw [if_neg hyv, if_neg hyd]
        obtain ⟨ihr, ihl⟩ :=
          ih (q ++ [y]) (y :: v) (fun z => if z = y then some node else prev z)
        constructor
        · intro q2 v2 prev2 heq
          rw [hstep] at heq
          obtain ⟨new1, h1, h2, h3, h4, h5, h6, h7, h8, h9⟩ := ihr q2 v2 prev2 heq
          have hynew : y ∉ new1 := fun hy => (h4 y hy) (List.mem_cons_self _ _)
          refine ⟨y :: new1, ?_, ?_, List.nodup_cons.mpr ⟨hynew, h3⟩, ?_, ?_, ?_,
            ?_, ?_, ?_⟩
          · rw [h1, List.append_assoc]
            rfl
          · rw [h2, List.reverse_cons, List.append_assoc]
            rfl
          · intro z hz
            rcases List.mem_cons.mp hz with rfl | hz
            · exact hyv
            · exact fun hv => (h4 z hz) (List.mem_cons_of_mem _ hv)
          · intro z hz
            rcases List.mem_cons.mp hz with rfl | hz
            · exact List.mem_cons_self _ _
            · exact List.mem_cons_of_mem _ (h5 z hz)
          · intro z hz
            rcases List.mem_cons.mp hz with rfl | hz
            · exact hyd
            · exact h6 z hz
          · intro y2 hy2
            rcases List.mem_cons.mp hy2 with rfl | hy2
            · exact Or.inr (List.mem_cons_self _ _)
            · rcases h7 y2 hy2 with h | h
              · rcases List.mem_cons.mp h with rfl | h
                · exact Or.inr (List.mem_cons_self _ _)
                · exact Or.inl h
              · exact Or.inr (List.mem_cons_of_mem _ h)
          · intro z hz
            rcases List.mem_cons.mp hz with rfl | hz
            · rw [h9 z hynew]
              rw [if_pos rfl]
            · exact h8 z hz
          · intro z hz
            have hz1 : z ∉ new1 := fun h => hz (List.mem_cons_of_mem _ h)
            have hzy : z ≠ y := fun h => hz (by rw [h]; exact List.mem_cons_self _ _)
            rw [h9 z hz1]
            rw [if_neg hzy]
        · intro res heq
          rw [hstep] at heq
          obtain ⟨hd1, hd2, pm, new1, hres, h3, h4, h5, h6, h7, h8⟩ := ihl res heq
          have hynew : y ∉ new1 := fun hy => (h4 y hy) (List.mem_cons_self _ _)
          refine ⟨List.mem_cons_of_mem _ hd1,
            fun hdv => hd2 (List.mem_cons_of_mem _ hdv),
            pm, y :: new1, hres, List.nodup_cons.mpr ⟨hynew, h3⟩, ?_, ?_, ?_, ?_, ?_⟩
          · intro z hz
            rcases List.mem_cons.mp hz with rfl | hz
            · exact hyv
            · exact fun hv => (h4 z hz) (List.mem_cons_of_mem _ hv)
          · intro z hz
            rcases List.mem_cons.mp hz with rfl | hz
            · exact List.mem_cons_self _ _
            · exact List.mem_cons_of_mem _ (h5 z hz)
          · intro z hz
            rcases List.mem_cons.mp hz with rfl | hz
            · exact hyd
            · exact h6 z hz
          · intro z hz
            rcases List.mem_cons.mp hz with rfl | hz
            · rw [h8 z hynew]
              rw [if_pos rfl]
            · exact h7 z hz
          · intro z hz
            have hz1 : z ∉ new1 := fun h => hz (List.mem_cons_of_mem _ h)
            have hzy : z ≠ y := fun h => hz (by rw [h]; exact List.mem_cons_self _ _)
            rw [h8 z hz1]
            rw [if_neg hzy]

/-- Master lemma for the `while queue:` loop of `shortest_path`.  Under the
BFS invariants (ghost distance labels `lab` on the visited region, a
label-sorted queue, the expanded-closure property, and the predecessor-map
invariant) and sufficient fuel: if the destination is the source or is
unreachable the loop drains and falls through to `return []`; otherwise the
early return fires and yields a genuine path from source to destination of
minimal length. -/
theorem spLoop_master [DecidableEq α] [Fintype α] [LinearOrder β] (adj : α → List α)
    (order_by : Option (α → β)) (source dest : α) (rfuel : Nat)
    (hrfuel : Fintype.card α < rfuel) :
    ∀ (fuel : Nat) (q v : List α) (prev : α → Option α) (lab : α → Nat),
      v.Nodup → q.Nodup → (∀ x ∈ q, x ∈ v) →
      source ∈ v → lab source = 0 →
      (∀ x ∈ v, ReachN adj (lab x) source x) →
      List.Pairwise (fun a b => lab a ≤ lab b) q →
      (∀ x ∈ v, ∀ w ∈ q, lab x ≤ lab w + 1) →
      (∀ x ∈ v, x ∉ q → ∀ y ∈ adj x, y ∈ v ∧ lab y ≤ lab x + 1) →
      (dest ∈ v → dest = source) →
      (∀ z w, prev z = some w →
        z ∈ v ∧ z ≠ source ∧ w ∈ v ∧ z ∈ adj w ∧ lab z = lab w + 1) →
      (∀ z ∈ v, z ≠ source → prev z ≠ none) →
      (∀ x ∈ v, lab x < v.length) →
      q.length + (Fintype.card α - v.length) < fuel →
      ((dest = source ∨ ¬ Reaches adj source dest) →
        spLoop adj order_by source dest rfuel fuel q v prev = some []) ∧
      (dest ≠ source → Reaches adj source dest →
        ∃ p, spLoop adj order_by source dest rfuel fuel q v prev = some p ∧
          (∃ t, p = source :: t) ∧ p.getLast? = some dest ∧ IsPath adj p ∧
          ∃ m, ReachN adj m source dest ∧ p.length = m + 1 ∧
            ∀ n, ReachN adj n source dest → m ≤ n) := by
  intro fuel
  induction fuel with
  | zero =>
    intro q v prev lab _ _ _ _ _ _ _ _ _ _ _ _ _ hfuel
    exact absurd hfuel (by omega)
  | succ fuel ih =>
    intro q v prev lab hvnd hqnd hqv hsrc hsrc0 hR hpw hVB hCL hD hP hP2 hLB hfuel
    cases q with
    | nil =>
      have hstep : spLoop adj order_by source dest rfuel (fuel + 1) [] v prev =
          some [] := rfl
      constructor
      · intro _
        exact hstep
      · intro hne hreach
        obtain ⟨n, hn⟩ := hreach
        obtain ⟨hesc1, hesc2⟩ := sp_escape adj source [] v lab hsrc hsrc0 hVB hCL n dest hn
        by_cases hdv : dest ∈ v
        · exact absurd (hD hdv) hne
        · obtain ⟨w, hw, _⟩ := hesc2 hdv
          exact absurd hw (List.not_mem_nil w)
    | cons node rest =>
      have hnodev : node ∈ v := hqv node (List.mem_cons_self _ _)
      have hrestv : ∀ x ∈ rest, x ∈ v := fun x hx => hqv x (List.mem_cons_of_mem _ hx)
      have hpwc := List.pairwise_cons.mp hpw
      obtain ⟨specr, specl⟩ := spInner_spec source dest rfuel node
        (orderNeighbors order_by (adj node)) rest v prev
      cases hsp : spInner source dest rfuel node
          (orderNeighbors order_by (adj node)) rest v prev with
      | inl res =>
        have hstep : spLoop adj order_by source dest rfuel (fuel + 1)
            (node :: rest) v prev = res := by
          simp only [spLoop]
          rw [hsp]
        obtain ⟨hdys, hdnv, pm, new, hres, hn_nd, hn_nv, hn_ys, hn_nd2, hpon, hpoff⟩ :=
          specl res hsp
        have hdadj : dest ∈ adj node :=
          (orderNeighbors_mem order_by (adj node) dest).mp hdys
        have hdns : dest ≠ source := fun h => hdnv (by rw [h]; exact hsrc)
        have hReachdest : ReachN adj (lab node + 1) source dest :=
          show ∃ c, ReachN adj (lab node) source c ∧ dest ∈ adj c from
            ⟨node, hR node hnodev, hdadj⟩
        have hn_adj : ∀ z ∈ new, z ∈ adj node := fun z hz =>
          (orderNeighbors_mem order_by (adj node) z).mp (hn_ys z hz)
        set V2 := dest :: (new.reverse ++ v) with hV2def
        set lab2 := fun z => if z = dest then lab node + 1
          else if z ∈ new then lab node + 1 else lab z with hlab2def
        have hlab2 : ∀ z, lab2 z = if z = dest then lab node + 1
            else if z ∈ new then lab node + 1 else lab z := fun z => by rw [hlab2def]
        have hnewv : ∀ z ∈ v, z ∉ new := fun z hz hn => hn_nv z hn hz
        have hlab2v : ∀ z ∈ v, lab2 z = lab z := by
          intro z hz
          rw [hlab2 z, if_neg (fun h : z = dest => hdnv (by rw [← h]; exact hz)),
            if_neg (hnewv z hz)]
        have hlab2n : ∀ z ∈ new, lab2 z = lab node + 1 := by
          intro z hz
          rw [hlab2 z]
          by_cases hzd : z = dest
          · rw [if_pos hzd]
          · rw [if_neg hzd, if_pos hz]
        have hlab2d : lab2 dest = lab node + 1 := by
          rw [hlab2 dest, if_pos rfl]
        have hmemV2 : ∀ z, z ∈ V2 ↔ z = dest ∨ z ∈ new ∨ z ∈ v := by
          intro z
          rw [hV2def, List.mem_cons, List.mem_append, List.mem_reverse]
        have hsrc02 : lab2 source = 0 := by
          rw [hlab2v source hsrc]
          exact hsrc0
        have hPr : ∀ z w, (fun z => if z = dest then some node else pm z) z = some w →
            z ∈ V2 ∧ z ≠ source ∧ w ∈ V2 ∧ z ∈ adj w ∧ lab2 z = lab2 w + 1 := by
          intro z w hzw
          dsimp only at hzw
          by_cases hzd : z = dest
          · rw [if_pos hzd] at hzw
            have hw : w = node := by injection hzw with h; exact h.symm
            subst hw
            subst hzd
            refine ⟨(hmemV2 z).mpr (Or.inl rfl), hdns,
              (hmemV2 w).mpr (Or.inr (Or.inr hnodev)), hdadj, ?_⟩
            rw [hlab2d, hlab2v w hnodev]
          · rw [if_neg hzd] at hzw
            by_cases hzn : z ∈ new
            · rw [hpon z hzn] at hzw
              have hw : w = node := by injection hzw with h; exact h.symm
              subst hw
              refine ⟨(hmemV2 z).mpr (Or.inr (Or.inl hzn)),
                fun h => hn_nv z hzn (by rw [h]; exact hsrc),
                (hmemV2 w).mpr (Or.inr (Or.inr hnodev)), hn_adj z hzn, ?_⟩
              rw [hlab2n z hzn, hlab2v w hnodev]
            · rw [hpoff z hzn] at hzw
              obtain ⟨hzv, hzs, hwv, hzadj, hzlab⟩ := hP z w hzw
              refine ⟨(hmemV2 z).mpr (Or.inr (Or.inr hzv)), hzs,
                (hmemV2 w).mpr (Or.inr (Or.inr hwv)), hzadj, ?_⟩
              rw [hlab2v z hzv, hlab2v w hwv]
              omega
        have hPr2 : ∀ z ∈ V2, z ≠ source →
            (fun z => if z = dest then some node else pm z) z ≠ none := by
          intro z hz hzs
          dsimp only
          by_cases hzd : z = dest
          · rw [if_pos hzd]
            exact Option.some_ne_none _
          · rw [if_neg hzd]
            rcases (hmemV2 z).mp hz with h | h | h
            · exact absurd h hzd
            · rw [hpon z h]
              exact Option.some_ne_none _
            · rw [hpoff z (hnewv z h)]
              exact hP2 z h hzs
        have hcardv : v.length ≤ Fintype.card α := hvnd.length_le_card
        have hlabdest : lab2 dest < rfuel := by
          rw [hlab2d]
          have := hLB node hnodev
          omega
        obtain ⟨p, hpres, hplen, ⟨t, ht⟩, hplast, hppath⟩ :=
          retraceGo_spec adj source (fun z => if z = dest then some node else pm z)
            lab2 V2 hsrc02 hPr hPr2 rfuel dest [] ((hmemV2 dest).mpr (Or.inl rfl))
            hlabdest
        rw [List.append_nil] at hpres
        have hmin : ∀ n, ReachN adj n source dest → lab node + 1 ≤ n := by
          intro n hn
          obtain ⟨hesc1, hesc2⟩ := sp_escape adj source (node :: rest) v lab hsrc hsrc0
            hVB hCL n dest hn
          obtain ⟨w, hwq, k, hwk, hb⟩ := hesc2 hdnv
          cases k with
          | zero =>
            have hdw : dest = w := hwk
            rw [hdw] at hdnv
            exact absurd (hqv w hwq) hdnv
          | succ k =>
            rcases List.mem_cons.mp hwq with rfl | hwrest
            · omega
            · have := hpwc.1 w hwrest
              omega
        constructor
        · intro h
          rcases h with h | h
          · exact absurd h hdns
          · exact absurd ⟨lab node + 1, hReachdest⟩ h
        · intro _ _
          refine ⟨p, ?_, ⟨t, ht⟩, hplast, hppath, lab node + 1, hReachdest, ?_, hmin⟩
          · rw [hstep, hres]
            exact hpres
          · rw [hplen, hlab2d]
      | inr s =>
        obtain ⟨q2, v2, prev2⟩ := s
        have hstep : spLoop adj order_by source dest rfuel (fuel + 1)
            (node :: rest) v prev = spLoop adj order_by source dest rfuel fuel
              q2 v2 prev2 := by
          simp only [spLoop]
          rw [hsp]
        obtain ⟨new, hq2, hv2, hn_nd, hn_nv, hn_ys, hn_nd2, hcover, hpon, hpoff⟩ :=
          specr q2 v2 prev2 hsp
        have hn_adj : ∀ z ∈ new, z ∈ adj node := fun z hz =>
          (orderNeighbors_mem order_by (adj node) z).mp (hn_ys z hz)
        have hcover2 : ∀ y ∈ adj node, y ∈ v ∨ y ∈ new := fun y hy =>
          hcover y ((orderNeighbors_mem order_by (adj node) y).mpr hy)
        have hmemv2 : ∀ z, z ∈ v2 ↔ z ∈ new ∨ z ∈ v := by
          intro z
          rw [hv2, List.mem_append, List.mem_reverse]
        have hlenv2 : v2.length = new.length + v.length := by
          rw [hv2, List.length_append, List.length_reverse]
        have hmemq2 : ∀ z, z ∈ q2 ↔ z ∈ rest ∨ z ∈ new := by
          intro z
          rw [hq2, List.mem_append]
        have hlenq2 : q2.length = rest.length + new.length := by
          rw [hq2, List.length_append]
        have hnewlab : ∀ z ∈ v, z ∉ new := fun z hz hn => hn_nv z hn hz
        set lab2 := fun z => if z ∈ new then lab node + 1 else lab z with hlab2def
        have hlab2 : ∀ z, lab2 z = if z ∈ new then lab node + 1 else lab z :=
          fun z => by rw [hlab2def]
        have hlab2n : ∀ z ∈ new, lab2 z = lab node + 1 := fun z hz => by
          rw [hlab2 z, if_pos hz]
        have hlab2v : ∀ z ∈ v, lab2 z = lab z := fun z hz => by
          rw [hlab2 z, if_neg (hnewlab z hz)]
        have hvnd2 : v2.Nodup := by
          rw [hv2]
          exact List.Nodup.append (List.nodup_reverse.mpr hn_nd) hvnd
            (fun a ha hav => hn_nv a (List.mem_reverse.mp ha) hav)
        have hqnd2 : q2.Nodup := by
          rw [hq2]
          exact List.Nodup.append (List.nodup_cons.mp hqnd).2 hn_nd
            (fun a ha han => hn_nv a han (hrestv a ha))
        have hqv2 : ∀ x ∈ q2, x ∈ v2 := by
          intro x hx
          rcases (hmemq2 x).mp hx with h | h
          · exact (hmemv2 x).mpr (Or.inr (hrestv x h))
          · exact (hmemv2 x).mpr (Or.inl h)
        have hsrc2 : source ∈ v2 := (hmemv2 source).mpr (Or.inr hsrc)
        have hsrc02 : lab2 source = 0 := by
          rw [hlab2v source hsrc]
          exact hsrc0
        have hR2 : ∀ x ∈ v2, ReachN adj (lab2 x) source x := by
          intro x hx
          rcases (hmemv2 x).mp hx with hx | hx
          · rw [hlab2n x hx]
            exact show ∃ c, ReachN adj (lab node) source c ∧ x ∈ adj c from
              ⟨node, hR node hnodev, hn_adj x hx⟩
          · rw [hlab2v x hx]
            exact hR x hx
        have hpw2 : List.Pairwise (fun a b => lab2 a ≤ lab2 b) q2 := by
          rw [hq2, List.pairwise_append]
          refine ⟨?_, ?_, ?_⟩
          · refine List.Pairwise.imp_of_mem ?_ hpwc.2
            intro a b ha hb hab
            rw [hlab2v a (hrestv a ha), hlab2v b (hrestv b hb)]
            exact hab
          · refine List.Pairwise.imp_of_mem ?_ hn_nd
            intro a b ha hb _
            rw [hlab2n a ha, hlab2n b hb]
          · intro a ha b hb
            rw [hlab2v a (hrestv a ha), hlab2n b hb]
            have := hVB a (hrestv a ha) node (List.mem_cons_self _ _)
            omega
        have hVB2 : ∀ x ∈ v2, ∀ w ∈ q2, lab2 x ≤ lab2 w + 1 := by
          intro x hx w hw
          rcases (hmemv2 x).mp hx with hx | hx
          · rw [hlab2n x hx]
            rcases (hmemq2 w).mp hw with hw | hw
            · rw [hlab2v w (hrestv w hw)]
              have := hpwc.1 w hw
              omega
            · rw [hlab2n w hw]
              omega
          · rw [hlab2v x hx]
            rcases (hmemq2 w).mp hw with hw | hw
            · rw [hlab2v w (hrestv w hw)]
              exact hVB x hx w (List.mem_cons_of_mem _ hw)
            · rw [hlab2n w hw]
              have := hVB x hx node (List.mem_cons_self _ _)
              omega
        have hCL2 : ∀ x ∈ v2, x ∉ q2 → ∀ y ∈ adj x, y ∈ v2 ∧ lab2 y ≤ lab2 x + 1 := by
          intro x hx hxq y hy
          rcases (hmemv2 x).mp hx with hxn | hxv
          · exact absurd ((hmemq2 x).mpr (Or.inr hxn)) hxq
          · by_cases hxnode : x = node
            · subst hxnode
              rcases hcover2 y hy with hyv | hyn
              · refine ⟨(hmemv2 y).mpr (Or.inr hyv), ?_⟩
                rw [hlab2v y hyv, hlab2v x hxv]
                exact hVB y hyv x (List.mem_cons_self _ _)
              · refine ⟨(hmemv2 y).mpr (Or.inl hyn), ?_⟩
                rw [hlab2n y hyn, hlab2v x hxv]
            · have hxrest : x ∉ rest := fun hr => hxq ((hmemq2 x).mpr (Or.inl hr))
              have hxq0 : x ∉ (node :: rest) := by
                intro hmem
                rcases List.mem_cons.mp hmem with h | h
                · exact hxnode h
                · exact hxrest h
              obtain ⟨hyv, hylb⟩ := hCL x hxv hxq0 y hy
              refine ⟨(hmemv2 y).mpr (Or.inr hyv), ?_⟩
              rw [hlab2v y hyv, hlab2v x hxv]
              exact hylb
        have hD2 : dest ∈ v2 → dest = source := by
          intro hdv
          rcases (hmemv2 dest).mp hdv with h | h
          · exact absurd rfl (hn_nd2 dest h)
          · exact hD h
        have hPm2 : ∀ z w, prev2 z = some w →
            z ∈ v2 ∧ z ≠ source ∧ w ∈ v2 ∧ z ∈ adj w ∧ lab2 z = lab2 w + 1 := by
          intro z w hzw
          by_cases hzn : z ∈ new
          · rw [hpon z hzn] at hzw
            have hw : w = node := by injection hzw with h; exact h.symm
            subst hw
            refine ⟨(hmemv2 z).mpr (Or.inl hzn),
              fun h => hn_nv z hzn (by rw [h]; exact hsrc),
              (hmemv2 w).mpr (Or.inr hnodev), hn_adj z hzn, ?_⟩
            rw [hlab2n z hzn, hlab2v w hnodev]
          · rw [hpoff z hzn] at hzw
            obtain ⟨hzv, hzs, hwv, hzadj, hzlab⟩ := hP z w hzw
            refine ⟨(hmemv2 z).mpr (Or.inr hzv), hzs,
              (hmemv2 w).mpr (Or.inr hwv), hzadj, ?_⟩
            rw [hlab2v z hzv, hlab2v w hwv]
            omega
        have hP22 : ∀ z ∈ v2, z ≠ source → prev2 z ≠ none := by
          intro z hz hzs
          rcases (hmemv2 z).mp hz with hzn | hzv
          · rw [hpon z hzn]
            exact Option.some_ne_none _
          · rw [hpoff z (hnewlab z hzv)]
            exact hP2 z hzv hzs
        have hLB2 : ∀ x ∈ v2, lab2 x < v2.length := by
          intro x hx
          rcases (hmemv2 x).mp hx with hxn | hxv
          · rw [hlab2n x hxn, hlenv2]
            have h1 := hLB node hnodev
            have h3 : 0 < new.length := List.length_pos.mpr (List.ne_nil_of_mem hxn)
            omega
          · rw [hlab2v x hxv, hlenv2]
            have := hLB x hxv
            omega
        have hfuel2 : q2.length + (Fintype.card α - v2.length) < fuel := by
          have hcard2 : v2.length ≤ Fintype.card α := hvnd2.length_le_card
          have hql : (node :: rest).length = rest.length + 1 := rfl
          rw [hlenq2, hlenv2]
          rw [hql] at hfuel
          rw [hlenv2] at hcard2
          omega
        rw [hstep]
        exact ih q2 v2 prev2 lab2 hvnd2 hqnd2 hqv2 hsrc2 hsrc02 hR2 hpw2 hVB2
          hCL2 hD2 hPm2 hP22 hLB2 hfuel2

/-- `shortest_path` top-level behaviour, by instantiating the master lemma
at the initial state (queue `[source]`, visited `{source}`, empty
predecessor map, label 0). -/
theorem shortest_path_spec [DecidableEq α] [Fintype α] [LinearOrder β]
    (adj : α → List α) (source dest : α) (order_by : Option (α → β)) (fuel : Nat)
    (hfuel : Fintype.card α < fuel) :
    ((dest = source ∨ ¬ Reaches adj source dest) →
      shortest_path adj source dest order_by fuel = some []) ∧
    (dest ≠ source → Reaches adj source dest →
      ∃ p, shortest_path adj source dest order_by fuel = some p ∧
        (∃ t, p = source :: t) ∧ p.getLast? = some dest ∧ IsPath adj p ∧
        ∃ m, ReachN adj m source dest ∧ p.length = m + 1 ∧
          ∀ n, ReachN adj n source dest → m ≤ n) := by
  have hdef : shortest_path adj source dest order_by fuel =
      spLoop adj order_by source dest fuel fuel [source] [source] (fun _ => none) :=
    rfl
  have hcardpos : 0 < Fintype.card α := Fintype.card_pos_iff.mpr ⟨source⟩
  have h := spLoop_master adj order_by source dest fuel hfuel fuel [source] [source]
    (fun _ => none) (fun _ => 0)
    (List.nodup_singleton source) (List.nodup_singleton source)
    (fun x hx => hx)
    (List.mem_singleton_self source) rfl
    (by
      intro x hx
      rcases List.mem_singleton.mp hx with rfl
      exact rfl)
    (List.pairwise_singleton _ _)
    (fun x _ w _ => Nat.zero_le _)
    (fun x hx hxq => absurd hx hxq)
    (fun hdv => List.mem_singleton.mp hdv)
    (fun z w hzw => Option.noConfusion hzw)
    (by
      intro z hz hzs
      rcases List.mem_singleton.mp hz with rfl
      exact absurd rfl hzs)
    (by
      intro x hx
      rcases List.mem_singleton.mp hx with rfl
      exact Nat.zero_lt_one)
    (by
      have h1 : ([source] : List α).length = 1 := rfl
      rw [h1]
      omega)
  rw [hdef]
  exact h

/-- C1 (amended): on any finite graph, for any neighbor ordering (`order_by`
= None or a sort key), any source, and any reachable destination different
from the source, `shortest_path` returns a path that starts at the source,
ends at the destination, follows graph edges, and has minimal length among
all source-to-destination walks.  (For destination = source the function
returns `[]` instead of the trivial one-node path — see the
counterexample.) -/
theorem shortest_path_minimal [DecidableEq α] [Fintype α] [LinearOrder β]
    (adj : α → List α) (source dest : α) (order_by : Option (α → β)) (fuel : Nat)
    (hfuel : Fintype.card α < fuel) (hne : dest ≠ source)
    (hreach : Reaches adj source dest) :
    ∃ p, shortest_path adj source dest order_by fuel = some p ∧
      (∃ t, p = source :: t) ∧ p.getLast? = some dest ∧ IsPath adj p ∧
      ∃ m, ReachN adj m source dest ∧ p.length = m + 1 ∧
        ∀ n, ReachN adj n source dest → m ≤ n :=
  (shortest_path_spec adj source dest order_by fuel hfuel).2 hne hreach

/-- Witness for `shortest_path_minimal`: the diamond graph 0-1, 1-3, 0-2,
2-3 (A-B, B-D, A-C, C-D) with source 0 and destination 3. -/
theorem shortest_path_minimal_witness :
    ∃ p, shortest_path
        (fun i : Fin 4 => if i = 0 then [1, 2] else if i = 3 then [] else [3])
        0 3 (none : Option (Fin 4 → Nat)) 5 = some p ∧
      (∃ t, p = 0 :: t) ∧ p.getLast? = some 3 ∧
      IsPath (fun i : Fin 4 => if i = 0 then [1, 2] else if i = 3 then [] else [3]) p ∧
      ∃ m, ReachN (fun i : Fin 4 => if i = 0 then [1, 2] else if i = 3 then [] else [3])
          m 0 3 ∧ p.length = m + 1 ∧
        ∀ n, ReachN (fun i : Fin 4 => if i = 0 then [1, 2] else if i = 3 then [] else [3])
          n 0 3 → m ≤ n :=
  shortest_path_minimal
    (fun i : Fin 4 => if i = 0 then [1, 2] else if i = 3 then [] else [3])
    0 3 (none : Option (Fin 4 → Nat)) 5 (by decide) (by decide)
    ⟨2, by decide⟩

/-- Counterexample to C1 as stated: on the 2-cycle 0 ↔ 1 the destination 0
is reachable from source 0 (trivially, and by the cycle 0→1→0), yet
`shortest_path` returns `[]` rather than any path: the destination check
runs only on unvisited neighbors and the source is visited from the start. -/
theorem shortest_path_trivial_destination_empty :
    shortest_path (fun i : Fin 2 => if i = 0 then [1] else [0]) 0 0
      (none : Option (Fin 2 → Nat)) 5 = some [] ∧
    ReachN (fun i : Fin 2 => if i = 0 then [1] else [0]) 2 0 0 ∧
    Reaches (fun i : Fin 2 => if i = 0 then [1] else [0]) 0 0 :=
  ⟨rfl, by decide, ⟨0, rfl⟩⟩

/-- C8 (amended): with sufficient fuel `shortest_path` never returns `None`
(no exception, no broken retrace), and it returns the empty list precisely
when the destination equals the source or is unreachable.  The trivial case
destination = source is therefore NOT distinguished from unreachability —
both produce the same empty result (see the counterexample). -/
theorem shortest_path_empty_iff [DecidableEq α] [Fintype α] [LinearOrder β]
    (adj : α → List α) (source dest : α) (order_by : Option (α → β)) (fuel : Nat)
    (hfuel : Fintype.card α < fuel) :
    shortest_path adj source dest order_by fuel ≠ none ∧
    (shortest_path adj source dest order_by fuel = some [] ↔
      (dest = source ∨ ¬ Reaches adj source dest)) := by
  obtain ⟨h1, h2⟩ := shortest_path_spec adj source dest order_by fuel hfuel
  by_cases hc : dest = source ∨ ¬ Reaches adj source dest
  · rw [h1 hc]
    exact ⟨Option.some_ne_none _, ⟨fun _ => hc, fun _ => rfl⟩⟩
  · push_neg at hc
    obtain ⟨hne, hreach⟩ := hc
    obtain ⟨p, hp, ⟨t, ht⟩, _, _, _⟩ := h2 hne hreach
    rw [hp]
    refine ⟨Option.some_ne_none _, ?_, ?_⟩
    · intro hsome
      have hpe : p = [] := Option.some.inj hsome
      rw [ht] at hpe
      exact absurd hpe (List.cons_ne_nil source t)
    · intro hor
      rcases hor with h | h
      · exact absurd h hne
      · exact absurd hreach h

/-- Witness for `shortest_path_empty_iff`: the two-node graph 0 → 1 with
source 0 and destination 1. -/
theorem shortest_path_empty_iff_witness :
    shortest_path (fun i : Fin 2 => if i = 0 then [1] else [])
      0 1 (none : Option (Fin 2 → Nat)) 5 ≠ none ∧
    (shortest_path (fun i : Fin 2 => if i = 0 then [1] else [])
        0 1 (none : Option (Fin 2 → Nat)) 5 = some [] ↔
      ((1 : Fin 2) = 0 ∨
        ¬ Reaches (fun i : Fin 2 => if i = 0 then [1] else []) 0 1)) :=
  shortest_path_empty_iff (fun i : Fin 2 => if i = 0 then [1] else [])
    0 1 (none : Option (Fin 2 → Nat)) 5 (by decide)

/-- Counterexample to C8 as stated: with source = destination = 0 on the
single-node graph, the destination is (trivially) reachable, yet the result
is the same empty list an unreachable destination produces — the claimed
distinction between "unreachable" and "found trivially" does not exist. -/
theorem shortest_path_unreachable_vs_trivial :
    shortest_path (fun _ : Fin 1 => ([] : List (Fin 1))) 0 0
      (none : Option (Fin 1 → Nat)) 3 = some [] ∧
    Reaches (fun _ : Fin 1 => ([] : List (Fin 1))) 0 0 :=
  ⟨rfl, ⟨0, rfl⟩⟩
